import Mathlib

/-!
Ford-Johnson merge-insertion sort (`src/FJA.cpp`, `src/main.cpp`, `src/utils.cpp`).

A shallow embedding of the sorting core of `FJASort::FJA` and of the input
validation in front of it.

* The core is modelled on the sequence a container holds, a `List Int`; the
  elements are only ever compared and copied, never used in arithmetic.  The
  templates are also written once over the operations of a container type
  (`...On`), instantiated at a one-array vector and at a two-block deque, and
  shown to compute, on every lawful container, what the list model computes
  (`fordJohnsonSortOn_eq`).
* `size_t` indices and boundaries are `Nat`.  The one place that does arithmetic
  on them, `generateJacobsthalSequence`, is private and is only called with
  `pairs.size()`; every value it computes is at most `3 * pairCount`
  (`jacobsthalGrow_small`), so nothing wraps around
  (`jacobsthalGrowWrapped_eq`).
* `container[i]` is `List.getD container i 0`, `push_back x` is `++ [x]`,
  `back()` is `getLastD`, `pop_back()` is `dropLast`.  A second copy of the core
  (`...Checked`) reads with `container[i]?` and fails on an access out of range.
* `while` loops carry a fuel argument; each top-level function supplies its
  own fuel and the theorems show the loop leaves by its own exit test.
* The order of the insertions and the number of comparisons are read off
  functions with the control flow of the loops (`...Trace`, `...Comparisons`).
* A command-line argument (`std::string`) is a `List Char`; an exception is a
  value of `Thrown`.
-/

namespace FJA

/-! ## Definitions -/

/-- The `while (low < high)` loop of `FJA::binarySearch` (FJA.cpp 281-289). -/
def binarySearchLoop (container : List Int) (value : Int) : Nat → Nat → Nat → Nat
  | 0, low, _ => low
  | fuel + 1, low, high =>
    if low < high then
      let mid := low + (high - low) / 2
      if container.getD mid 0 < value then
        binarySearchLoop container value fuel (mid + 1) high
      else
        binarySearchLoop container value fuel low mid
    else
      low

/-- The function `FJA::binarySearch` (FJA.cpp 279-292).  Every iteration
strictly shrinks `high - low`, so `high - low` iterations are enough. -/
def binarySearch (container : List Int) (value : Int) (low high : Nat) : Nat :=
  binarySearchLoop container value (high - low) low high

/-- The call `container.insert(container.begin() + pos, value)`. -/
def insertAt (container : List Int) (pos : Nat) (value : Int) : List Int :=
  container.take pos ++ value :: container.drop pos

/-- The first loop of `generateJacobsthalSequence` (FJA.cpp 130-134):
`while (jacobsthal.back() < pairCount)` push the next value of the recurrence. -/
def jacobsthalGrow (pairCount : Nat) : Nat → List Nat → Nat → List Nat
  | 0, jacobsthal, _ => jacobsthal
  | fuel + 1, jacobsthal, currentIndex =>
    if jacobsthal.getLastD 0 < pairCount then
      let nextValue :=
        jacobsthal.getD (currentIndex - 1) 0 + 2 * jacobsthal.getD (currentIndex - 2) 0
      jacobsthalGrow pairCount fuel (jacobsthal ++ [nextValue]) (currentIndex + 1)
    else
      jacobsthal

/-- The second loop of `generateJacobsthalSequence` (FJA.cpp 136-138):
`while (!jacobsthal.empty() && jacobsthal.back() >= pairCount) pop_back()`. -/
def jacobsthalTrim (pairCount : Nat) : Nat → List Nat → List Nat
  | 0, jacobsthal => jacobsthal
  | fuel + 1, jacobsthal =>
    if !jacobsthal.isEmpty && jacobsthal.getLastD 0 ≥ pairCount then
      jacobsthalTrim pairCount fuel jacobsthal.dropLast
    else
      jacobsthal

/-- The function `FJA::generateJacobsthalSequence` (FJA.cpp 113-143).  The growing
loop gets `pairCount` iterations of fuel, the trimming loop one per element. -/
def generateJacobsthalSequence (pairCount : Nat) : List Nat :=
  if pairCount = 0 then []
  else if pairCount = 1 then [0]
  else if pairCount = 2 then [0, 1]
  else
    let grown := jacobsthalGrow pairCount pairCount [0, 1] 2
    let trimmed := jacobsthalTrim pairCount grown.length grown
    if trimmed.isEmpty || trimmed.getLastD 0 ≠ pairCount then
      trimmed ++ [pairCount]
    else
      trimmed

/-- The function `FJA::sortTwoElements` (FJA.cpp 179-184); it is only called on
containers of size two and reads `container[0]`, `container[1]`. -/
def sortTwoElements (container : List Int) : List Int :=
  if container.getD 0 0 > container.getD 1 0 then
    (container.set 0 (container.getD 1 0)).set 1 (container.getD 0 0)
  else
    container

/-- The `for (i = 0; i < pairEnd; i += 2)` loop of `FJA::createSortedPairs`
(FJA.cpp 195-204). -/
def createSortedPairsLoop (container : List Int) (pairEnd : Nat) :
    Nat → Nat → List (Int × Int) → List (Int × Int)
  | 0, _, pairs => pairs
  | fuel + 1, i, pairs =>
    if i < pairEnd then
      let first := container.getD i 0
      let second := container.getD (i + 1) 0
      if first > second then
        createSortedPairsLoop container pairEnd fuel (i + 2) (pairs ++ [(second, first)])
      else
        createSortedPairsLoop container pairEnd fuel (i + 2) (pairs ++ [(first, second)])
    else
      pairs

/-- The function `FJA::createSortedPairs` (FJA.cpp 186-211), returning
`(pairs, leftover, hasLeftover)`.  The loop advances `i` by two, so
`container.size()` iterations of fuel are more than enough. -/
def createSortedPairs (container : List Int) : List (Int × Int) × Int × Bool :=
  let hasLeftover : Bool := container.length % 2 == 1
  let pairEnd := container.length - (if hasLeftover then 1 else 0)
  let pairs := createSortedPairsLoop container pairEnd container.length 0 []
  let leftover : Int := if hasLeftover then container.getLastD 0 else 0
  (pairs, leftover, hasLeftover)

/-- The function `FJA::extractLargerElements` (FJA.cpp 213-221). -/
def extractLargerElements (pairs : List (Int × Int)) : List Int :=
  pairs.map (fun pair => pair.2)

/-- The body of both insertion loops of `insertSmallerElements`
(FJA.cpp 256-258 and 266-268): lower-bound search over the whole current
chain, then insert there. -/
def insertSmaller (mainChain : List Int) (smaller : Int) : List Int :=
  insertAt mainChain (binarySearch mainChain smaller 0 mainChain.length) smaller

/-- The inner loop `for (pairIndex = end; pairIndex > start; --pairIndex)` of
`insertSmallerElements` (FJA.cpp 253-261), on the state `(mainChain, inserted)`;
the third argument is the current `pairIndex`. -/
def insertBlock (pairs : List (Int × Int)) (start : Nat) :
    Nat → List Int × List Bool → List Int × List Bool
  | 0, state => state
  | pairIndex + 1, state =>
    if pairIndex + 1 > start then
      let actualIndex := pairIndex + 1 - 1
      if actualIndex < pairs.length && !state.2.getD actualIndex false then
        let smaller := (pairs.getD actualIndex (0, 0)).1
        insertBlock pairs start pairIndex
          (insertSmaller state.1 smaller, state.2.set actualIndex true)
      else
        insertBlock pairs start pairIndex state
    else
      state

/-- The outer loop `for (i = 1; i < jacobsthal.size(); ++i)` of
`insertSmallerElements` (FJA.cpp 249-262). -/
def insertBlocks (pairs : List (Int × Int)) (jacobsthal : List Nat) :
    Nat → Nat → List Int × List Bool → List Int × List Bool
  | 0, _, state => state
  | fuel + 1, i, state =>
    if i < jacobsthal.length then
      let start := jacobsthal.getD (i - 1) 0
      let stop := jacobsthal.getD i 0
      insertBlocks pairs jacobsthal fuel (i + 1) (insertBlock pairs start stop state)
    else
      state

/-- The fallback loop `for (pairIndex = 0; pairIndex < pairs.size(); ++pairIndex)`
of `insertSmallerElements` (FJA.cpp 264-270); it reads `inserted` and does not
write it. -/
def insertRemaining (pairs : List (Int × Int)) (inserted : List Bool) :
    Nat → Nat → List Int → List Int
  | 0, _, mainChain => mainChain
  | fuel + 1, pairIndex, mainChain =>
    if pairIndex < pairs.length then
      if !inserted.getD pairIndex false then
        insertRemaining pairs inserted fuel (pairIndex + 1)
          (insertSmaller mainChain (pairs.getD pairIndex (0, 0)).1)
      else
        insertRemaining pairs inserted fuel (pairIndex + 1) mainChain
    else
      mainChain

/-- The state `(mainChain, inserted)` of `insertSmallerElements` when the
Jacobsthal block loop ends (FJA.cpp 246-262). -/
def insertJacobsthalBlocks (mainChain : List Int) (pairs : List (Int × Int)) :
    List Int × List Bool :=
  let jacobsthal := generateJacobsthalSequence pairs.length
  let inserted := List.replicate pairs.length false
  insertBlocks pairs jacobsthal jacobsthal.length 1 (mainChain, inserted)

/-- The function `FJA::insertSmallerElements` (FJA.cpp 239-271), returning the
new main chain. -/
def insertSmallerElements (mainChain : List Int) (pairs : List (Int × Int)) : List Int :=
  if pairs.isEmpty then mainChain
  else
    let state := insertJacobsthalBlocks mainChain pairs
    insertRemaining pairs state.2 pairs.length 0 state.1

/-- The function `FJA::insertLeftoverElement` (FJA.cpp 273-277). -/
def insertLeftoverElement (mainChain : List Int) (leftover : Int) : List Int :=
  insertAt mainChain (binarySearch mainChain leftover 0 mainChain.length) leftover

/-- The function `FJA::buildMainChain` (FJA.cpp 223-237). -/
def buildMainChain (largerElements : List Int) (pairs : List (Int × Int))
    (leftover : Int) (hasLeftover : Bool) : List Int :=
  let mainChain := insertSmallerElements largerElements pairs
  if hasLeftover then insertLeftoverElement mainChain leftover else mainChain

/-- The function `FJA::mergeInsertSort` (FJA.cpp 159-177); the first argument
bounds the recursion depth. -/
def mergeInsertSortFuel : Nat → List Int → List Int
  | 0, container => container
  | fuel + 1, container =>
    if container.length ≤ 1 then container
    else if container.length = 2 then sortTwoElements container
    else
      let created := createSortedPairs container
      let largerElements := mergeInsertSortFuel fuel (extractLargerElements created.1)
      buildMainChain largerElements created.1 created.2.1 created.2.2

/-- The function `FJA::mergeInsertSort` with the depth bound `container.size()`:
the recursive call is on half the elements, so the bound is never reached. -/
def mergeInsertSort (container : List Int) : List Int :=
  mergeInsertSortFuel container.length container

/-- The function `FJA::fordJohnsonSort` (FJA.cpp 145-157; the `std::deque` and
`std::vector` overloads have the same body), returning the final container. -/
def fordJohnsonSort (container : List Int) : List Int :=
  if container.length ≤ 1 then container else mergeInsertSort container

/-- The check `std::is_sorted(begin, end)` made by `verifyAndDisplayResults`
(main.cpp 99-100): no element is less than its predecessor. -/
def isSorted : List Int → Bool
  | a :: b :: rest => if b < a then false else isSorted (b :: rest)
  | _ => true

/-! ### Specification-side functions used to state the loop invariants -/

/-- Adjacent elements paired in order, each pair ordered `(smaller, larger)`;
a trailing unpaired element is dropped.  The closed form of the pair loop. -/
def pairUp : List Int → List (Int × Int)
  | a :: b :: rest => (if a > b then (b, a) else (a, b)) :: pairUp rest
  | _ => []

/-- The pair minima `pairs[i].first` of the indices `i` whose `inserted[i]`
equals `flag`, in index order. -/
def flaggedFirsts (flag : Bool) : List (Int × Int) → List Bool → List Int
  | pair :: pairs, b :: inserted =>
    if b = flag then pair.1 :: flaggedFirsts flag pairs inserted
    else flaggedFirsts flag pairs inserted
  | _, _ => []

/-- The Jacobsthal numbers of the data model:
`J(0) = 0`, `J(1) = 1`, `J(n) = J(n-1) + 2 * J(n-2)`. -/
def jacobsthalNumber : Nat → Nat
  | 0 => 0
  | 1 => 1
  | n + 2 => jacobsthalNumber (n + 1) + 2 * jacobsthalNumber n

/-- The list `J(0), J(1), ..., J(m-1)` of the first `m` Jacobsthal numbers. -/
def jacobsthalPrefix (m : Nat) : List Nat :=
  (List.range m).map jacobsthalNumber

/-! ### Instrumentation: the insertions made, in order, and the comparisons -/

/-- One execution of the insertion body of `insertSmallerElements`
(FJA.cpp 256-259 or 266-268): the 0-based index of the pair (`actualIndex`),
the main chain as it is just before the search, and the value inserted. -/
structure Insertion where
  /-- The 0-based pair index. -/
  pairIndex : Nat
  /-- The main chain just before the insertion. -/
  mainChain : List Int
  /-- The value inserted, `pairs[pairIndex].first`. -/
  smaller : Int
deriving DecidableEq

/-- The insertions made by the inner loop `insertBlock`, in execution order;
same control flow as `insertBlock`. -/
def insertBlockTrace (pairs : List (Int × Int)) (start : Nat) :
    Nat → List Int × List Bool → List Insertion
  | 0, _ => []
  | pairIndex + 1, state =>
    if pairIndex + 1 > start then
      let actualIndex := pairIndex + 1 - 1
      if actualIndex < pairs.length && !state.2.getD actualIndex false then
        let smaller := (pairs.getD actualIndex (0, 0)).1
        ⟨actualIndex, state.1, smaller⟩ ::
          insertBlockTrace pairs start pairIndex
            (insertSmaller state.1 smaller, state.2.set actualIndex true)
      else
        insertBlockTrace pairs start pairIndex state
    else
      []

/-- The insertions made by the outer loop `insertBlocks`, in execution order;
same control flow as `insertBlocks`. -/
def insertBlocksTrace (pairs : List (Int × Int)) (jacobsthal : List Nat) :
    Nat → Nat → List Int × List Bool → List Insertion
  | 0, _, _ => []
  | fuel + 1, i, state =>
    if i < jacobsthal.length then
      let start := jacobsthal.getD (i - 1) 0
      let stop := jacobsthal.getD i 0
      insertBlockTrace pairs start stop state ++
        insertBlocksTrace pairs jacobsthal fuel (i + 1) (insertBlock pairs start stop state)
    else
      []

/-- The insertions made by the fallback loop `insertRemaining`, in execution
order; same control flow as `insertRemaining`. -/
def insertRemainingTrace (pairs : List (Int × Int)) (inserted : List Bool) :
    Nat → Nat → List Int → List Insertion
  | 0, _, _ => []
  | fuel + 1, pairIndex, mainChain =>
    if pairIndex < pairs.length then
      if !inserted.getD pairIndex false then
        ⟨pairIndex, mainChain, (pairs.getD pairIndex (0, 0)).1⟩ ::
          insertRemainingTrace pairs inserted fuel (pairIndex + 1)
            (insertSmaller mainChain (pairs.getD pairIndex (0, 0)).1)
      else
        insertRemainingTrace pairs inserted fuel (pairIndex + 1) mainChain
    else
      []

/-- The insertions made by the Jacobsthal block loop of `insertSmallerElements`
(FJA.cpp 249-262). -/
def jacobsthalBlocksTrace (mainChain : List Int) (pairs : List (Int × Int)) :
    List Insertion :=
  let jacobsthal := generateJacobsthalSequence pairs.length
  let inserted := List.replicate pairs.length false
  insertBlocksTrace pairs jacobsthal jacobsthal.length 1 (mainChain, inserted)

/-- The insertions made by the fallback pass of `insertSmallerElements`
(FJA.cpp 264-270). -/
def fallbackTrace (mainChain : List Int) (pairs : List (Int × Int)) : List Insertion :=
  if pairs.isEmpty then []
  else
    let state := insertJacobsthalBlocks mainChain pairs
    insertRemainingTrace pairs state.2 pairs.length 0 state.1

/-- All insertions made by `insertSmallerElements`, in execution order. -/
def insertSmallerElementsTrace (mainChain : List Int) (pairs : List (Int × Int)) :
    List Insertion :=
  if pairs.isEmpty then []
  else jacobsthalBlocksTrace mainChain pairs ++ fallbackTrace mainChain pairs

/-- The chain obtained from `mainChain` by making the insertions of a trace. -/
def replay (mainChain : List Int) (trace : List Insertion) : List Int :=
  trace.foldl (fun chain e => insertSmaller chain e.smaller) mainChain

/-- A trace is linked from `mainChain` when its first insertion starts from
`mainChain` and every later one starts from the chain the previous one left. -/
def Linked : List Int → List Insertion → Prop
  | _, [] => True
  | mainChain, e :: rest =>
    e.mainChain = mainChain ∧ Linked (insertSmaller mainChain e.smaller) rest

/-- The block schedule of the insertion contract, in 1-based pair indices: for
`i = first, first + 1, ...` below `|J|`, the indices of block `(J[i-1], J[i]]` in
descending order, `J[i]` first and `J[i-1] + 1` last. -/
def blockSchedule (J : List Nat) (first : Nat) : List Nat :=
  (List.range' first (J.length - first)).flatMap
    (fun i => (List.range' (J.getD (i - 1) 0 + 1) (J.getD i 0 - J.getD (i - 1) 0)).reverse)

/-- The number of `container[mid] < value` tests made by the loop of
`binarySearch`; same control flow as `binarySearchLoop`. -/
def binarySearchLoopComparisons (container : List Int) (value : Int) : Nat → Nat → Nat → Nat
  | 0, _, _ => 0
  | fuel + 1, low, high =>
    if low < high then
      let mid := low + (high - low) / 2
      if container.getD mid 0 < value then
        1 + binarySearchLoopComparisons container value fuel (mid + 1) high
      else
        1 + binarySearchLoopComparisons container value fuel low mid
    else
      0

/-- The number of element comparisons made by one call
`binarySearch(mainChain, value, 0, mainChain.size())`. -/
def insertComparisons (mainChain : List Int) (value : Int) : Nat :=
  binarySearchLoopComparisons mainChain value (mainChain.length - 0) 0 mainChain.length

/-- The number of element comparisons made by the insertions of a trace. -/
def traceComparisons (trace : List Insertion) : Nat :=
  (trace.map (fun e => insertComparisons e.mainChain e.smaller)).sum

/-- The number of `first > second` tests made by the loop of `createSortedPairs`;
same control flow as `createSortedPairsLoop`. -/
def createSortedPairsLoopComparisons (pairEnd : Nat) : Nat → Nat → Nat
  | 0, _ => 0
  | fuel + 1, i =>
    if i < pairEnd then 1 + createSortedPairsLoopComparisons pairEnd fuel (i + 2) else 0

/-- The number of element comparisons made by `createSortedPairs`. -/
def createSortedPairsComparisons (container : List Int) : Nat :=
  let hasLeftover : Bool := container.length % 2 == 1
  let pairEnd := container.length - (if hasLeftover then 1 else 0)
  createSortedPairsLoopComparisons pairEnd container.length 0

/-- The number of element comparisons made by `buildMainChain`: those of
`insertSmallerElements`, then those of `insertLeftoverElement` if there is a
leftover. -/
def buildMainChainComparisons (largerElements : List Int) (pairs : List (Int × Int))
    (leftover : Int) (hasLeftover : Bool) : Nat :=
  traceComparisons (insertSmallerElementsTrace largerElements pairs) +
    (if hasLeftover then
      insertComparisons (insertSmallerElements largerElements pairs) leftover
    else 0)

/-- The number of element comparisons made by `mergeInsertSort`, summed over all
recursion levels; same control flow as `mergeInsertSortFuel`.  Size two costs
the one `container[0] > container[1]` test of `sortTwoElements`. -/
def mergeInsertSortComparisonsFuel : Nat → List Int → Nat
  | 0, _ => 0
  | fuel + 1, container =>
    if container.length ≤ 1 then 0
    else if container.length = 2 then 1
    else
      let created := createSortedPairs container
      let largerElements := mergeInsertSortFuel fuel (extractLargerElements created.1)
      createSortedPairsComparisons container +
        mergeInsertSortComparisonsFuel fuel (extractLargerElements created.1) +
        buildMainChainComparisons largerElements created.1 created.2.1 created.2.2

/-- The number of element comparisons made by `fordJohnsonSort`. -/
def fordJohnsonSortComparisons (container : List Int) : Nat :=
  if container.length ≤ 1 then 0
  else mergeInsertSortComparisonsFuel container.length container

/-- One term `ceil(log2(3i/4))` of the Ford-Johnson worst-case bound named by the
comparison-bound property: the least `c` with `3 * i ≤ 4 * 2 ^ c`. -/
def fordJohnsonTerm (i : Nat) : Nat :=
  ((List.range (i + 1)).find? (fun c => decide (3 * i ≤ 4 * 2 ^ c))).getD 0

/-- The Ford-Johnson worst-case bound named by the comparison-bound property,
`F(n) = sum for i = 1..n of ceil(log2(3i/4))`. -/
def fordJohnsonBound (n : Nat) : Nat :=
  ((List.range n).map (fun i => fordJohnsonTerm (i + 1))).sum

/-- The worst-case number of iterations of the `binarySearch` loop on a range of
`size` elements: `0` for an empty range, else one more than for `size / 2`. -/
def searchDepthFuel : Nat → Nat → Nat
  | 0, _ => 0
  | fuel + 1, size => if size = 0 then 0 else 1 + searchDepthFuel fuel (size / 2)

/-- The worst-case cost `floor(log2 size) + 1` of one whole-chain search
(`0` for the empty chain). -/
def searchDepth (size : Nat) : Nat :=
  searchDepthFuel size size

/-- The sum of `searchDepth m` for `m < size`: the worst-case cost of growing a
chain from empty to `size` elements by whole-chain binary insertion. -/
def insertionCost : Nat → Nat
  | 0 => 0
  | size + 1 => insertionCost size + searchDepth size

/-- The comparison bound of this implementation: `B(0) = B(1) = 0`, `B(2) = 1`,
and for `n ≥ 3`, `B(n) = floor(n/2) + B(floor(n/2))` plus `searchDepth m` for
every chain length `m` from `floor(n/2)` to `n - 1`. -/
def comparisonBoundFuel : Nat → Nat → Nat
  | 0, _ => 0
  | fuel + 1, n =>
    if n ≤ 1 then 0
    else if n = 2 then 1
    else n / 2 + comparisonBoundFuel fuel (n / 2) + (insertionCost n - insertionCost (n / 2))

/-- The comparison bound `B(n)` with the depth bound `n`. -/
def comparisonBound (n : Nat) : Nat :=
  comparisonBoundFuel n n

/-! ### The templates over a container type, and the sorter object

The functions of `FJA.cpp` from `mergeInsertSort` down are templates over
`ContainerType`, instantiated at `std::deque<int>` and `std::vector<int>`.  They
reach the container only through `size()`, `operator[]`, `insert`, `push_back`,
`back()`, default construction and copy.  `pairs`, `jacobsthal` and `inserted`
are `std::vector`s in both instantiations. -/

/-- The operations of a container type `C` that the templates use, with the
sequence a container holds (`toList`). -/
structure ContainerOps (C : Type) where
  /-- The call `container.size()`. -/
  size : C → Nat
  /-- The read `container[i]`. -/
  get : C → Nat → Int
  /-- The write `container[i] = value`. -/
  set : C → Nat → Int → C
  /-- The call `container.insert(container.begin() + pos, value)`. -/
  insert : C → Nat → Int → C
  /-- The call `container.push_back(value)`. -/
  pushBack : C → Int → C
  /-- The call `container.back()`. -/
  back : C → Int
  /-- The default-constructed, empty container. -/
  empty : C
  /-- The container filled from a range, `assign(begin, end)` or copy. -/
  assign : List Int → C
  /-- The sequence of elements the container holds, first to last. -/
  toList : C → List Int

/-- The contract of a sequence container: each operation, used within its
bounds, does to the held sequence what the standard says.  Nothing is required
of a read, write or insertion out of range, nor of `back()` on an empty
container. -/
structure Lawful {C : Type} (ops : ContainerOps C) : Prop where
  /-- The size is the length of the held sequence. -/
  size_eq : ∀ c, ops.size c = (ops.toList c).length
  /-- A read in range returns the element at that index. -/
  get_eq : ∀ c i, i < ops.size c → ops.get c i = (ops.toList c).getD i 0
  /-- A write in range replaces the element at that index. -/
  set_eq : ∀ c i v, i < ops.size c → ops.toList (ops.set c i v) = (ops.toList c).set i v
  /-- An insertion at a position up to the size puts the value there. -/
  insert_eq : ∀ c pos v, pos ≤ ops.size c →
    ops.toList (ops.insert c pos v) = insertAt (ops.toList c) pos v
  /-- A `push_back` appends the value. -/
  pushBack_eq : ∀ c v, ops.toList (ops.pushBack c v) = ops.toList c ++ [v]
  /-- On a non-empty container `back()` is the last element. -/
  back_eq : ∀ c, 0 < ops.size c → ops.back c = (ops.toList c).getLastD 0
  /-- The default-constructed container holds nothing. -/
  empty_eq : ops.toList ops.empty = []
  /-- A container filled from a range holds that range. -/
  assign_eq : ∀ l, ops.toList (ops.assign l) = l

/-- The container `std::vector<int>`: one contiguous array. -/
def vectorOps : ContainerOps (List Int) where
  size := fun c => c.length
  get := fun c i => c.getD i 0
  set := fun c i v => c.set i v
  insert := fun c pos v => insertAt c pos v
  pushBack := fun c v => c ++ [v]
  back := fun c => c.getLastD 0
  empty := []
  assign := fun l => l
  toList := fun c => c

/-- A model of `std::deque<int>`: the elements are stored in two separate
blocks, the first block followed by the second; an index is resolved to a block
and an offset inside it. -/
structure Deque where
  /-- The block holding the first elements. -/
  firstBlock : List Int
  /-- The block holding the remaining elements. -/
  secondBlock : List Int
deriving DecidableEq

/-- The container `std::deque<int>` on the two-block model: a range is stored
half in each block, an insertion at a position up to the end of the first block
lands in the first block and any other in the second, and `push_back` grows the
second block. -/
def dequeOps : ContainerOps Deque where
  size := fun d => d.firstBlock.length + d.secondBlock.length
  get := fun d i =>
    if i < d.firstBlock.length then d.firstBlock.getD i 0
    else d.secondBlock.getD (i - d.firstBlock.length) 0
  set := fun d i v =>
    if i < d.firstBlock.length then ⟨d.firstBlock.set i v, d.secondBlock⟩
    else ⟨d.firstBlock, d.secondBlock.set (i - d.firstBlock.length) v⟩
  insert := fun d pos v =>
    if pos ≤ d.firstBlock.length then ⟨insertAt d.firstBlock pos v, d.secondBlock⟩
    else ⟨d.firstBlock, insertAt d.secondBlock (pos - d.firstBlock.length) v⟩
  pushBack := fun d v => ⟨d.firstBlock, d.secondBlock ++ [v]⟩
  back := fun d =>
    if d.secondBlock.isEmpty then d.firstBlock.getLastD 0 else d.secondBlock.getLastD 0
  empty := ⟨[], []⟩
  assign := fun l => ⟨l.take (l.length / 2), l.drop (l.length / 2)⟩
  toList := fun d => d.firstBlock ++ d.secondBlock

/-- The loop of the template `FJA::binarySearch` (FJA.cpp 281-289). -/
def binarySearchLoopOn {C : Type} (ops : ContainerOps C) (container : C) (value : Int) :
    Nat → Nat → Nat → Nat
  | 0, low, _ => low
  | fuel + 1, low, high =>
    if low < high then
      let mid := low + (high - low) / 2
      if ops.get container mid < value then
        binarySearchLoopOn ops container value fuel (mid + 1) high
      else
        binarySearchLoopOn ops container value fuel low mid
    else
      low

/-- The template `FJA::binarySearch` (FJA.cpp 279-292). -/
def binarySearchOn {C : Type} (ops : ContainerOps C) (container : C) (value : Int)
    (low high : Nat) : Nat :=
  binarySearchLoopOn ops container value (high - low) low high

/-- The template `FJA::sortTwoElements` (FJA.cpp 179-184); `std::swap` writes
the old `container[1]` to index 0 and the old `container[0]` to index 1. -/
def sortTwoElementsOn {C : Type} (ops : ContainerOps C) (container : C) : C :=
  if ops.get container 0 > ops.get container 1 then
    ops.set (ops.set container 0 (ops.get container 1)) 1 (ops.get container 0)
  else
    container

/-- The loop of the template `FJA::createSortedPairs` (FJA.cpp 195-204). -/
def createSortedPairsLoopOn {C : Type} (ops : ContainerOps C) (container : C)
    (pairEnd : Nat) : Nat → Nat → List (Int × Int) → List (Int × Int)
  | 0, _, pairs => pairs
  | fuel + 1, i, pairs =>
    if i < pairEnd then
      let first := ops.get container i
      let second := ops.get container (i + 1)
      if first > second then
        createSortedPairsLoopOn ops container pairEnd fuel (i + 2) (pairs ++ [(second, first)])
      else
        createSortedPairsLoopOn ops container pairEnd fuel (i + 2) (pairs ++ [(first, second)])
    else
      pairs

/-- The template `FJA::createSortedPairs` (FJA.cpp 186-211). -/
def createSortedPairsOn {C : Type} (ops : ContainerOps C) (container : C) :
    List (Int × Int) × Int × Bool :=
  let hasLeftover : Bool := ops.size container % 2 == 1
  let pairEnd := ops.size container - (if hasLeftover then 1 else 0)
  let pairs := createSortedPairsLoopOn ops container pairEnd (ops.size container) 0 []
  let leftover : Int := if hasLeftover then ops.back container else 0
  (pairs, leftover, hasLeftover)

/-- The template `FJA::extractLargerElements` (FJA.cpp 213-221): `push_back` of
every `pair.second` onto a default-constructed container. -/
def extractLargerElementsOn {C : Type} (ops : ContainerOps C) (pairs : List (Int × Int)) : C :=
  pairs.foldl (fun largerElements pair => ops.pushBack largerElements pair.2) ops.empty

/-- The insertion body of the templates (FJA.cpp 257-258, 267-268, 275-276):
search the whole chain, insert at the position found. -/
def insertSmallerOn {C : Type} (ops : ContainerOps C) (mainChain : C) (smaller : Int) : C :=
  ops.insert mainChain (binarySearchOn ops mainChain smaller 0 (ops.size mainChain)) smaller

/-- The inner loop of the template `FJA::insertSmallerElements` (FJA.cpp 253-261). -/
def insertBlockOn {C : Type} (ops : ContainerOps C) (pairs : List (Int × Int)) (start : Nat) :
    Nat → C × List Bool → C × List Bool
  | 0, state => state
  | pairIndex + 1, state =>
    if pairIndex + 1 > start then
      let actualIndex := pairIndex + 1 - 1
      if actualIndex < pairs.length && !state.2.getD actualIndex false then
        let smaller := (pairs.getD actualIndex (0, 0)).1
        insertBlockOn ops pairs start pairIndex
          (insertSmallerOn ops state.1 smaller, state.2.set actualIndex true)
      else
        insertBlockOn ops pairs start pairIndex state
    else
      state

/-- The outer loop of the template `FJA::insertSmallerElements` (FJA.cpp 249-262). -/
def insertBlocksOn {C : Type} (ops : ContainerOps C) (pairs : List (Int × Int))
    (jacobsthal : List Nat) : Nat → Nat → C × List Bool → C × List Bool
  | 0, _, state => state
  | fuel + 1, i, state =>
    if i < jacobsthal.length then
      let start := jacobsthal.getD (i - 1) 0
      let stop := jacobsthal.getD i 0
      insertBlocksOn ops pairs jacobsthal fuel (i + 1) (insertBlockOn ops pairs start stop state)
    else
      state

/-- The fallback loop of the template `FJA::insertSmallerElements`
(FJA.cpp 264-270). -/
def insertRemainingOn {C : Type} (ops : ContainerOps C) (pairs : List (Int × Int))
    (inserted : List Bool) : Nat → Nat → C → C
  | 0, _, mainChain => mainChain
  | fuel + 1, pairIndex, mainChain =>
    if pairIndex < pairs.length then
      if !inserted.getD pairIndex false then
        insertRemainingOn ops pairs inserted fuel (pairIndex + 1)
          (insertSmallerOn ops mainChain (pairs.getD pairIndex (0, 0)).1)
      else
        insertRemainingOn ops pairs inserted fuel (pairIndex + 1) mainChain
    else
      mainChain

/-- The template `FJA::insertSmallerElements` (FJA.cpp 239-271). -/
def insertSmallerElementsOn {C : Type} (ops : ContainerOps C) (mainChain : C)
    (pairs : List (Int × Int)) : C :=
  if pairs.isEmpty then mainChain
  else
    let jacobsthal := generateJacobsthalSequence pairs.length
    let inserted := List.replicate pairs.length false
    let state := insertBlocksOn ops pairs jacobsthal jacobsthal.length 1 (mainChain, inserted)
    insertRemainingOn ops pairs state.2 pairs.length 0 state.1

/-- The template `FJA::insertLeftoverElement` (FJA.cpp 273-277). -/
def insertLeftoverElementOn {C : Type} (ops : ContainerOps C) (mainChain : C)
    (leftover : Int) : C :=
  ops.insert mainChain (binarySearchOn ops mainChain leftover 0 (ops.size mainChain)) leftover

/-- The template `FJA::buildMainChain` (FJA.cpp 223-237). -/
def buildMainChainOn {C : Type} (ops : ContainerOps C) (largerElements : C)
    (pairs : List (Int × Int)) (leftover : Int) (hasLeftover : Bool) : C :=
  let mainChain := insertSmallerElementsOn ops largerElements pairs
  if hasLeftover then insertLeftoverElementOn ops mainChain leftover else mainChain

/-- The template `FJA::mergeInsertSort` (FJA.cpp 159-177); the first argument
bounds the recursion depth. -/
def mergeInsertSortFuelOn {C : Type} (ops : ContainerOps C) : Nat → C → C
  | 0, container => container
  | fuel + 1, container =>
    if ops.size container ≤ 1 then container
    else if ops.size container = 2 then sortTwoElementsOn ops container
    else
      let created := createSortedPairsOn ops container
      let largerElements :=
        mergeInsertSortFuelOn ops fuel (extractLargerElementsOn ops created.1)
      buildMainChainOn ops largerElements created.1 created.2.1 created.2.2

/-- The two overloads of `FJA::fordJohnsonSort` (FJA.cpp 145-157), one body. -/
def fordJohnsonSortOn {C : Type} (ops : ContainerOps C) (container : C) : C :=
  if ops.size container ≤ 1 then container
  else mergeInsertSortFuelOn ops (ops.size container) container

/-- The data members of class `FJA` (FJA.hpp 54-57): the two containers and the
two measured durations. -/
structure Sorter where
  /-- The member `deque_`. -/
  deque_ : Deque
  /-- The member `vector_`. -/
  vector_ : List Int
  /-- The member `dequeSortTime_`. -/
  dequeSortTime_ : Int
  /-- The member `vectorSortTime_`. -/
  vectorSortTime_ : Int

/-- The method `FJA::sortWithDeque` (FJA.cpp 15-23): `deque_.assign` from the
input, sort `deque_` in place with the deque instantiation, store the measured
duration `elapsed`. -/
def sortWithDeque (self : Sorter) (input : List Int) (elapsed : Int) : Sorter :=
  ⟨fordJohnsonSortOn dequeOps (dequeOps.assign input), self.vector_, elapsed,
    self.vectorSortTime_⟩

/-- The method `FJA::sortWithVector` (FJA.cpp 25-33): copy the input into
`vector_`, sort it in place with the vector instantiation, store the measured
duration `elapsed`. -/
def sortWithVector (self : Sorter) (input : List Int) (elapsed : Int) : Sorter :=
  ⟨self.deque_, fordJohnsonSortOn vectorOps (vectorOps.assign input), self.dequeSortTime_,
    elapsed⟩

/-- The method `FJA::getSortedDeque` (FJA.cpp 35-37). -/
def getSortedDeque (self : Sorter) : Deque := self.deque_

/-- The method `FJA::getSortedVector` (FJA.cpp 39-41). -/
def getSortedVector (self : Sorter) : List Int := self.vector_

/-! ### Input validation (`src/main.cpp`, `src/FJA.cpp` 51-111, `src/utils.cpp`) -/

/-- The exceptions that leave the validation functions; the message text is not
modelled. -/
inductive Thrown where
  /-- A `ValidationError`. -/
  | validationError
  /-- A `ParseError`. -/
  | parseError
  /-- A `std::runtime_error` thrown by `validateAndParseInput` itself. -/
  | runtimeError
deriving DecidableEq

/-- The constant `INT_MAX` of a 32-bit `int`. -/
def INT_MAX : Int := 2147483647

/-- The constant `LLONG_MAX` of a 64-bit `long long`. -/
def LLONG_MAX : Int := 9223372036854775807

/-- The test `std::isdigit(c)` in the default locale: `c` is one of `'0'..'9'`. -/
def isdigit (c : Char) : Bool :=
  '0' ≤ c && c ≤ '9'

/-- The value of a string of decimal digits, most significant digit first. -/
def decimalValue (arg : List Char) : Nat :=
  arg.foldl (fun acc c => 10 * acc + (c.toNat - '0'.toNat)) 0

/-- The function `FJA::isValidPositiveInteger` (FJA.cpp 67-87); an argument is a
list of characters. -/
def isValidPositiveInteger (arg : List Char) : Except Thrown Bool :=
  if arg.isEmpty then .error .validationError
  else if arg.head? = some '-' then .error .validationError
  else if arg.any (fun c => !isdigit c) then .error .validationError
  else if arg.length > 1 && arg.head? = some '0' then .error .validationError
  else .ok true

/-- The loop of `FJA::validateInput` (FJA.cpp 56-62): `false` at the first
argument for which `isValidPositiveInteger` throws. -/
def validateInputLoop : List (List Char) → Bool
  | [] => true
  | arg :: rest =>
    match isValidPositiveInteger arg with
    | .error _ => false
    | .ok _ => validateInputLoop rest

/-- The function `FJA::validateInput` (FJA.cpp 51-65). -/
def validateInput (args : List (List Char)) : Except Thrown Bool :=
  if args.isEmpty then .error .validationError
  else .ok (validateInputLoop args)

/-- The call `std::stoll(arg)` on the strings that reach it: for a non-empty
string of decimal digits its value, or `none` (`std::out_of_range`) above
`LLONG_MAX`; `none` (`std::invalid_argument`) for any other string. -/
def stoll (arg : List Char) : Option Int :=
  if arg.isEmpty || arg.any (fun c => !isdigit c) then none
  else if (decimalValue arg : Int) > LLONG_MAX then none
  else some (decimalValue arg)

/-- The function `FJA::parseInput` (FJA.cpp 89-111): the values in argument
order, or a `ParseError` at the first argument that does not fit an `int`. -/
def parseInput : List (List Char) → Except Thrown (List Int)
  | [] => .ok []
  | arg :: rest =>
    match stoll arg with
    | none => .error .parseError
    | some value =>
      if value > INT_MAX then .error .parseError
      else if value < 0 then .error .parseError
      else
        match parseInput rest with
        | .error e => .error e
        | .ok result => .ok (value :: result)

/-- The call `std::adjacent_find(v.begin(), v.end()) != v.end()`: some element
equals its successor. -/
def adjacentFind : List Int → Bool
  | a :: b :: rest => if a = b then true else adjacentFind (b :: rest)
  | _ => false

/-- The function `FJAUtils::hasDuplicates` (utils.cpp 6-10): sort, then look for
two equal neighbours.  `std::sort` is any sorting of the ints. -/
def hasDuplicates (v : List Int) : Bool :=
  adjacentFind (v.insertionSort (· ≤ ·))

/-- The function `validateAndParseInput` (main.cpp 38-55). -/
def validateAndParseInput (args : List (List Char)) : Except Thrown (List Int) :=
  if args.isEmpty then .error .runtimeError
  else
    match validateInput args with
    | .error e => .error e
    | .ok false => .error .runtimeError
    | .ok true =>
      match parseInput args with
      | .error e => .error e
      | .ok input => if hasDuplicates input then .error .runtimeError else .ok input

/-- An argument as the claim accepts it: a non-empty string of ASCII decimal
digits. -/
def DecimalString (arg : List Char) : Prop :=
  arg ≠ [] ∧ ∀ c ∈ arg, c ∈ "0123456789".toList

/-- The rejection condition of the validation contract: no argument, or an
argument that is not a non-empty digit string, or one longer than one character
that starts with `'0'`, or one whose value exceeds `INT_MAX`, or two arguments
with the same value. -/
def Rejected (args : List (List Char)) : Prop :=
  args = [] ∨
  (∃ arg ∈ args, ¬ DecimalString arg) ∨
  (∃ arg ∈ args, arg.length > 1 ∧ arg.head? = some '0') ∨
  (∃ arg ∈ args, (decimalValue arg : Int) > INT_MAX) ∨
  ¬ (args.map decimalValue).Nodup

/-! ### The core with every indexed access checked

Each function below has the control flow of the function it is named after and
returns `none` as soon as an access `container[i]`, `back()` or an insertion
position is out of range, or the guard `actualIndex < pairs.size()` is false. -/

/-- The loop of `binarySearch` with `container[mid]` checked. -/
def binarySearchLoopChecked (container : List Int) (value : Int) :
    Nat → Nat → Nat → Option Nat
  | 0, low, _ => some low
  | fuel + 1, low, high =>
    if low < high then
      let mid := low + (high - low) / 2
      match container[mid]? with
      | none => none
      | some element =>
        if element < value then
          binarySearchLoopChecked container value fuel (mid + 1) high
        else
          binarySearchLoopChecked container value fuel low mid
    else
      some low

/-- The function `binarySearch` with `container[mid]` checked. -/
def binarySearchChecked (container : List Int) (value : Int) (low high : Nat) : Option Nat :=
  binarySearchLoopChecked container value (high - low) low high

/-- The insertion body `binarySearch(mainChain, value, 0, mainChain.size())`
followed by `mainChain.insert(mainChain.begin() + insertPosition, value)`, with
the search checked and `insertPosition <= mainChain.size()` checked. -/
def insertChecked (mainChain : List Int) (value : Int) : Option (List Int) :=
  match binarySearchChecked mainChain value 0 mainChain.length with
  | none => none
  | some insertPosition =>
    if insertPosition ≤ mainChain.length then some (insertAt mainChain insertPosition value)
    else none

/-- The growing loop of `generateJacobsthalSequence` with `back()`,
`jacobsthal[currentIndex-1]` and `jacobsthal[currentIndex-2]` checked. -/
def jacobsthalGrowChecked (pairCount : Nat) : Nat → List Nat → Nat → Option (List Nat)
  | 0, jacobsthal, _ => some jacobsthal
  | fuel + 1, jacobsthal, currentIndex =>
    match jacobsthal.getLast? with
    | none => none
    | some back =>
      if back < pairCount then
        match jacobsthal[currentIndex - 1]?, jacobsthal[currentIndex - 2]? with
        | some previous, some beforePrevious =>
          jacobsthalGrowChecked pairCount fuel
            (jacobsthal ++ [previous + 2 * beforePrevious]) (currentIndex + 1)
        | _, _ => none
      else
        some jacobsthal

/-- The function `generateJacobsthalSequence` with the accesses of its growing
loop checked; the trimming loop and the final test read `back()` only behind
`!jacobsthal.empty()`. -/
def generateJacobsthalSequenceChecked (pairCount : Nat) : Option (List Nat) :=
  if pairCount = 0 then some []
  else if pairCount = 1 then some [0]
  else if pairCount = 2 then some [0, 1]
  else
    match jacobsthalGrowChecked pairCount pairCount [0, 1] 2 with
    | none => none
    | some grown =>
      let trimmed := jacobsthalTrim pairCount grown.length grown
      if trimmed.isEmpty || trimmed.getLastD 0 ≠ pairCount then
        some (trimmed ++ [pairCount])
      else
        some trimmed

/-- The function `sortTwoElements` with `container[0]` and `container[1]` checked. -/
def sortTwoElementsChecked (container : List Int) : Option (List Int) :=
  match container[0]?, container[1]? with
  | some first, some second =>
    if first > second then some ((container.set 0 second).set 1 first) else some container
  | _, _ => none

/-- The loop of `createSortedPairs` with `container[i]` and `container[i + 1]`
checked. -/
def createSortedPairsLoopChecked (container : List Int) (pairEnd : Nat) :
    Nat → Nat → List (Int × Int) → Option (List (Int × Int))
  | 0, _, pairs => some pairs
  | fuel + 1, i, pairs =>
    if i < pairEnd then
      match container[i]?, container[i + 1]? with
      | some first, some second =>
        if first > second then
          createSortedPairsLoopChecked container pairEnd fuel (i + 2) (pairs ++ [(second, first)])
        else
          createSortedPairsLoopChecked container pairEnd fuel (i + 2) (pairs ++ [(first, second)])
      | _, _ => none
    else
      some pairs

/-- The function `createSortedPairs` with its loop checked and `container.back()`
checked. -/
def createSortedPairsChecked (container : List Int) :
    Option (List (Int × Int) × Int × Bool) :=
  let hasLeftover : Bool := container.length % 2 == 1
  let pairEnd := container.length - (if hasLeftover then 1 else 0)
  match createSortedPairsLoopChecked container pairEnd container.length 0 [] with
  | none => none
  | some pairs =>
    if hasLeftover then
      match container.getLast? with
      | none => none
      | some leftover => some (pairs, leftover, hasLeftover)
    else
      some (pairs, 0, hasLeftover)

/-- The inner loop of `insertSmallerElements` checked: the guard
`actualIndex < pairs.size()` must hold, and `inserted[actualIndex]`,
`pairs[actualIndex]`, the search and the insertion position must be in range. -/
def insertBlockChecked (pairs : List (Int × Int)) (start : Nat) :
    Nat → List Int × List Bool → Option (List Int × List Bool)
  | 0, state => some state
  | pairIndex + 1, state =>
    if pairIndex + 1 > start then
      let actualIndex := pairIndex + 1 - 1
      if actualIndex < pairs.length then
        match state.2[actualIndex]?, pairs[actualIndex]? with
        | some flag, some pair =>
          if !flag then
            match insertChecked state.1 pair.1 with
            | none => none
            | some mainChain =>
              insertBlockChecked pairs start pairIndex
                (mainChain, state.2.set actualIndex true)
          else
            insertBlockChecked pairs start pairIndex state
        | _, _ => none
      else
        none
    else
      some state

/-- The outer loop of `insertSmallerElements` with `jacobsthal[i-1]` and
`jacobsthal[i]` checked. -/
def insertBlocksChecked (pairs : List (Int × Int)) (jacobsthal : List Nat) :
    Nat → Nat → List Int × List Bool → Option (List Int × List Bool)
  | 0, _, state => some state
  | fuel + 1, i, state =>
    if i < jacobsthal.length then
      match jacobsthal[i - 1]?, jacobsthal[i]? with
      | some start, some stop =>
        match insertBlockChecked pairs start stop state with
        | none => none
        | some next => insertBlocksChecked pairs jacobsthal fuel (i + 1) next
      | _, _ => none
    else
      some state

/-- The fallback loop of `insertSmallerElements` with `inserted[pairIndex]`,
`pairs[pairIndex]`, the search and the insertion position checked. -/
def insertRemainingChecked (pairs : List (Int × Int)) (inserted : List Bool) :
    Nat → Nat → List Int → Option (List Int)
  | 0, _, mainChain => some mainChain
  | fuel + 1, pairIndex, mainChain =>
    if pairIndex < pairs.length then
      match inserted[pairIndex]?, pairs[pairIndex]? with
      | some flag, some pair =>
        if !flag then
          match insertChecked mainChain pair.1 with
          | none => none
          | some next => insertRemainingChecked pairs inserted fuel (pairIndex + 1) next
        else
          insertRemainingChecked pairs inserted fuel (pairIndex + 1) mainChain
      | _, _ => none
    else
      some mainChain

/-- The function `insertSmallerElements` with every access checked. -/
def insertSmallerElementsChecked (mainChain : List Int) (pairs : List (Int × Int)) :
    Option (List Int) :=
  if pairs.isEmpty then some mainChain
  else
    match generateJacobsthalSequenceChecked pairs.length with
    | none => none
    | some jacobsthal =>
      match insertBlocksChecked pairs jacobsthal jacobsthal.length 1
          (mainChain, List.replicate pairs.length false) with
      | none => none
      | some state => insertRemainingChecked pairs state.2 pairs.length 0 state.1

/-- The function `buildMainChain` with every access checked. -/
def buildMainChainChecked (largerElements : List Int) (pairs : List (Int × Int))
    (leftover : Int) (hasLeftover : Bool) : Option (List Int) :=
  match insertSmallerElementsChecked largerElements pairs with
  | none => none
  | some mainChain => if hasLeftover then insertChecked mainChain leftover else some mainChain

/-- The function `mergeInsertSort` with every access checked. -/
def mergeInsertSortCheckedFuel : Nat → List Int → Option (List Int)
  | 0, container => some container
  | fuel + 1, container =>
    if container.length ≤ 1 then some container
    else if container.length = 2 then sortTwoElementsChecked container
    else
      match createSortedPairsChecked container with
      | none => none
      | some created =>
        match mergeInsertSortCheckedFuel fuel (extractLargerElements created.1) with
        | none => none
        | some largerElements =>
          buildMainChainChecked largerElements created.1 created.2.1 created.2.2

/-- The function `fordJohnsonSort` with every access checked. -/
def fordJohnsonSortChecked (container : List Int) : Option (List Int) :=
  if container.length ≤ 1 then some container
  else mergeInsertSortCheckedFuel container.length container

/-- The growing loop of `generateJacobsthalSequence` in 64-bit `size_t`
arithmetic: the product and the sum wrap around modulo `2 ^ 64`. -/
def jacobsthalGrowWrapped (pairCount : Nat) : Nat → List Nat → Nat → List Nat
  | 0, jacobsthal, _ => jacobsthal
  | fuel + 1, jacobsthal, currentIndex =>
    if jacobsthal.getLastD 0 < pairCount then
      let nextValue :=
        (jacobsthal.getD (currentIndex - 1) 0
          + (2 * jacobsthal.getD (currentIndex - 2) 0) % 2 ^ 64) % 2 ^ 64
      jacobsthalGrowWrapped pairCount fuel (jacobsthal ++ [nextValue]) (currentIndex + 1)
    else
      jacobsthal

/-! ## Binary search and insertion -/

theorem binarySearchLoop_spec (container : List Int) (value : Int) (fuel : Nat) :
    ∀ low high : Nat, low ≤ high → high - low ≤ fuel →
      (∀ i j, low ≤ i → i ≤ j → j < high → container.getD i 0 ≤ container.getD j 0) →
      low ≤ binarySearchLoop container value fuel low high ∧
      binarySearchLoop container value fuel low high ≤ high ∧
      (∀ j, low ≤ j → j < binarySearchLoop container value fuel low high →
        container.getD j 0 < value) ∧
      (∀ j, binarySearchLoop container value fuel low high ≤ j → j < high →
        value ≤ container.getD j 0) := by
  induction fuel with
  | zero =>
    intro low high hle hfuel _
    have hEq : low = high := by omega
    subst hEq
    simp only [binarySearchLoop]
    refine ⟨le_refl _, le_refl _, ?_, ?_⟩ <;> intro j h1 h2 <;> omega
  | succ fuel ih =>
    intro low high hle hfuel hsorted
    unfold binarySearchLoop
    by_cases hlt : low < high
    · simp only [hlt, if_true]
      have hmid1 : low ≤ low + (high - low) / 2 := Nat.le_add_right _ _
      have hmid2 : low + (high - low) / 2 < high := by omega
      by_cases hcmp : container.getD (low + (high - low) / 2) 0 < value
      · simp only [hcmp, if_true]
        obtain ⟨r1, r2, r3, r4⟩ := ih (low + (high - low) / 2 + 1) high (by omega) (by omega)
          (fun i j hi hij hj => hsorted i j (by omega) hij hj)
        refine ⟨by omega, r2, ?_, r4⟩
        intro j hj1 hj2
        by_cases hjm : j ≤ low + (high - low) / 2
        · exact lt_of_le_of_lt (hsorted j _ hj1 hjm hmid2) hcmp
        · exact r3 j (by omega) hj2
      · simp only [hcmp, if_false]
        obtain ⟨r1, r2, r3, r4⟩ := ih low (low + (high - low) / 2) hmid1 (by omega)
          (fun i j hi hij hj => hsorted i j hi hij (by omega))
        refine ⟨r1, by omega, r3, ?_⟩
        intro j hj1 hj2
        by_cases hjm : j < low + (high - low) / 2
        · exact r4 j hj1 hjm
        · exact le_trans (not_lt.mp hcmp) (hsorted _ j hmid1 (by omega) hj2)
    · have hEq : low = high := by omega
      subst hEq
      simp only [hlt, if_false]
      refine ⟨le_refl _, le_refl _, ?_, ?_⟩ <;> intro j h1 h2 <;> omega

/-- C5: on a slice `[low, high)` that is sorted ascending, `binarySearch` returns
the lower bound of `value`: an index `i` with `low ≤ i ≤ high`, every element at a
position in `[low, i)` less than `value`, and every element at a position in
`[i, high)` at least `value`. -/
theorem binarySearch_lower_bound (container : List Int) (value : Int) (low high : Nat)
    (hlow : low ≤ high) (hhigh : high ≤ container.length)
    (hsorted : ∀ i j, low ≤ i → i ≤ j → j < high →
      container.getD i 0 ≤ container.getD j 0) :
    low ≤ binarySearch container value low high ∧
    binarySearch container value low high ≤ high ∧
    (∀ j, low ≤ j → j < binarySearch container value low high →
      container.getD j 0 < value) ∧
    (∀ j, binarySearch container value low high ≤ j → j < high →
      value ≤ container.getD j 0) :=
  binarySearchLoop_spec container value (high - low) low high hlow (le_refl _) hsorted

theorem binarySearch_lower_bound_witness :
    binarySearch [9, 1, 3, 3, 7, 0] 3 1 5 = 2 ∧
    1 ≤ binarySearch [9, 1, 3, 3, 7, 0] 3 1 5 ∧
    binarySearch [9, 1, 3, 3, 7, 0] 3 1 5 ≤ 5 ∧
    (∀ j, 1 ≤ j → j < binarySearch [9, 1, 3, 3, 7, 0] 3 1 5 →
      ([9, 1, 3, 3, 7, 0] : List Int).getD j 0 < 3) ∧
    (∀ j, binarySearch [9, 1, 3, 3, 7, 0] 3 1 5 ≤ j → j < 5 →
      3 ≤ ([9, 1, 3, 3, 7, 0] : List Int).getD j 0) :=
  ⟨by decide, binarySearch_lower_bound [9, 1, 3, 3, 7, 0] 3 1 5 (by decide) (by decide) (by
    intro i j hi hij hj
    have hi5 : i < 5 := by omega
    interval_cases i <;> interval_cases j <;> simp_all)⟩

theorem sorted_getD_le (l : List Int) (hl : l.Sorted (· ≤ ·)) (i j : Nat)
    (hij : i ≤ j) (hj : j < l.length) : l.getD i 0 ≤ l.getD j 0 := by
  rw [List.getD_eq_getElem l 0 (lt_of_le_of_lt hij hj), List.getD_eq_getElem l 0 hj]
  rcases Nat.eq_or_lt_of_le hij with h | h
  · subst h; exact le_refl _
  · exact (List.pairwise_iff_getElem.mp hl) i j (lt_of_le_of_lt hij hj) hj h

theorem insertAt_length (l : List Int) (pos : Nat) (v : Int) (hpos : pos ≤ l.length) :
    (insertAt l pos v).length = l.length + 1 := by
  simp only [insertAt, List.length_append, List.length_cons, List.length_take, List.length_drop]
  omega

theorem insertAt_perm (l : List Int) (pos : Nat) (v : Int) :
    (insertAt l pos v).Perm (v :: l) := by
  have h : (l.take pos ++ v :: l.drop pos).Perm (v :: (l.take pos ++ l.drop pos)) :=
    List.perm_middle
  rw [List.take_append_drop] at h
  exact h

theorem insertAt_sorted (l : List Int) (pos : Nat) (v : Int) (hl : l.Sorted (· ≤ ·))
    (hbefore : ∀ j, j < pos → l.getD j 0 < v)
    (hafter : ∀ j, pos ≤ j → j < l.length → v ≤ l.getD j 0) :
    (insertAt l pos v).Sorted (· ≤ ·) := by
  have hsplit : (l.take pos ++ l.drop pos).Sorted (· ≤ ·) := by
    rw [List.take_append_drop]; exact hl
  obtain ⟨h1, h2, _⟩ := List.pairwise_append.mp hsplit
  have hlow : ∀ a ∈ l.take pos, a ≤ v := by
    intro a ha
    obtain ⟨n, hn, rfl⟩ := List.mem_iff_getElem.mp ha
    have hn2 : n < pos ∧ n < l.length := by
      rw [List.length_take] at hn; omega
    have := hbefore n hn2.1
    rw [List.getD_eq_getElem l 0 hn2.2] at this
    rw [List.getElem_take]
    exact le_of_lt this
  have hhigh : ∀ b ∈ l.drop pos, v ≤ b := by
    intro b hb
    obtain ⟨n, hn, rfl⟩ := List.mem_iff_getElem.mp hb
    have hn2 : pos + n < l.length := by
      rw [List.length_drop] at hn; omega
    have := hafter (pos + n) (Nat.le_add_right _ _) hn2
    rw [List.getD_eq_getElem l 0 hn2] at this
    rw [List.getElem_drop]
    exact this
  unfold insertAt
  refine List.pairwise_append.mpr ⟨h1, List.pairwise_cons.mpr ⟨hhigh, h2⟩, ?_⟩
  intro a ha b hb
  rcases List.mem_cons.mp hb with rfl | hb
  · exact hlow a ha
  · exact le_trans (hlow a ha) (hhigh b hb)

theorem insertSmaller_sorted (mainChain : List Int) (smaller : Int)
    (h : mainChain.Sorted (· ≤ ·)) : (insertSmaller mainChain smaller).Sorted (· ≤ ·) := by
  obtain ⟨_, _, h3, h4⟩ := binarySearchLoop_spec mainChain smaller (mainChain.length - 0)
    0 mainChain.length (Nat.zero_le _) (le_refl _)
    (fun i j _ hij hj => sorted_getD_le mainChain h i j hij hj)
  exact insertAt_sorted mainChain _ smaller h (fun j hj => h3 j (Nat.zero_le _) hj) h4

theorem insertSmaller_perm (mainChain : List Int) (smaller : Int) :
    (insertSmaller mainChain smaller).Perm (smaller :: mainChain) :=
  insertAt_perm mainChain _ smaller

theorem insertSmaller_length (mainChain : List Int) (smaller : Int) :
    (insertSmaller mainChain smaller).length = mainChain.length + 1 :=
  (insertSmaller_perm mainChain smaller).length_eq

/-! ## The insertion loops keep the chain sorted -/

theorem insertBlock_sorted (pairs : List (Int × Int)) (start : Nat) (pairIndex : Nat) :
    ∀ state : List Int × List Bool, state.1.Sorted (· ≤ ·) →
      (insertBlock pairs start pairIndex state).1.Sorted (· ≤ ·) := by
  induction pairIndex with
  | zero => intro state h; simpa [insertBlock] using h
  | succ n ih =>
    intro state h
    unfold insertBlock
    split
    · dsimp only
      split
      · exact ih _ (insertSmaller_sorted _ _ h)
      · exact ih _ h
    · exact h

theorem insertBlocks_sorted (pairs : List (Int × Int)) (jacobsthal : List Nat) (fuel : Nat) :
    ∀ (i : Nat) (state : List Int × List Bool), state.1.Sorted (· ≤ ·) →
      (insertBlocks pairs jacobsthal fuel i state).1.Sorted (· ≤ ·) := by
  induction fuel with
  | zero => intro i state h; simpa [insertBlocks] using h
  | succ n ih =>
    intro i state h
    unfold insertBlocks
    split
    · dsimp only
      exact ih _ _ (insertBlock_sorted pairs _ _ state h)
    · exact h

theorem insertRemaining_sorted (pairs : List (Int × Int)) (inserted : List Bool) (fuel : Nat) :
    ∀ (pairIndex : Nat) (mainChain : List Int), mainChain.Sorted (· ≤ ·) →
      (insertRemaining pairs inserted fuel pairIndex mainChain).Sorted (· ≤ ·) := by
  induction fuel with
  | zero => intro i mainChain h; simpa [insertRemaining] using h
  | succ n ih =>
    intro i mainChain h
    unfold insertRemaining
    split
    · split
      · exact ih _ _ (insertSmaller_sorted _ _ h)
      · exact ih _ _ h
    · exact h

theorem insertSmallerElements_sorted (mainChain : List Int) (pairs : List (Int × Int))
    (h : mainChain.Sorted (· ≤ ·)) : (insertSmallerElements mainChain pairs).Sorted (· ≤ ·) := by
  unfold insertSmallerElements
  split
  · exact h
  · exact insertRemaining_sorted pairs _ _ _ _
      (insertBlocks_sorted pairs _ _ _ _ h)

theorem buildMainChain_sorted (largerElements : List Int) (pairs : List (Int × Int))
    (leftover : Int) (hasLeftover : Bool) (h : largerElements.Sorted (· ≤ ·)) :
    (buildMainChain largerElements pairs leftover hasLeftover).Sorted (· ≤ ·) := by
  unfold buildMainChain
  have h1 := insertSmallerElements_sorted largerElements pairs h
  split
  · exact insertSmaller_sorted _ leftover h1
  · exact h1

/-! ## Pair construction -/

theorem pairUp_short (l : List Int) (h : l.length ≤ 1) : pairUp l = [] := by
  match l, h with
  | [], _ => rfl
  | [_], _ => rfl

theorem pairUp_length (l : List Int) : (pairUp l).length = l.length / 2 := by
  induction l using pairUp.induct with
  | case1 a b rest ih =>
    simp only [pairUp, List.length_cons, ih]
    omega
  | case2 l hl =>
    match l, hl with
    | [], _ => rfl
    | [_], _ => simp [pairUp]
    | a :: b :: rest, hl => exact absurd rfl (hl a b rest)

theorem pairUp_ordered (l : List Int) : ∀ pair ∈ pairUp l, pair.1 ≤ pair.2 := by
  induction l using pairUp.induct with
  | case1 a b rest ih =>
    intro pair hp
    simp only [pairUp, List.mem_cons] at hp
    rcases hp with rfl | hp
    · split
      · rename_i h; exact le_of_lt h
      · rename_i h; exact not_lt.mp h
    · exact ih pair hp
  | case2 l hl =>
    match l, hl with
    | [], _ => intro pair hp; simp [pairUp] at hp
    | [_], _ => intro pair hp; simp [pairUp] at hp
    | a :: b :: rest, hl => exact absurd rfl (hl a b rest)

theorem createSortedPairsLoop_eq (container : List Int) (fuel : Nat) :
    ∀ (k : Nat) (pairs : List (Int × Int)), 2 * k ≤ 2 * (container.length / 2) →
      2 * (container.length / 2) ≤ 2 * k + 2 * fuel →
      createSortedPairsLoop container (2 * (container.length / 2)) fuel (2 * k) pairs
        = pairs ++ pairUp (container.drop (2 * k)) := by
  induction fuel with
  | zero =>
    intro k pairs h1 h2
    have hshort : (container.drop (2 * k)).length ≤ 1 := by
      rw [List.length_drop]; omega
    simp [createSortedPairsLoop, pairUp_short _ hshort]
  | succ n ih =>
    intro k pairs h1 h2
    unfold createSortedPairsLoop
    by_cases hlt : 2 * k < 2 * (container.length / 2)
    · have hi : 2 * k < container.length := by omega
      have hi1 : 2 * k + 1 < container.length := by omega
      have hdrop : container.drop (2 * k)
          = container.getD (2 * k) 0 :: container.getD (2 * k + 1) 0
            :: container.drop (2 * (k + 1)) := by
        rw [List.drop_eq_getElem_cons hi, List.drop_eq_getElem_cons hi1,
          List.getD_eq_getElem _ _ hi, List.getD_eq_getElem _ _ hi1]
        rfl
      have hstep := fun acc => ih (k + 1) acc (by omega) (by omega)
      simp only [hlt, if_true]
      rw [hdrop]
      rw [show 2 * k + 2 = 2 * (k + 1) by ring]
      by_cases hcmp : container.getD (2 * k) 0 > container.getD (2 * k + 1) 0
      · simp only [hcmp, if_true, hstep, pairUp, List.append_assoc, List.singleton_append]
      · simp only [hcmp, if_false, hstep, pairUp, List.append_assoc, List.singleton_append]
    · have hshort : (container.drop (2 * k)).length ≤ 1 := by
        rw [List.length_drop]; omega
      simp [hlt, pairUp_short _ hshort]

theorem createSortedPairs_eq (container : List Int) :
    createSortedPairs container
      = (pairUp container,
         (if container.length % 2 = 1 then container.getLastD 0 else 0),
         decide (container.length % 2 = 1)) := by
  have hloop := createSortedPairsLoop_eq container container.length 0 []
    (by omega) (by omega)
  simp only [Nat.mul_zero, List.drop_zero, List.nil_append] at hloop
  have hend : container.length - (if (container.length % 2 == 1) = true then 1 else 0)
      = 2 * (container.length / 2) := by
    by_cases hodd : container.length % 2 = 1
    · simp [hodd]; omega
    · simp [hodd]; omega
  unfold createSortedPairs
  simp only [hend, hloop]
  by_cases hodd : container.length % 2 = 1 <;> simp [hodd]

theorem pairUp_getD (l : List Int) :
    ∀ i : Nat, 2 * i + 1 < l.length →
      (pairUp l).getD i (0, 0)
        = (min (l.getD (2 * i) 0) (l.getD (2 * i + 1) 0),
           max (l.getD (2 * i) 0) (l.getD (2 * i + 1) 0)) := by
  induction l using pairUp.induct with
  | case1 a b rest ih =>
    intro i hi
    cases i with
    | zero =>
      simp only [pairUp, List.getD_cons_zero, Nat.mul_zero, Nat.zero_add, List.getD_cons_succ]
      by_cases hab : a > b
      · simp [hab, le_of_lt hab]
      · simp [hab, not_lt.mp hab]
    | succ j =>
      have hj : 2 * j + 1 < rest.length := by
        simp only [List.length_cons] at hi; omega
      have e1 : 2 * (j + 1) = 2 * j + 1 + 1 := by ring
      have e2 : 2 * (j + 1) + 1 = 2 * j + 1 + 1 + 1 := by ring
      simp only [pairUp, List.getD_cons_succ, e1, e2, ih j hj]
  | case2 l hl =>
    intro i hi
    match l, hl, hi with
    | [], _, hi => simp at hi
    | [_], _, hi => simp at hi
    | a :: b :: rest, hl, _ => exact absurd rfl (hl a b rest)

/-- C10: `createSortedPairs` returns exactly `floor(n/2)` pairs in adjacency
order, pair `i` being `(min(S[2i], S[2i+1]), max(S[2i], S[2i+1]))`, so that
`first ≤ second` in every pair; `hasLeftover` is true iff `n` is odd, and then
`leftover` is the last element of `S`. -/
theorem createSortedPairs_spec (S : List Int) :
    (createSortedPairs S).1.length = S.length / 2 ∧
    (∀ i, i < S.length / 2 →
      (createSortedPairs S).1.getD i (0, 0)
        = (min (S.getD (2 * i) 0) (S.getD (2 * i + 1) 0),
           max (S.getD (2 * i) 0) (S.getD (2 * i + 1) 0))) ∧
    (∀ pair ∈ (createSortedPairs S).1, pair.1 ≤ pair.2) ∧
    ((createSortedPairs S).2.2 = true ↔ S.length % 2 = 1) ∧
    (S.length % 2 = 1 → S.getLast? = some (createSortedPairs S).2.1) := by
  rw [createSortedPairs_eq]
  refine ⟨pairUp_length S, fun i hi => pairUp_getD S i (by omega), pairUp_ordered S,
    by simp, ?_⟩
  intro hodd
  simp only [hodd, if_true]
  cases S with
  | nil => simp at hodd
  | cons a rest => simp [List.getLast?_eq_getLast, List.getLastD_eq_getLast?]

theorem getLastD_of_ne_nil (l : List Int) (x y : Int) (h : l ≠ []) :
    l.getLastD x = l.getLastD y := by
  cases l with
  | nil => exact absurd rfl h
  | cons a rest => rfl

theorem pairUp_perm (l : List Int) :
    ((pairUp l).map (fun pair => pair.2) ++ (pairUp l).map (fun pair => pair.1)
      ++ (if l.length % 2 = 1 then [l.getLastD 0] else [])).Perm l := by
  induction l using pairUp.induct with
  | case1 a b rest ih =>
    have htail : (if (a :: b :: rest).length % 2 = 1 then [(a :: b :: rest).getLastD 0] else [])
        = (if rest.length % 2 = 1 then [rest.getLastD 0] else []) := by
      by_cases hodd : rest.length % 2 = 1
      · have hne : rest ≠ [] := by
          intro h; subst h; simp at hodd
        have hlen : (a :: b :: rest).length % 2 = 1 := by
          simp only [List.length_cons]; omega
        simp only [hodd, hlen, if_true, List.getLastD_cons]
        rw [getLastD_of_ne_nil rest b 0 hne]
      · have hlen : ¬ (a :: b :: rest).length % 2 = 1 := by
          simp only [List.length_cons]; omega
        simp only [hodd, hlen, if_false]
    rw [htail]
    have hmid : ∀ (x y : Int) (xs ys zs : List Int), (xs ++ ys ++ zs).Perm rest →
        ((x :: xs) ++ (y :: ys) ++ zs).Perm (x :: y :: rest) := by
      intro x y xs ys zs h
      have h1 : ((x :: xs) ++ (y :: ys) ++ zs).Perm (y :: ((x :: xs) ++ ys ++ zs)) := by
        simp only [List.append_assoc, List.cons_append]
        exact @List.perm_middle _ y (x :: xs) (ys ++ zs)
      refine h1.trans ?_
      refine (List.Perm.cons y ?_).trans (List.Perm.swap x y rest)
      simpa using List.Perm.cons x h
    by_cases hab : a > b
    · simp only [pairUp, hab, if_true, List.map_cons]
      exact hmid a b _ _ _ ih
    · simp only [pairUp, hab, if_false, List.map_cons]
      exact (hmid b a _ _ _ ih).trans (List.Perm.swap a b rest)
  | case2 l hl =>
    match l, hl with
    | [], _ => simp [pairUp]
    | [x], _ => simp [pairUp]
    | a :: b :: rest, hl => exact absurd rfl (hl a b rest)

/-! ## The insertion loops insert every pair minimum exactly once -/

theorem flaggedFirsts_replicate (pairs : List (Int × Int)) (n : Nat) :
    flaggedFirsts true pairs (List.replicate n false) = [] := by
  induction pairs generalizing n with
  | nil => cases n <;> simp [flaggedFirsts]
  | cons pair pairs ih =>
    cases n with
    | zero => simp [flaggedFirsts]
    | succ m => simp [List.replicate_succ, flaggedFirsts, ih]

theorem flaggedFirsts_set (pairs : List (Int × Int)) :
    ∀ (inserted : List Bool) (a : Nat), a < pairs.length → a < inserted.length →
      inserted.getD a false = false →
      (flaggedFirsts true pairs (inserted.set a true)).Perm
        ((pairs.getD a (0, 0)).1 :: flaggedFirsts true pairs inserted) := by
  induction pairs with
  | nil => intro inserted a ha; simp at ha
  | cons pair pairs ih =>
    intro inserted a ha hb hfalse
    cases inserted with
    | nil => simp at hb
    | cons b inserted =>
      cases a with
      | zero =>
        simp only [List.getD_cons_zero] at hfalse
        subst hfalse
        simp [flaggedFirsts]
      | succ m =>
        simp only [List.length_cons, Nat.add_lt_add_iff_right] at ha hb
        simp only [List.getD_cons_succ] at hfalse
        have h := ih inserted m ha hb hfalse
        simp only [List.set_cons_succ, flaggedFirsts, List.getD_cons_succ]
        by_cases hbt : b = true
        · simp only [hbt, if_true]
          exact (List.Perm.cons pair.1 h).trans (List.Perm.swap _ _ _)
        · simp only [hbt, if_false]
          exact h

theorem flaggedFirsts_split (pairs : List (Int × Int)) :
    ∀ inserted : List Bool, inserted.length = pairs.length →
      (flaggedFirsts true pairs inserted ++ flaggedFirsts false pairs inserted).Perm
        (pairs.map (fun pair => pair.1)) := by
  induction pairs with
  | nil => intro inserted _; cases inserted <;> simp [flaggedFirsts]
  | cons pair pairs ih =>
    intro inserted hlen
    cases inserted with
    | nil => simp at hlen
    | cons b inserted =>
      have h := ih inserted (by simpa using hlen)
      cases b with
      | true => simpa [flaggedFirsts] using h
      | false =>
        simp only [flaggedFirsts, Bool.false_eq_true, if_false, if_true, List.map_cons]
        exact List.perm_middle.trans (List.Perm.cons pair.1 h)

theorem insertBlock_perm (pairs : List (Int × Int)) (seed : List Int) (start : Nat)
    (pairIndex : Nat) :
    ∀ state : List Int × List Bool, state.2.length = pairs.length →
      state.1.Perm (seed ++ flaggedFirsts true pairs state.2) →
      (insertBlock pairs start pairIndex state).2.length = pairs.length ∧
      (insertBlock pairs start pairIndex state).1.Perm
        (seed ++ flaggedFirsts true pairs (insertBlock pairs start pairIndex state).2) := by
  induction pairIndex with
  | zero => intro state hlen hperm; exact ⟨hlen, hperm⟩
  | succ n ih =>
    intro state hlen hperm
    unfold insertBlock
    split
    · dsimp only
      split
      · rename_i hcond
        simp only [Nat.add_sub_cancel, Bool.and_eq_true, decide_eq_true_eq,
          Bool.not_eq_true'] at hcond
        refine ih _ (by simp [hlen]) ?_
        refine (insertSmaller_perm _ _).trans ?_
        refine (List.Perm.cons _ hperm).trans ?_
        refine List.perm_middle.symm.trans ?_
        exact List.Perm.append_left seed
          (flaggedFirsts_set pairs state.2 n hcond.1 (by omega) hcond.2).symm
      · exact ih _ hlen hperm
    · exact ⟨hlen, hperm⟩

theorem insertBlocks_perm (pairs : List (Int × Int)) (seed : List Int)
    (jacobsthal : List Nat) (fuel : Nat) :
    ∀ (i : Nat) (state : List Int × List Bool), state.2.length = pairs.length →
      state.1.Perm (seed ++ flaggedFirsts true pairs state.2) →
      (insertBlocks pairs jacobsthal fuel i state).2.length = pairs.length ∧
      (insertBlocks pairs jacobsthal fuel i state).1.Perm
        (seed ++ flaggedFirsts true pairs (insertBlocks pairs jacobsthal fuel i state).2) := by
  induction fuel with
  | zero => intro i state hlen hperm; exact ⟨hlen, hperm⟩
  | succ n ih =>
    intro i state hlen hperm
    unfold insertBlocks
    split
    · dsimp only
      obtain ⟨h1, h2⟩ := insertBlock_perm pairs seed (jacobsthal.getD (i - 1) 0)
        (jacobsthal.getD i 0) state hlen hperm
      exact ih _ _ h1 h2
    · exact ⟨hlen, hperm⟩

theorem insertRemaining_perm (pairs : List (Int × Int)) (inserted : List Bool)
    (hlen : inserted.length = pairs.length) (fuel : Nat) :
    ∀ (pairIndex : Nat) (mainChain : List Int), pairs.length ≤ pairIndex + fuel →
      (insertRemaining pairs inserted fuel pairIndex mainChain).Perm
        (mainChain ++ flaggedFirsts false (pairs.drop pairIndex) (inserted.drop pairIndex)) := by
  induction fuel with
  | zero =>
    intro pairIndex mainChain hfuel
    have hdrop : pairs.drop pairIndex = [] := List.drop_eq_nil_of_le (by omega)
    simp [insertRemaining, hdrop, flaggedFirsts]
  | succ n ih =>
    intro pairIndex mainChain hfuel
    unfold insertRemaining
    by_cases hlt : pairIndex < pairs.length
    · have hlt2 : pairIndex < inserted.length := by omega
      simp only [hlt, if_true]
      rw [List.drop_eq_getElem_cons hlt, List.drop_eq_getElem_cons hlt2,
        List.getD_eq_getElem _ _ hlt, List.getD_eq_getElem _ _ hlt2]
      by_cases hflag : inserted[pairIndex] = false
      · simp only [hflag, Bool.not_false, if_true, flaggedFirsts]
        refine (ih _ _ (by omega)).trans ?_
        refine (List.Perm.append_right _ (insertSmaller_perm mainChain _)).trans ?_
        simpa using (@List.perm_middle _ pairs[pairIndex].1 mainChain _).symm
      · have hflag2 : inserted[pairIndex] = true := by simpa using hflag
        simp only [hflag2, Bool.not_true, Bool.false_eq_true, if_false, flaggedFirsts]
        exact ih _ _ (by omega)
    · have hdrop : pairs.drop pairIndex = [] := List.drop_eq_nil_of_le (by omega)
      simp [hlt, hdrop, flaggedFirsts]

theorem insertSmallerElements_perm (mainChain : List Int) (pairs : List (Int × Int)) :
    (insertSmallerElements mainChain pairs).Perm
      (mainChain ++ pairs.map (fun pair => pair.1)) := by
  unfold insertSmallerElements
  split
  · rename_i hempty
    have : pairs = [] := by simpa using hempty
    subst this
    simp
  · obtain ⟨h1, h2⟩ := insertBlocks_perm pairs mainChain
      (generateJacobsthalSequence pairs.length) (generateJacobsthalSequence pairs.length).length
      1 (mainChain, List.replicate pairs.length false) (by simp)
      (by simp [flaggedFirsts_replicate])
    have h3 := insertRemaining_perm pairs _ h1 pairs.length 0
      (insertJacobsthalBlocks mainChain pairs).1 (by omega)
    simp only [List.drop_zero] at h3
    refine h3.trans ?_
    refine (List.Perm.append_right _ h2).trans ?_
    rw [List.append_assoc]
    exact List.Perm.append_left mainChain (flaggedFirsts_split pairs _ h1)

theorem buildMainChain_perm (largerElements : List Int) (pairs : List (Int × Int))
    (leftover : Int) (hasLeftover : Bool) :
    (buildMainChain largerElements pairs leftover hasLeftover).Perm
      (largerElements ++ pairs.map (fun pair => pair.1)
        ++ (if hasLeftover then [leftover] else [])) := by
  unfold buildMainChain
  have h1 := insertSmallerElements_perm largerElements pairs
  cases hasLeftover with
  | true =>
    simp only [if_true]
    refine (insertSmaller_perm _ leftover).trans ?_
    refine (List.Perm.cons leftover h1).trans ?_
    simpa using (@List.perm_middle _ leftover
      (largerElements ++ pairs.map (fun pair => pair.1)) []).symm
  | false => simpa using h1

/-! ## The sort -/

theorem sortTwoElements_pair (x y : Int) :
    sortTwoElements [x, y] = if x > y then [y, x] else [x, y] := rfl

theorem sortTwoElements_min_max (x y : Int) :
    sortTwoElements [x, y] = [min x y, max x y] := by
  rw [sortTwoElements_pair]
  by_cases h : x > y
  · simp [h, le_of_lt h]
  · simp [h, not_lt.mp h]

theorem extractLargerElements_length (container : List Int) :
    (extractLargerElements (createSortedPairs container).1).length = container.length / 2 := by
  rw [createSortedPairs_eq]
  simp [extractLargerElements, pairUp_length]

theorem mergeInsertSortFuel_sorted (fuel : Nat) :
    ∀ container : List Int, container.length ≤ fuel →
      (mergeInsertSortFuel fuel container).Sorted (· ≤ ·) := by
  induction fuel with
  | zero =>
    intro container h
    have : container = [] := List.length_eq_zero.mp (by omega)
    subst this
    simp [mergeInsertSortFuel]
  | succ n ih =>
    intro container h
    unfold mergeInsertSortFuel
    split
    · rename_i h1
      match container, h1 with
      | [], _ => simp
      | [_], _ => simp
    · split
      · rename_i h2
        obtain ⟨x, y, rfl⟩ := List.length_eq_two.mp h2
        rw [sortTwoElements_min_max]
        simp
      · dsimp only
        refine buildMainChain_sorted _ _ _ _ (ih _ ?_)
        rw [extractLargerElements_length]
        omega

theorem mergeInsertSortFuel_perm (fuel : Nat) :
    ∀ container : List Int, container.length ≤ fuel →
      (mergeInsertSortFuel fuel container).Perm container := by
  induction fuel with
  | zero => intro container _; simp [mergeInsertSortFuel]
  | succ n ih =>
    intro container h
    unfold mergeInsertSortFuel
    split
    · exact List.Perm.refl _
    · split
      · rename_i h2
        obtain ⟨x, y, rfl⟩ := List.length_eq_two.mp h2
        rw [sortTwoElements_pair]
        split
        · exact List.Perm.swap x y []
        · exact List.Perm.refl _
      · dsimp only
        have hrec := ih (extractLargerElements (createSortedPairs container).1) (by
          rw [extractLargerElements_length]; omega)
        refine (buildMainChain_perm _ _ _ _).trans ?_
        refine (List.Perm.append_right _ (List.Perm.append_right _ hrec)).trans ?_
        rw [createSortedPairs_eq]
        have hp := pairUp_perm container
        by_cases hodd : container.length % 2 = 1
        · simpa [extractLargerElements, hodd] using hp
        · simpa [extractLargerElements, hodd] using hp

/-- The depth bound is never reached: every bound of at least the container's
size gives the same result. -/
theorem mergeInsertSortFuel_stable (fuel : Nat) (container : List Int)
    (h : container.length ≤ fuel) :
    mergeInsertSortFuel fuel container = mergeInsertSort container :=
  List.eq_of_perm_of_sorted
    ((mergeInsertSortFuel_perm fuel container h).trans
      (mergeInsertSortFuel_perm container.length container (le_refl _)).symm)
    (mergeInsertSortFuel_sorted fuel container h)
    (mergeInsertSortFuel_sorted container.length container (le_refl _))

theorem fordJohnsonSort_sorted (container : List Int) :
    (fordJohnsonSort container).Sorted (· ≤ ·) := by
  unfold fordJohnsonSort
  split
  · rename_i h1
    match container, h1 with
    | [], _ => simp
    | [_], _ => simp
  · exact mergeInsertSortFuel_sorted _ _ (le_refl _)

theorem fordJohnsonSort_perm (container : List Int) :
    (fordJohnsonSort container).Perm container := by
  unfold fordJohnsonSort
  split
  · exact List.Perm.refl _
  · exact mergeInsertSortFuel_perm _ _ (le_refl _)

theorem isSorted_iff (l : List Int) : isSorted l = true ↔ l.Sorted (· ≤ ·) := by
  induction l using isSorted.induct with
  | case1 a b rest hlt => simp [isSorted, hlt, not_le.mpr hlt]
  | case2 a b rest hlt ih =>
    simp only [isSorted, hlt, if_false, ih, List.sorted_cons]
    constructor
    · intro h
      refine ⟨?_, h⟩
      intro c hc
      rcases List.mem_cons.mp hc with rfl | hc
      · exact not_lt.mp hlt
      · exact le_trans (not_lt.mp hlt) (h.1 c hc)
    · intro h; exact h.2
  | case3 l hl =>
    match l, hl with
    | [], _ => simp [isSorted]
    | [_], _ => simp [isSorted]
    | a :: b :: rest, hl => exact absurd rfl (hl a b rest)

/-- C1: for every sequence of pairwise distinct ints the output of
`fordJohnsonSort` is non-descending, `output[i] ≤ output[i+1]` at every adjacent
index, so the `is_sorted` check of `verifyAndDisplayResults` succeeds; and the two
known vectors `[3,5,9,7,4]` and `[9,8,...,0]` sort to `[3,4,5,7,9]` and `[0,1,...,9]`. -/
theorem fordJohnsonSort_nondescending (input : List Int) (hdistinct : input.Nodup) :
    (∀ i, i + 1 < (fordJohnsonSort input).length →
      (fordJohnsonSort input).getD i 0 ≤ (fordJohnsonSort input).getD (i + 1) 0) ∧
    isSorted (fordJohnsonSort input) = true ∧
    fordJohnsonSort [3, 5, 9, 7, 4] = [3, 4, 5, 7, 9] ∧
    fordJohnsonSort [9, 8, 7, 6, 5, 4, 3, 2, 1, 0] = [0, 1, 2, 3, 4, 5, 6, 7, 8, 9] := by
  have hs := fordJohnsonSort_sorted input
  refine ⟨fun i hi => sorted_getD_le _ hs i (i + 1) (Nat.le_succ i) hi,
    (isSorted_iff _).mpr hs, by decide, by decide⟩

theorem fordJohnsonSort_nondescending_witness :
    ([3, 5, 9, 7, 4] : List Int).Nodup ∧
    (∀ i, i + 1 < (fordJohnsonSort [3, 5, 9, 7, 4]).length →
      (fordJohnsonSort [3, 5, 9, 7, 4]).getD i 0
        ≤ (fordJohnsonSort [3, 5, 9, 7, 4]).getD (i + 1) 0) ∧
    isSorted (fordJohnsonSort [3, 5, 9, 7, 4]) = true :=
  ⟨by decide,
    (fordJohnsonSort_nondescending [3, 5, 9, 7, 4] (by decide)).1,
    (fordJohnsonSort_nondescending [3, 5, 9, 7, 4] (by decide)).2.1⟩

/-- C2: for every sequence of pairwise distinct ints the output of
`fordJohnsonSort` is a permutation of the input: the two multisets are equal and
the lengths are equal. -/
theorem fordJohnsonSort_permutation (input : List Int) (hdistinct : input.Nodup) :
    (fordJohnsonSort input).Perm input ∧
    (Multiset.ofList (fordJohnsonSort input) = Multiset.ofList input) ∧
    (fordJohnsonSort input).length = input.length :=
  ⟨fordJohnsonSort_perm input, Multiset.coe_eq_coe.mpr (fordJohnsonSort_perm input),
    (fordJohnsonSort_perm input).length_eq⟩

theorem fordJohnsonSort_permutation_witness :
    ([8, 2, 5, 1, 9, 4, 7] : List Int).Nodup ∧
    fordJohnsonSort [8, 2, 5, 1, 9, 4, 7] = [1, 2, 4, 5, 7, 8, 9] ∧
    (fordJohnsonSort [8, 2, 5, 1, 9, 4, 7]).Perm [8, 2, 5, 1, 9, 4, 7] ∧
    (fordJohnsonSort [8, 2, 5, 1, 9, 4, 7]).length = 7 :=
  ⟨by decide, by decide,
    (fordJohnsonSort_permutation [8, 2, 5, 1, 9, 4, 7] (by decide)).1,
    (fordJohnsonSort_permutation [8, 2, 5, 1, 9, 4, 7] (by decide)).2.2⟩

/-- C3: idempotence.  A sequence of distinct ints that is already in ascending
order is returned unchanged, and sorting the output of a sort again returns it
unchanged. -/
theorem fordJohnsonSort_idempotent (xs : List Int) (hdistinct : xs.Nodup) :
    (xs.Sorted (· ≤ ·) → fordJohnsonSort xs = xs) ∧
    fordJohnsonSort (fordJohnsonSort xs) = fordJohnsonSort xs := by
  constructor
  · intro hsorted
    exact List.eq_of_perm_of_sorted (fordJohnsonSort_perm xs) (fordJohnsonSort_sorted xs) hsorted
  · exact List.eq_of_perm_of_sorted (fordJohnsonSort_perm _) (fordJohnsonSort_sorted _)
      (fordJohnsonSort_sorted xs)

theorem fordJohnsonSort_idempotent_witness :
    ([1, 2, 4, 6, 7, 10] : List Int).Nodup ∧
    ([1, 2, 4, 6, 7, 10] : List Int).Sorted (· ≤ ·) ∧
    fordJohnsonSort [1, 2, 4, 6, 7, 10] = [1, 2, 4, 6, 7, 10] ∧
    fordJohnsonSort (fordJohnsonSort [1, 2, 4, 6, 7, 10]) = fordJohnsonSort [1, 2, 4, 6, 7, 10] :=
  ⟨by decide, by decide,
    (fordJohnsonSort_idempotent [1, 2, 4, 6, 7, 10] (by decide)).1 (by decide),
    (fordJohnsonSort_idempotent [1, 2, 4, 6, 7, 10] (by decide)).2⟩

theorem jacobsthalNumber_pos (n : Nat) : 1 ≤ jacobsthalNumber (n + 1) := by
  induction n using Nat.strong_induction_on with
  | _ n ih =>
    match n with
    | 0 => simp [jacobsthalNumber]
    | k + 1 =>
      have := ih k (Nat.lt_succ_self k)
      simp only [jacobsthalNumber]
      omega

theorem jacobsthalNumber_le_succ (n : Nat) : jacobsthalNumber n ≤ jacobsthalNumber (n + 1) := by
  match n with
  | 0 => simp [jacobsthalNumber]
  | k + 1 => simp only [jacobsthalNumber]; omega

theorem jacobsthalNumber_lt_succ (n : Nat) (h : 2 ≤ n) :
    jacobsthalNumber n < jacobsthalNumber (n + 1) := by
  match n, h with
  | k + 2, _ =>
    have := jacobsthalNumber_pos k
    show jacobsthalNumber (k + 2) < jacobsthalNumber (k + 2) + 2 * jacobsthalNumber (k + 1)
    omega

theorem jacobsthalNumber_mono {i j : Nat} (h : i ≤ j) :
    jacobsthalNumber i ≤ jacobsthalNumber j := by
  induction j with
  | zero =>
    have : i = 0 := by omega
    subst this; exact le_refl _
  | succ k ih =>
    rcases Nat.eq_or_lt_of_le h with rfl | hlt
    · exact le_refl _
    · exact le_trans (ih (by omega)) (jacobsthalNumber_le_succ k)

theorem jacobsthalNumber_ge (n : Nat) : n ≤ jacobsthalNumber (n + 1) := by
  induction n with
  | zero => exact Nat.zero_le _
  | succ k ih =>
    rcases Nat.lt_or_ge k 1 with hk | hk
    · have : k = 0 := by omega
      subst this; simp [jacobsthalNumber]
    · have := jacobsthalNumber_lt_succ (k + 1) (by omega)
      omega

theorem jacobsthalPrefix_length (m : Nat) : (jacobsthalPrefix m).length = m := by
  simp [jacobsthalPrefix]

theorem jacobsthalPrefix_succ (m : Nat) :
    jacobsthalPrefix (m + 1) = jacobsthalPrefix m ++ [jacobsthalNumber m] := by
  simp [jacobsthalPrefix, List.range_succ]

theorem jacobsthalPrefix_getD (m i : Nat) (h : i < m) :
    (jacobsthalPrefix m).getD i 0 = jacobsthalNumber i := by
  unfold jacobsthalPrefix
  rw [List.getD_eq_getElem _ _ (by simpa using h)]
  simp

theorem jacobsthalPrefix_getLastD (m : Nat) :
    (jacobsthalPrefix (m + 1)).getLastD 0 = jacobsthalNumber m := by
  rw [jacobsthalPrefix_succ, List.getLastD_concat]

theorem jacobsthalGrow_eq (pairCount : Nat) (fuel : Nat) :
    ∀ m : Nat, 2 ≤ m →
      ∃ t, m ≤ t ∧ t ≤ m + fuel ∧
        jacobsthalGrow pairCount fuel (jacobsthalPrefix m) m = jacobsthalPrefix t ∧
        (t < m + fuel → pairCount ≤ jacobsthalNumber (t - 1)) ∧
        (∀ i, m ≤ i → i < t → jacobsthalNumber (i - 1) < pairCount) := by
  induction fuel with
  | zero =>
    intro m _
    exact ⟨m, le_refl _, le_refl _, rfl, fun h => absurd h (lt_irrefl _),
      fun i h1 h2 => absurd (lt_of_le_of_lt h1 h2) (lt_irrefl _)⟩
  | succ n ih =>
    intro m hm
    obtain ⟨k, rfl⟩ : ∃ k, m = k + 2 := ⟨m - 2, by omega⟩
    unfold jacobsthalGrow
    rw [jacobsthalPrefix_getLastD (k + 1)]
    by_cases hlt : jacobsthalNumber (k + 1) < pairCount
    · simp only [hlt, if_true]
      rw [jacobsthalPrefix_getD (k + 2) (k + 2 - 1) (by omega),
        jacobsthalPrefix_getD (k + 2) (k + 2 - 2) (by omega)]
      have hnext : jacobsthalNumber (k + 2 - 1) + 2 * jacobsthalNumber (k + 2 - 2)
          = jacobsthalNumber (k + 2) := by
        simp only [Nat.add_sub_cancel, show k + 2 - 1 = k + 1 by omega, jacobsthalNumber]
      rw [hnext, ← jacobsthalPrefix_succ]
      obtain ⟨t, h1, h2, h3, h4, h5⟩ := ih (k + 2 + 1) (by omega)
      refine ⟨t, by omega, by omega, h3, fun h => h4 (by omega), ?_⟩
      intro i hi1 hi2
      rcases Nat.eq_or_lt_of_le hi1 with heq | hgt
      · subst heq; simpa using hlt
      · exact h5 i (by omega) hi2
    · simp only [hlt, if_false]
      refine ⟨k + 2, le_refl _, by omega, rfl, fun _ => ?_, ?_⟩
      · simpa using not_lt.mp hlt
      · intro i h1 h2; omega

theorem jacobsthalTrim_eq (pairCount : Nat) (fuel : Nat) :
    ∀ m : Nat, m ≤ fuel →
      ∃ t, t ≤ m ∧
        jacobsthalTrim pairCount fuel (jacobsthalPrefix m) = jacobsthalPrefix t ∧
        (∀ i, i < t → jacobsthalNumber i < pairCount) ∧
        (∀ i, t ≤ i → i < m → pairCount ≤ jacobsthalNumber i) := by
  induction fuel with
  | zero =>
    intro m hm
    have : m = 0 := by omega
    subst this
    exact ⟨0, le_refl _, rfl, fun i h => absurd h (Nat.not_lt_zero i),
      fun i _ h => absurd h (Nat.not_lt_zero i)⟩
  | succ n ih =>
    intro m hm
    unfold jacobsthalTrim
    match m, hm with
    | 0, _ =>
      refine ⟨0, le_refl _, ?_, fun i h => absurd h (Nat.not_lt_zero i),
        fun i _ h => absurd h (Nat.not_lt_zero i)⟩
      simp [jacobsthalPrefix]
    | k + 1, hk =>
      have hne : (jacobsthalPrefix (k + 1)).isEmpty = false := by
        simp [jacobsthalPrefix_succ]
      rw [jacobsthalPrefix_getLastD k, hne]
      by_cases hge : jacobsthalNumber k ≥ pairCount
      · simp only [Bool.not_false, Bool.true_and, decide_eq_true_eq, hge, if_true]
        rw [jacobsthalPrefix_succ, List.dropLast_concat]
        obtain ⟨t, h1, h2, h3, h4⟩ := ih k (by omega)
        refine ⟨t, by omega, h2, h3, ?_⟩
        intro i hi1 hi2
        rcases Nat.eq_or_lt_of_le (Nat.le_of_lt_succ hi2) with heq | hlt
        · subst heq; exact hge
        · exact h4 i hi1 hlt
      · simp only [Bool.not_false, Bool.true_and, decide_eq_true_eq, hge, if_false]
        refine ⟨k + 1, le_refl _, rfl, ?_, fun i h1 h2 => by omega⟩
        intro i hi
        exact lt_of_le_of_lt (jacobsthalNumber_mono (Nat.le_of_lt_succ hi)) (not_le.mp hge)

theorem generateJacobsthalSequence_eq (pairCount : Nat) (h : 3 ≤ pairCount) :
    ∃ t, 3 ≤ t ∧ jacobsthalNumber (t - 1) < pairCount ∧ pairCount ≤ jacobsthalNumber t ∧
      generateJacobsthalSequence pairCount = jacobsthalPrefix t ++ [pairCount] := by
  obtain ⟨m, hm1, hm2, hgrow, hm3, hm4⟩ := jacobsthalGrow_eq pairCount pairCount 2 (le_refl _)
  have hlast : pairCount ≤ jacobsthalNumber (m - 1) := by
    rcases Nat.lt_or_ge m (2 + pairCount) with hlt | hge
    · exact hm3 hlt
    · have : m - 1 = pairCount + 1 := by omega
      rw [this]
      exact jacobsthalNumber_ge pairCount
  have hm5 : 3 ≤ m := by
    rcases Nat.lt_or_ge m 3 with hlt | hge
    · have : m = 2 := by omega
      subst this
      simp [jacobsthalNumber] at hlast
      omega
    · exact hge
  obtain ⟨t, ht1, htrim, ht2, ht3⟩ := jacobsthalTrim_eq pairCount m m (le_refl _)
  have ht4 : 3 ≤ t := by
    rcases Nat.lt_or_ge t 3 with hlt | hge
    · have := ht3 2 (by omega) (by omega)
      simp [jacobsthalNumber] at this
      omega
    · exact hge
  have ht5 : t < m := by
    rcases Nat.lt_or_ge t m with hlt | hge
    · exact hlt
    · have := ht2 (m - 1) (by omega)
      omega
  refine ⟨t, ht4, ht2 (t - 1) (by omega), ht3 t (le_refl _) ht5, ?_⟩
  have hbase : ([0, 1] : List Nat) = jacobsthalPrefix 2 := by decide
  unfold generateJacobsthalSequence
  simp only [show ¬ pairCount = 0 by omega, show ¬ pairCount = 1 by omega,
    show ¬ pairCount = 2 by omega, if_false]
  rw [hbase, hgrow, jacobsthalPrefix_length, htrim]
  obtain ⟨k, rfl⟩ : ∃ k, t = k + 1 := ⟨t - 1, by omega⟩
  have hne : jacobsthalNumber k ≠ pairCount := by
    have := ht2 k (by omega)
    omega
  rw [jacobsthalPrefix_getLastD k]
  simp [hne]

theorem jacobsthalNumber_le_triple (n : Nat) :
    jacobsthalNumber (n + 1) ≤ 3 * jacobsthalNumber n + 1 := by
  match n with
  | 0 => simp [jacobsthalNumber]
  | k + 1 =>
    have := jacobsthalNumber_le_succ k
    show jacobsthalNumber (k + 1) + 2 * jacobsthalNumber k ≤ 3 * jacobsthalNumber (k + 1) + 1
    omega

/-- No `size_t` wrap-around in the growing loop: every value it pushes is at
most `3 * pairCount`, so for `pairCount = pairs.size()` the arithmetic on `Nat`
is the machine arithmetic. -/
theorem jacobsthalGrow_small (pairCount : Nat) (h : 3 ≤ pairCount) :
    ∀ x ∈ jacobsthalGrow pairCount pairCount [0, 1] 2, x ≤ 3 * pairCount := by
  obtain ⟨t, ht1, _, hgrow, _, ht2⟩ := jacobsthalGrow_eq pairCount pairCount 2 (le_refl _)
  have hbase : ([0, 1] : List Nat) = jacobsthalPrefix 2 := by decide
  rw [hbase, hgrow]
  intro x hx
  unfold jacobsthalPrefix at hx
  obtain ⟨i, hi, rfl⟩ := List.mem_map.mp hx
  have hi2 : i < t := List.mem_range.mp hi
  rcases Nat.lt_or_ge i 2 with hlt | hge
  · interval_cases i
    · simp [jacobsthalNumber]
    · simp [jacobsthalNumber]; omega
  · obtain ⟨k, rfl⟩ : ∃ k, i = k + 1 := ⟨i - 1, by omega⟩
    have h1 := ht2 (k + 1) (by omega) hi2
    simp only [Nat.add_sub_cancel] at h1
    have h2 := jacobsthalNumber_le_triple k
    omega

theorem generateJacobsthalSequence_small :
    generateJacobsthalSequence 0 = [] ∧ generateJacobsthalSequence 1 = [0] ∧
    generateJacobsthalSequence 2 = [0, 1] := by decide

theorem boundaries_getD_lt (t pairCount i : Nat) (h : i < t) :
    (jacobsthalPrefix t ++ [pairCount]).getD i 0 = jacobsthalNumber i := by
  rw [List.getD_append _ _ _ _ (by rw [jacobsthalPrefix_length]; exact h)]
  exact jacobsthalPrefix_getD t i h

theorem boundaries_getD_last (t pairCount : Nat) :
    (jacobsthalPrefix t ++ [pairCount]).getD t 0 = pairCount := by
  rw [List.getD_append_right _ _ _ _ (by rw [jacobsthalPrefix_length])]
  simp [jacobsthalPrefix_length]

theorem boundaries_length (t pairCount : Nat) :
    (jacobsthalPrefix t ++ [pairCount]).length = t + 1 := by
  simp [jacobsthalPrefix_length]

theorem generateJacobsthalSequence_le (pairCount : Nat) :
    ∀ x ∈ generateJacobsthalSequence pairCount, x ≤ pairCount := by
  rcases Nat.lt_or_ge pairCount 3 with hlt | hge
  · interval_cases pairCount <;> decide
  · obtain ⟨t, ht1, ht2, _, heq⟩ := generateJacobsthalSequence_eq pairCount hge
    intro x hx
    rw [heq] at hx
    rcases List.mem_append.mp hx with hx | hx
    · unfold jacobsthalPrefix at hx
      obtain ⟨i, hi, rfl⟩ := List.mem_map.mp hx
      have hi2 : i < t := List.mem_range.mp hi
      have := jacobsthalNumber_mono (show i ≤ t - 1 by omega)
      omega
    · have : x = pairCount := by simpa using hx
      omega

theorem generateJacobsthalSequence_monotone (pairCount : Nat) (i j : Nat) (hij : i ≤ j)
    (hj : j < (generateJacobsthalSequence pairCount).length) :
    (generateJacobsthalSequence pairCount).getD i 0
      ≤ (generateJacobsthalSequence pairCount).getD j 0 := by
  rcases Nat.lt_or_ge pairCount 3 with hlt | hge
  · interval_cases pairCount
    · simp [generateJacobsthalSequence] at hj
    · have h1 : generateJacobsthalSequence 1 = [0] := by decide
      rw [h1] at hj ⊢
      simp only [List.length_singleton] at hj
      have : j = 0 := by omega
      subst this
      have : i = 0 := by omega
      subst this
      exact le_refl _
    · have h2 : generateJacobsthalSequence 2 = [0, 1] := by decide
      rw [h2] at hj ⊢
      simp only [List.length_cons, List.length_nil] at hj
      interval_cases j <;> interval_cases i <;> simp
  · obtain ⟨t, ht1, ht2, _, heq⟩ := generateJacobsthalSequence_eq pairCount hge
    rw [heq] at hj ⊢
    rw [boundaries_length] at hj
    rcases Nat.eq_or_lt_of_le (Nat.le_of_lt_succ hj) with hjt | hjt
    · subst hjt
      rw [boundaries_getD_last]
      rcases Nat.eq_or_lt_of_le hij with rfl | hlt
      · rw [boundaries_getD_last]
      · rw [boundaries_getD_lt _ _ _ hlt]
        have := jacobsthalNumber_mono (show i ≤ j - 1 by omega)
        omega
    · rw [boundaries_getD_lt _ _ _ hjt, boundaries_getD_lt _ _ _ (lt_of_le_of_lt hij hjt)]
      exact jacobsthalNumber_mono hij

/-- C6, as amended: for every `pairCount ≥ 3` the last element of
`generateJacobsthalSequence pairCount` is `pairCount`; for `pairCount = 1` the
sequence is `[0]` and for `pairCount = 2` it is `[0, 1]`. -/
theorem generateJacobsthalSequence_last (pairCount : Nat) (h : 3 ≤ pairCount) :
    (generateJacobsthalSequence pairCount).getLast? = some pairCount ∧
    generateJacobsthalSequence 1 = [0] ∧ generateJacobsthalSequence 2 = [0, 1] := by
  obtain ⟨t, _, _, _, heq⟩ := generateJacobsthalSequence_eq pairCount h
  refine ⟨?_, by decide, by decide⟩
  rw [heq]
  simp

theorem generateJacobsthalSequence_last_witness :
    3 ≤ 5 ∧ (generateJacobsthalSequence 5).getLast? = some 5 :=
  ⟨by decide, (generateJacobsthalSequence_last 5 (by decide)).1⟩

/-- C6 as stated fails at `pairCount = 1` and `pairCount = 2`: the early returns
give `[0]` and `[0, 1]`, whose last elements are `0` and `1`. -/
theorem generateJacobsthalSequence_last_counterexample :
    1 ≤ 1 ∧ (generateJacobsthalSequence 1).getLast? = some 0 ∧
    (generateJacobsthalSequence 1).getLast? ≠ some 1 ∧
    (generateJacobsthalSequence 2).getLast? ≠ some 2 := by decide

/-- C7, as amended: for every `pairCount` the returned sequence is
non-descending, and each boundary is strictly greater than the one before it
except between positions 1 and 2, which for `pairCount ≥ 3` both hold `1`
(`J(1) = J(2) = 1`); `generateJacobsthalSequence 5 = [0, 1, 1, 3, 5]`. -/
theorem generateJacobsthalSequence_increasing (pairCount : Nat) :
    (generateJacobsthalSequence pairCount).Sorted (· ≤ ·) ∧
    (∀ i, i + 1 < (generateJacobsthalSequence pairCount).length → i ≠ 1 →
      (generateJacobsthalSequence pairCount).getD i 0
        < (generateJacobsthalSequence pairCount).getD (i + 1) 0) ∧
    (3 ≤ pairCount → (generateJacobsthalSequence pairCount).getD 1 0 = 1 ∧
      (generateJacobsthalSequence pairCount).getD 2 0 = 1) ∧
    generateJacobsthalSequence 5 = [0, 1, 1, 3, 5] := by
  refine ⟨?_, ?_, ?_, by decide⟩
  · refine List.pairwise_iff_getElem.mpr ?_
    intro i j hi hj hij
    have := generateJacobsthalSequence_monotone pairCount i j (le_of_lt hij) hj
    rwa [List.getD_eq_getElem _ _ hi, List.getD_eq_getElem _ _ hj] at this
  · intro i hi hne
    rcases Nat.lt_or_ge pairCount 3 with hlt | hge
    · interval_cases pairCount
      · simp [generateJacobsthalSequence] at hi
      · simp [generateJacobsthalSequence] at hi
      · have h2 : generateJacobsthalSequence 2 = [0, 1] := by decide
        rw [h2] at hi ⊢
        simp only [List.length_cons, List.length_nil] at hi
        have : i = 0 := by omega
        subst this
        simp
    · obtain ⟨t, ht1, ht2, _, heq⟩ := generateJacobsthalSequence_eq pairCount hge
      rw [heq] at hi ⊢
      rw [boundaries_length] at hi
      rcases Nat.eq_or_lt_of_le (Nat.le_of_lt_succ hi) with hit | hit
      · rw [hit, boundaries_getD_last, boundaries_getD_lt _ _ _ (by omega)]
        have : i = t - 1 := by omega
        rw [this]; exact ht2
      · rw [boundaries_getD_lt _ _ _ hit, boundaries_getD_lt _ _ _ (by omega)]
        rcases Nat.lt_or_ge i 2 with hi2 | hi2
        · have : i = 0 := by omega
          subst this
          simp [jacobsthalNumber]
        · exact jacobsthalNumber_lt_succ i hi2
  · intro hge
    obtain ⟨t, ht1, _, _, heq⟩ := generateJacobsthalSequence_eq pairCount hge
    rw [heq, boundaries_getD_lt _ _ _ (by omega), boundaries_getD_lt _ _ _ (by omega)]
    simp [jacobsthalNumber]

/-- C7 as stated fails at `pairCount = 5`: the sequence is `[0, 1, 1, 3, 5]`, not
`[0, 1, 3, 5]`, and the boundary at position 2 is not greater than the one at
position 1. -/
theorem generateJacobsthalSequence_increasing_counterexample :
    generateJacobsthalSequence 5 = [0, 1, 1, 3, 5] ∧
    generateJacobsthalSequence 5 ≠ [0, 1, 3, 5] ∧
    ¬ (generateJacobsthalSequence 5).Sorted (· < ·) ∧
    ¬ ((generateJacobsthalSequence 5).getD 1 0 < (generateJacobsthalSequence 5).getD 2 0) := by
  decide

/-- C8: for every `pairCount`, no element of `generateJacobsthalSequence pairCount`
exceeds `pairCount`. -/
theorem generateJacobsthalSequence_bounded (pairCount : Nat) :
    ∀ x ∈ generateJacobsthalSequence pairCount, x ≤ pairCount :=
  generateJacobsthalSequence_le pairCount

theorem generateJacobsthalSequence_bounded_witness :
    generateJacobsthalSequence 12 = [0, 1, 1, 3, 5, 11, 12] ∧
    11 ∈ generateJacobsthalSequence 12 ∧ 11 ≤ 12 :=
  ⟨by decide, by decide, generateJacobsthalSequence_bounded 12 11 (by decide)⟩

/-! ## Coverage of the pair indices by the Jacobsthal blocks -/

theorem getD_set_true_of_true (l : List Bool) (a j : Nat) (h : l.getD j false = true) :
    (l.set a true).getD j false = true := by
  simp only [List.getD_eq_getElem?_getD, List.getElem?_set] at h ⊢
  split
  · rename_i haj
    subst haj
    split
    · simp
    · rename_i hlt
      rw [List.getElem?_eq_none (by omega)] at h
      simp at h
  · exact h

theorem getD_set_true_self (l : List Bool) (a : Nat) (h : a < l.length) :
    (l.set a true).getD a false = true := by
  simp [List.getD_eq_getElem?_getD, List.getElem?_set, h]

theorem insertBlock_flags (pairs : List (Int × Int)) (start : Nat) (pairIndex : Nat) :
    ∀ state : List Int × List Bool, state.2.length = pairs.length →
      pairIndex ≤ pairs.length →
      (insertBlock pairs start pairIndex state).2.length = pairs.length ∧
      ∀ j, (state.2.getD j false = true ∨ (start ≤ j ∧ j < pairIndex)) →
        (insertBlock pairs start pairIndex state).2.getD j false = true := by
  induction pairIndex with
  | zero =>
    intro state hlen _
    refine ⟨hlen, ?_⟩
    intro j hj
    rcases hj with hj | hj
    · exact hj
    · omega
  | succ n ih =>
    intro state hlen hn
    unfold insertBlock
    split
    · dsimp only
      split
      · rename_i hcond
        obtain ⟨h1, h2⟩ := ih (insertSmaller state.1 (pairs.getD (n + 1 - 1) (0, 0)).1,
          state.2.set (n + 1 - 1) true) (by simp [hlen]) (by omega)
        refine ⟨h1, ?_⟩
        intro j hj
        apply h2
        simp only [Nat.add_sub_cancel]
        rcases hj with hj | ⟨hj1, hj2⟩
        · exact Or.inl (getD_set_true_of_true _ _ _ hj)
        · rcases Nat.eq_or_lt_of_le (Nat.le_of_lt_succ hj2) with heq | hlt
          · subst heq
            exact Or.inl (getD_set_true_self _ _ (by omega))
          · exact Or.inr ⟨hj1, hlt⟩
      · rename_i hcond
        simp only [Nat.add_sub_cancel, Bool.and_eq_true, decide_eq_true_eq,
          Bool.not_eq_true', not_and, Bool.not_eq_false] at hcond
        obtain ⟨h1, h2⟩ := ih state hlen (by omega)
        refine ⟨h1, ?_⟩
        intro j hj
        apply h2
        rcases hj with hj | ⟨hj1, hj2⟩
        · exact Or.inl hj
        · rcases Nat.eq_or_lt_of_le (Nat.le_of_lt_succ hj2) with heq | hlt
          · subst heq
            exact Or.inl (hcond (by omega))
          · exact Or.inr ⟨hj1, hlt⟩
    · rename_i hstart
      refine ⟨hlen, ?_⟩
      intro j hj
      rcases hj with hj | hj
      · exact hj
      · omega

theorem insertBlocks_flags (pairs : List (Int × Int)) (jacobsthal : List Nat)
    (hbound : ∀ i, jacobsthal.getD i 0 ≤ pairs.length) (fuel : Nat) :
    ∀ (i : Nat) (state : List Int × List Bool), 1 ≤ i → i ≤ jacobsthal.length →
      jacobsthal.length ≤ i + fuel → state.2.length = pairs.length →
      (∀ j, j < jacobsthal.getD (i - 1) 0 → state.2.getD j false = true) →
      (insertBlocks pairs jacobsthal fuel i state).2.length = pairs.length ∧
      ∀ j, j < jacobsthal.getD (jacobsthal.length - 1) 0 →
        (insertBlocks pairs jacobsthal fuel i state).2.getD j false = true := by
  induction fuel with
  | zero =>
    intro i state h1 h2 h3 hlen hflags
    have : i = jacobsthal.length := by omega
    subst this
    exact ⟨hlen, hflags⟩
  | succ n ih =>
    intro i state h1 h2 h3 hlen hflags
    unfold insertBlocks
    split
    · dsimp only
      obtain ⟨hb1, hb2⟩ := insertBlock_flags pairs (jacobsthal.getD (i - 1) 0)
        (jacobsthal.getD i 0) state hlen (hbound i)
      refine ih (i + 1) _ (by omega) (by omega) (by omega) hb1 ?_
      intro j hj
      simp only [Nat.add_sub_cancel] at hj
      apply hb2
      rcases Nat.lt_or_ge j (jacobsthal.getD (i - 1) 0) with hlt | hge
      · exact Or.inl (hflags j hlt)
      · exact Or.inr ⟨hge, hj⟩
    · have : i = jacobsthal.length := by omega
      subst this
      exact ⟨hlen, hflags⟩

theorem insertJacobsthalBlocks_flags (mainChain : List Int) (pairs : List (Int × Int))
    (hk : 3 ≤ pairs.length) :
    (insertJacobsthalBlocks mainChain pairs).2 = List.replicate pairs.length true := by
  obtain ⟨t, ht1, _, _, heq⟩ := generateJacobsthalSequence_eq pairs.length hk
  have hbound : ∀ i, (generateJacobsthalSequence pairs.length).getD i 0 ≤ pairs.length := by
    intro i
    rcases Nat.lt_or_ge i (generateJacobsthalSequence pairs.length).length with hlt | hge
    · rw [List.getD_eq_getElem _ _ hlt]
      exact generateJacobsthalSequence_le _ _ (List.getElem_mem _)
    · rw [List.getD_eq_default _ _ hge]; exact Nat.zero_le _
  have hlen : (generateJacobsthalSequence pairs.length).length = t + 1 := by
    rw [heq, boundaries_length]
  obtain ⟨h1, h2⟩ := insertBlocks_flags pairs (generateJacobsthalSequence pairs.length) hbound
    (generateJacobsthalSequence pairs.length).length 1
    (mainChain, List.replicate pairs.length false) (le_refl _) (by omega) (by omega)
    (by simp) (by
      intro j hj
      rw [heq, boundaries_getD_lt _ _ _ (by omega)] at hj
      simp [jacobsthalNumber] at hj)
  have hlast : (generateJacobsthalSequence pairs.length).getD
      ((generateJacobsthalSequence pairs.length).length - 1) 0 = pairs.length := by
    rw [hlen, heq, Nat.add_sub_cancel, boundaries_getD_last]
  rw [hlast] at h2
  unfold insertJacobsthalBlocks
  refine List.eq_replicate_iff.mpr ⟨h1, ?_⟩
  intro b hb
  obtain ⟨j, hj, rfl⟩ := List.mem_iff_getElem.mp hb
  have hj2 : j < pairs.length := by rw [← h1]; exact hj
  have := h2 j hj2
  rwa [List.getD_eq_getElem _ _ hj] at this

theorem blocks_cover (J : List Nat) (k : Nat)
    (hmono : ∀ i j, i ≤ j → j < J.length → J.getD i 0 ≤ J.getD j 0)
    (hfirst : J.getD 0 0 = 0) (hlen : 1 ≤ J.length) (hlast : J.getD (J.length - 1) 0 = k)
    (p : Nat) (hp1 : 1 ≤ p) (hpk : p ≤ k) :
    ∃! i, 1 ≤ i ∧ i < J.length ∧ J.getD (i - 1) 0 < p ∧ p ≤ J.getD i 0 := by
  classical
  have hex : ∃ i, i < J.length ∧ p ≤ J.getD i 0 :=
    ⟨J.length - 1, by omega, by rw [hlast]; exact hpk⟩
  have hspec := Nat.find_spec hex
  have hmin := fun m (hm : m < Nat.find hex) => Nat.find_min hex hm
  have hpos : 1 ≤ Nat.find hex := by
    rcases Nat.lt_or_ge (Nat.find hex) 1 with hlt | hge
    · have h0 : Nat.find hex = 0 := by omega
      rw [h0, hfirst] at hspec
      omega
    · exact hge
  refine ⟨Nat.find hex, ⟨hpos, hspec.1, ?_, hspec.2⟩, ?_⟩
  · have := hmin (Nat.find hex - 1) (by omega)
    rw [not_and] at this
    exact not_le.mp (this (by omega))
  · rintro i ⟨hi1, hi2, hi3, hi4⟩
    rcases Nat.lt_trichotomy i (Nat.find hex) with hlt | heq | hgt
    · exact absurd ⟨hi2, hi4⟩ (hmin i hlt)
    · exact heq
    · have := hmono (Nat.find hex) (i - 1) (by omega) (by omega)
      omega

/-- C9, as amended: for every pair count `k ≥ 3`, with
`J = generateJacobsthalSequence k`, every pair index `p` in `1..k` lies in exactly
one block `(J[i-1], J[i]]`, `1 ≤ i < |J|`, and when the Jacobsthal block loop of
`insertSmallerElements` ends every pair is marked inserted. -/
theorem jacobsthal_blocks_cover (k : Nat) (hk : 3 ≤ k) :
    (∀ p, 1 ≤ p → p ≤ k →
      ∃! i, 1 ≤ i ∧ i < (generateJacobsthalSequence k).length ∧
        (generateJacobsthalSequence k).getD (i - 1) 0 < p ∧
        p ≤ (generateJacobsthalSequence k).getD i 0) ∧
    (∀ (mainChain : List Int) (pairs : List (Int × Int)), pairs.length = k →
      (insertJacobsthalBlocks mainChain pairs).2 = List.replicate k true) := by
  constructor
  · intro p hp1 hpk
    obtain ⟨t, ht1, _, _, heq⟩ := generateJacobsthalSequence_eq k hk
    have hlen : (generateJacobsthalSequence k).length = t + 1 := by
      rw [heq, boundaries_length]
    refine blocks_cover _ k (generateJacobsthalSequence_monotone k) ?_ (by omega) ?_
      p hp1 hpk
    · rw [heq, boundaries_getD_lt _ _ _ (by omega)]
      rfl
    · rw [hlen, heq, Nat.add_sub_cancel, boundaries_getD_last]
  · intro mainChain pairs hlen
    subst hlen
    exact insertJacobsthalBlocks_flags mainChain pairs hk

theorem jacobsthal_blocks_cover_witness :
    3 ≤ 5 ∧
    (∀ p, 1 ≤ p → p ≤ 5 →
      ∃! i, 1 ≤ i ∧ i < (generateJacobsthalSequence 5).length ∧
        (generateJacobsthalSequence 5).getD (i - 1) 0 < p ∧
        p ≤ (generateJacobsthalSequence 5).getD i 0) ∧
    (insertJacobsthalBlocks [2, 4, 6, 8, 10] [(1, 2), (3, 4), (5, 6), (7, 8), (9, 10)]).2
      = [true, true, true, true, true] :=
  ⟨by decide, (jacobsthal_blocks_cover 5 (by decide)).1,
    (jacobsthal_blocks_cover 5 (by decide)).2 [2, 4, 6, 8, 10]
      [(1, 2), (3, 4), (5, 6), (7, 8), (9, 10)] rfl⟩

/-- C9 as stated fails at `k = 1` and `k = 2`: for `k = 1` the sequence is `[0]`
and pair index 1 lies in no block; for `k = 2` it is `[0, 1]` and pair index 2 lies
in no block; the block loop leaves those pairs unmarked. -/
theorem jacobsthal_blocks_cover_counterexample :
    (1 ≤ 1 ∧ ¬ ∃ i, 1 ≤ i ∧ i < (generateJacobsthalSequence 1).length ∧
      (generateJacobsthalSequence 1).getD (i - 1) 0 < 1 ∧
      1 ≤ (generateJacobsthalSequence 1).getD i 0) ∧
    (¬ ∃ i, 1 ≤ i ∧ i < (generateJacobsthalSequence 2).length ∧
      (generateJacobsthalSequence 2).getD (i - 1) 0 < 2 ∧
      2 ≤ (generateJacobsthalSequence 2).getD i 0) ∧
    (insertJacobsthalBlocks [7] [(3, 7)]).2 = [false] ∧
    (insertJacobsthalBlocks [7, 9] [(3, 7), (5, 9)]).2 = [true, false] := by
  have h1 : generateJacobsthalSequence 1 = [0] := by decide
  have h2 : generateJacobsthalSequence 2 = [0, 1] := by decide
  refine ⟨⟨le_refl _, ?_⟩, ?_, by decide, by decide⟩
  · rintro ⟨i, hi1, hi2, _, _⟩
    rw [h1] at hi2
    simp only [List.length_singleton] at hi2
    omega
  · rintro ⟨i, hi1, hi2, _, hi4⟩
    rw [h2] at hi2 hi4
    simp only [List.length_cons, List.length_nil] at hi2
    have : i = 1 := by omega
    subst this
    simp at hi4

/-! ## The trace of insertions -/

theorem replay_append (mainChain : List Int) (t1 t2 : List Insertion) :
    replay mainChain (t1 ++ t2) = replay (replay mainChain t1) t2 := by
  simp [replay, List.foldl_append]

theorem replay_cons (mainChain : List Int) (e : Insertion) (rest : List Insertion) :
    replay mainChain (e :: rest) = replay (insertSmaller mainChain e.smaller) rest := rfl

theorem linked_append (t1 : List Insertion) :
    ∀ (mainChain : List Int) (t2 : List Insertion), Linked mainChain t1 →
      Linked (replay mainChain t1) t2 → Linked mainChain (t1 ++ t2) := by
  induction t1 with
  | nil => intro mainChain t2 _ h; simpa [replay] using h
  | cons e rest ih =>
    intro mainChain t2 h1 h2
    obtain ⟨he, hrest⟩ := h1
    exact ⟨he, ih _ t2 hrest (by simpa [replay_cons] using h2)⟩

theorem replay_length (trace : List Insertion) :
    ∀ mainChain : List Int, (replay mainChain trace).length = mainChain.length + trace.length := by
  induction trace with
  | nil => intro mainChain; rfl
  | cons e rest ih =>
    intro mainChain
    rw [replay_cons, ih, insertSmaller_length, List.length_cons]
    omega

theorem linked_sorted (trace : List Insertion) :
    ∀ mainChain : List Int, mainChain.Sorted (· ≤ ·) → Linked mainChain trace →
      (∀ e ∈ trace, e.mainChain.Sorted (· ≤ ·) ∧
        (insertSmaller e.mainChain e.smaller).Sorted (· ≤ ·) ∧
        (insertSmaller e.mainChain e.smaller).length = e.mainChain.length + 1) := by
  induction trace with
  | nil => intro mainChain _ _ e he; simp at he
  | cons e rest ih =>
    intro mainChain hs hl e' he'
    obtain ⟨he, hrest⟩ := hl
    rcases List.mem_cons.mp he' with rfl | hmem
    · rw [he]
      exact ⟨hs, insertSmaller_sorted _ _ hs, insertSmaller_length _ _⟩
    · exact ih _ (insertSmaller_sorted _ _ hs) hrest e' hmem

theorem insertBlock_linked (pairs : List (Int × Int)) (start : Nat) (pairIndex : Nat) :
    ∀ state : List Int × List Bool,
      Linked state.1 (insertBlockTrace pairs start pairIndex state) ∧
      (insertBlock pairs start pairIndex state).1
        = replay state.1 (insertBlockTrace pairs start pairIndex state) := by
  induction pairIndex with
  | zero => intro state; exact ⟨trivial, rfl⟩
  | succ n ih =>
    intro state
    unfold insertBlock insertBlockTrace
    split
    · dsimp only
      split
      · obtain ⟨h1, h2⟩ := ih (insertSmaller state.1 (pairs.getD (n + 1 - 1) (0, 0)).1,
          state.2.set (n + 1 - 1) true)
        exact ⟨⟨rfl, h1⟩, h2⟩
      · exact ih state
    · exact ⟨trivial, rfl⟩

theorem insertBlocks_linked (pairs : List (Int × Int)) (jacobsthal : List Nat) (fuel : Nat) :
    ∀ (i : Nat) (state : List Int × List Bool),
      Linked state.1 (insertBlocksTrace pairs jacobsthal fuel i state) ∧
      (insertBlocks pairs jacobsthal fuel i state).1
        = replay state.1 (insertBlocksTrace pairs jacobsthal fuel i state) := by
  induction fuel with
  | zero => intro i state; exact ⟨trivial, rfl⟩
  | succ n ih =>
    intro i state
    unfold insertBlocks insertBlocksTrace
    split
    · dsimp only
      obtain ⟨h1, h2⟩ := insertBlock_linked pairs (jacobsthal.getD (i - 1) 0)
        (jacobsthal.getD i 0) state
      obtain ⟨h3, h4⟩ := ih (i + 1)
        (insertBlock pairs (jacobsthal.getD (i - 1) 0) (jacobsthal.getD i 0) state)
      rw [h2] at h3 h4
      exact ⟨linked_append _ _ _ h1 h3, by rw [replay_append]; exact h4⟩
    · exact ⟨trivial, rfl⟩

theorem insertRemaining_linked (pairs : List (Int × Int)) (inserted : List Bool) (fuel : Nat) :
    ∀ (pairIndex : Nat) (mainChain : List Int),
      Linked mainChain (insertRemainingTrace pairs inserted fuel pairIndex mainChain) ∧
      insertRemaining pairs inserted fuel pairIndex mainChain
        = replay mainChain (insertRemainingTrace pairs inserted fuel pairIndex mainChain) := by
  induction fuel with
  | zero => intro i mainChain; exact ⟨trivial, rfl⟩
  | succ n ih =>
    intro i mainChain
    unfold insertRemaining insertRemainingTrace
    split
    · split
      · obtain ⟨h1, h2⟩ := ih (i + 1) (insertSmaller mainChain (pairs.getD i (0, 0)).1)
        exact ⟨⟨rfl, h1⟩, h2⟩
      · exact ih _ _
    · exact ⟨trivial, rfl⟩

theorem insertSmallerElements_linked (mainChain : List Int) (pairs : List (Int × Int)) :
    Linked mainChain (insertSmallerElementsTrace mainChain pairs) ∧
    insertSmallerElements mainChain pairs
      = replay mainChain (insertSmallerElementsTrace mainChain pairs) := by
  unfold insertSmallerElements insertSmallerElementsTrace
  split
  · exact ⟨trivial, rfl⟩
  · rename_i hne
    obtain ⟨h1, h2⟩ := insertBlocks_linked pairs (generateJacobsthalSequence pairs.length)
      (generateJacobsthalSequence pairs.length).length 1
      (mainChain, List.replicate pairs.length false)
    obtain ⟨h3, h4⟩ := insertRemaining_linked pairs (insertJacobsthalBlocks mainChain pairs).2
      pairs.length 0 (insertJacobsthalBlocks mainChain pairs).1
    have hstate : (insertJacobsthalBlocks mainChain pairs).1
        = replay mainChain (jacobsthalBlocksTrace mainChain pairs) := h2
    have hfb : fallbackTrace mainChain pairs
        = insertRemainingTrace pairs (insertJacobsthalBlocks mainChain pairs).2
            pairs.length 0 (insertJacobsthalBlocks mainChain pairs).1 := by
      simp [fallbackTrace, hne]
    rw [hfb]
    refine ⟨linked_append _ _ _ h1 (by rw [← hstate]; exact h3), ?_⟩
    rw [replay_append, ← hstate]
    exact h4

theorem insertSmallerElementsTrace_length (mainChain : List Int) (pairs : List (Int × Int)) :
    (insertSmallerElementsTrace mainChain pairs).length = pairs.length := by
  have h1 := (insertSmallerElements_perm mainChain pairs).length_eq
  rw [(insertSmallerElements_linked mainChain pairs).2, replay_length] at h1
  simp only [List.length_append, List.length_map] at h1
  omega

/-- C16: if the seed chain passed to `buildMainChain` is sorted ascending, then
the insertions of `insertSmallerElements` (block loop and fallback loop) form one
linked run from the seed to its result, each of them starts from a sorted chain
and leaves a sorted chain one element longer, and so does the insertion of the
leftover by `insertLeftoverElement`. -/
theorem mainChain_invariant (seed : List Int) (pairs : List (Int × Int)) (leftover : Int)
    (hseed : seed.Sorted (· ≤ ·)) :
    Linked seed (insertSmallerElementsTrace seed pairs) ∧
    insertSmallerElements seed pairs = replay seed (insertSmallerElementsTrace seed pairs) ∧
    (∀ e ∈ insertSmallerElementsTrace seed pairs,
      e.mainChain.Sorted (· ≤ ·) ∧
      (insertSmaller e.mainChain e.smaller).Sorted (· ≤ ·) ∧
      (insertSmaller e.mainChain e.smaller).length = e.mainChain.length + 1) ∧
    (insertLeftoverElement (insertSmallerElements seed pairs) leftover).Sorted (· ≤ ·) ∧
    (insertLeftoverElement (insertSmallerElements seed pairs) leftover).length
      = (insertSmallerElements seed pairs).length + 1 ∧
    buildMainChain seed pairs leftover true
      = insertLeftoverElement (insertSmallerElements seed pairs) leftover ∧
    buildMainChain seed pairs leftover false = insertSmallerElements seed pairs := by
  obtain ⟨h1, h2⟩ := insertSmallerElements_linked seed pairs
  exact ⟨h1, h2, linked_sorted _ seed hseed h1,
    insertSmaller_sorted _ leftover (insertSmallerElements_sorted seed pairs hseed),
    insertSmaller_length _ leftover, rfl, rfl⟩

theorem mainChain_invariant_witness :
    ([2, 6, 8] : List Int).Sorted (· ≤ ·) ∧
    (insertSmallerElementsTrace [2, 6, 8] [(5, 6), (1, 8), (0, 2)]).map
        (fun e => insertSmaller e.mainChain e.smaller)
      = [[2, 5, 6, 8], [0, 2, 5, 6, 8], [0, 1, 2, 5, 6, 8]] ∧
    (∀ e ∈ insertSmallerElementsTrace [2, 6, 8] [(5, 6), (1, 8), (0, 2)],
      e.mainChain.Sorted (· ≤ ·) ∧
      (insertSmaller e.mainChain e.smaller).Sorted (· ≤ ·) ∧
      (insertSmaller e.mainChain e.smaller).length = e.mainChain.length + 1) ∧
    insertLeftoverElement (insertSmallerElements [2, 6, 8] [(5, 6), (1, 8), (0, 2)]) 7
      = [0, 1, 2, 5, 6, 7, 8] :=
  ⟨by decide, by decide,
    (mainChain_invariant [2, 6, 8] [(5, 6), (1, 8), (0, 2)] 7 (by decide)).2.2.1,
    by decide⟩

/-! ## The insertion schedule -/

theorem getD_set_of_ne (l : List Bool) (a j : Nat) (h : a ≠ j) :
    (l.set a true).getD j false = l.getD j false := by
  simp [List.getD_eq_getElem?_getD, List.getElem?_set, h]

theorem insertBlock_flags_ge (pairs : List (Int × Int)) (start : Nat) (pairIndex : Nat) :
    ∀ (state : List Int × List Bool) (j : Nat), pairIndex ≤ j →
      (insertBlock pairs start pairIndex state).2.getD j false = state.2.getD j false := by
  induction pairIndex with
  | zero => intro state j _; rfl
  | succ n ih =>
    intro state j hj
    unfold insertBlock
    split
    · dsimp only
      split
      · rw [ih _ j (by omega)]
        exact getD_set_of_ne _ _ _ (by omega)
      · exact ih _ j (by omega)
    · rfl

theorem insertBlockTrace_order (pairs : List (Int × Int)) (start : Nat) (pairIndex : Nat) :
    ∀ state : List Int × List Bool, pairIndex ≤ pairs.length →
      (∀ j, start ≤ j → j < pairIndex → state.2.getD j false = false) →
      (insertBlockTrace pairs start pairIndex state).map (fun e => e.pairIndex + 1)
        = (List.range' (start + 1) (pairIndex - start)).reverse := by
  induction pairIndex with
  | zero => intro state _ _; simp [insertBlockTrace]
  | succ n ih =>
    intro state hn hflags
    unfold insertBlockTrace
    by_cases hgt : n + 1 > start
    · have hcond : (decide (n < pairs.length) && !state.2.getD n false) = true := by
        simp only [Bool.and_eq_true, decide_eq_true_eq, Bool.not_eq_true']
        exact ⟨by omega, hflags n (by omega) (by omega)⟩
      simp only [hgt, if_true, Nat.add_sub_cancel]
      rw [if_pos hcond, List.map_cons]
      rw [ih (insertSmaller state.1 (pairs.getD n (0, 0)).1, state.2.set n true) (by omega)
        (fun j h1 h2 => by
          show (state.2.set n true).getD j false = false
          rw [getD_set_of_ne _ _ _ (by omega)]; exact hflags j h1 (by omega))]
      have hsplit : n + 1 - start = (n - start) + 1 := by omega
      rw [hsplit, List.range'_concat, List.reverse_append]
      simp only [List.reverse_singleton, List.singleton_append, Nat.one_mul]
      congr 1
      omega
    · have : n + 1 - start = 0 := by omega
      simp [hgt, this]

theorem insertBlocksTrace_order (pairs : List (Int × Int)) (jacobsthal : List Nat)
    (hbound : ∀ i, jacobsthal.getD i 0 ≤ pairs.length)
    (hmono : ∀ i, i + 1 < jacobsthal.length →
      jacobsthal.getD i 0 ≤ jacobsthal.getD (i + 1) 0) (fuel : Nat) :
    ∀ (i : Nat) (state : List Int × List Bool), 1 ≤ i →
      jacobsthal.length ≤ i + fuel →
      (∀ j, jacobsthal.getD (i - 1) 0 ≤ j → state.2.getD j false = false) →
      (insertBlocksTrace pairs jacobsthal fuel i state).map (fun e => e.pairIndex + 1)
        = blockSchedule jacobsthal i := by
  induction fuel with
  | zero =>
    intro i state _ hfuel _
    have : jacobsthal.length - i = 0 := by omega
    simp [insertBlocksTrace, blockSchedule, this]
  | succ n ih =>
    intro i state hi hfuel hflags
    unfold insertBlocksTrace
    by_cases hlt : i < jacobsthal.length
    · simp only [hlt, if_true, List.map_append]
      have hle := hmono (i - 1) (by omega)
      rw [show i - 1 + 1 = i by omega] at hle
      rw [insertBlockTrace_order pairs _ _ state (hbound i)
        (fun j h1 _ => hflags j h1)]
      rw [ih (i + 1) _ (by omega) (by omega) (fun j hj => by
        simp only [Nat.add_sub_cancel] at hj
        rw [insertBlock_flags_ge pairs _ _ state j hj]
        exact hflags j (by omega))]
      unfold blockSchedule
      have hsplit : jacobsthal.length - i = (jacobsthal.length - (i + 1)) + 1 := by omega
      rw [hsplit, List.range'_succ, List.flatMap_cons]
    · have : jacobsthal.length - i = 0 := by omega
      simp [hlt, blockSchedule, this]

theorem insertRemainingTrace_nil (pairs : List (Int × Int)) (inserted : List Bool)
    (hall : ∀ j, j < pairs.length → inserted.getD j false = true) (fuel : Nat) :
    ∀ (pairIndex : Nat) (mainChain : List Int),
      insertRemainingTrace pairs inserted fuel pairIndex mainChain = [] := by
  induction fuel with
  | zero => intro i mainChain; rfl
  | succ n ih =>
    intro i mainChain
    unfold insertRemainingTrace
    by_cases hlt : i < pairs.length
    · rw [if_pos hlt, hall i hlt]
      simp [ih]
    · simp [hlt]

theorem fallbackTrace_nil (mainChain : List Int) (pairs : List (Int × Int))
    (hk : 3 ≤ pairs.length) : fallbackTrace mainChain pairs = [] := by
  unfold fallbackTrace
  split
  · rfl
  · dsimp only
    apply insertRemainingTrace_nil
    intro j hj
    rw [insertJacobsthalBlocks_flags mainChain pairs hk]
    simp [List.getD_eq_getElem?_getD, hj]

theorem jacobsthalBlocksTrace_order (mainChain : List Int) (pairs : List (Int × Int)) :
    (jacobsthalBlocksTrace mainChain pairs).map (fun e => e.pairIndex + 1)
      = blockSchedule (generateJacobsthalSequence pairs.length) 1 := by
  unfold jacobsthalBlocksTrace
  dsimp only
  refine insertBlocksTrace_order pairs _ ?_ ?_ _ 1 _ (le_refl _) (by omega) ?_
  · intro i
    rcases Nat.lt_or_ge i (generateJacobsthalSequence pairs.length).length with hlt | hge
    · rw [List.getD_eq_getElem _ _ hlt]
      exact generateJacobsthalSequence_le _ _ (List.getElem_mem _)
    · rw [List.getD_eq_default _ _ hge]; exact Nat.zero_le _
  · intro i hi
    exact generateJacobsthalSequence_monotone _ i (i + 1) (Nat.le_succ i) hi
  · intro j _
    by_cases hj : j < pairs.length <;>
      simp [List.getD_eq_getElem?_getD, List.getElem?_replicate, hj]

theorem insertBlockTrace_smaller (pairs : List (Int × Int)) (start : Nat) (pairIndex : Nat) :
    ∀ state : List Int × List Bool, ∀ e ∈ insertBlockTrace pairs start pairIndex state,
      e.pairIndex < pairs.length ∧ e.smaller = (pairs.getD e.pairIndex (0, 0)).1 := by
  induction pairIndex with
  | zero => intro state e he; simp [insertBlockTrace] at he
  | succ n ih =>
    intro state e he
    unfold insertBlockTrace at he
    split at he
    · dsimp only at he
      split at he
      · rename_i hcond
        simp only [Nat.add_sub_cancel, Bool.and_eq_true, decide_eq_true_eq] at hcond
        rcases List.mem_cons.mp he with rfl | hmem
        · exact ⟨hcond.1, rfl⟩
        · exact ih _ e hmem
      · exact ih _ e he
    · simp at he

theorem insertBlocksTrace_smaller (pairs : List (Int × Int)) (jacobsthal : List Nat)
    (fuel : Nat) :
    ∀ (i : Nat) (state : List Int × List Bool),
      ∀ e ∈ insertBlocksTrace pairs jacobsthal fuel i state,
        e.pairIndex < pairs.length ∧ e.smaller = (pairs.getD e.pairIndex (0, 0)).1 := by
  induction fuel with
  | zero => intro i state e he; simp [insertBlocksTrace] at he
  | succ n ih =>
    intro i state e he
    unfold insertBlocksTrace at he
    split at he
    · dsimp only at he
      rcases List.mem_append.mp he with h | h
      · exact insertBlockTrace_smaller pairs _ _ state e h
      · exact ih _ _ e h
    · simp at he

theorem insertRemainingTrace_smaller (pairs : List (Int × Int)) (inserted : List Bool)
    (fuel : Nat) :
    ∀ (pairIndex : Nat) (mainChain : List Int),
      ∀ e ∈ insertRemainingTrace pairs inserted fuel pairIndex mainChain,
        e.pairIndex < pairs.length ∧ e.smaller = (pairs.getD e.pairIndex (0, 0)).1 := by
  induction fuel with
  | zero => intro i mainChain e he; simp [insertRemainingTrace] at he
  | succ n ih =>
    intro i mainChain e he
    unfold insertRemainingTrace at he
    split at he
    · rename_i hlt
      split at he
      · rcases List.mem_cons.mp he with rfl | hmem
        · exact ⟨hlt, rfl⟩
        · exact ih _ _ e hmem
      · exact ih _ _ e he
    · simp at he

theorem insertSmallerElementsTrace_smaller (mainChain : List Int) (pairs : List (Int × Int)) :
    ∀ e ∈ insertSmallerElementsTrace mainChain pairs,
      e.pairIndex < pairs.length ∧ e.smaller = (pairs.getD e.pairIndex (0, 0)).1 := by
  intro e he
  unfold insertSmallerElementsTrace at he
  split at he
  · simp at he
  · rename_i hne
    rcases List.mem_append.mp he with h | h
    · exact insertBlocksTrace_smaller pairs _ _ _ _ e h
    · simp only [fallbackTrace, hne] at h
      exact insertRemainingTrace_smaller pairs _ _ _ _ e h

theorem insertSmallerElementsTrace_order (mainChain : List Int) (pairs : List (Int × Int))
    (hk : 3 ≤ pairs.length) :
    (insertSmallerElementsTrace mainChain pairs).map (fun e => e.pairIndex + 1)
      = blockSchedule (generateJacobsthalSequence pairs.length) 1 := by
  have hne : pairs.isEmpty = false := by
    cases pairs with
    | nil => simp at hk
    | cons a rest => rfl
  simp only [insertSmallerElementsTrace, hne, Bool.false_eq_true, if_false,
    fallbackTrace_nil mainChain pairs hk, List.append_nil]
  exact jacobsthalBlocksTrace_order mainChain pairs

/-- C14: for every pair count `k ≥ 3`, `insertSmallerElements` inserts the pair
minima in exactly the order of the block schedule of
`J = generateJacobsthalSequence k`: blocks `(J[i-1], J[i]]` in ascending block
order, inside each block the 1-based indices descending from `J[i]` down to
`J[i-1] + 1` (for `k = 5`: pairs 1, 3, 2, 5, 4); the value inserted for index `p`
is `pairs[p-1].first`, and a leftover is inserted after all of them. -/
theorem insertion_schedule (k : Nat) (hk : 3 ≤ k) (mainChain : List Int)
    (pairs : List (Int × Int)) (hlen : pairs.length = k) (leftover : Int) :
    (insertSmallerElementsTrace mainChain pairs).map (fun e => e.pairIndex + 1)
      = blockSchedule (generateJacobsthalSequence k) 1 ∧
    (∀ e ∈ insertSmallerElementsTrace mainChain pairs,
      e.pairIndex < k ∧ e.smaller = (pairs.getD e.pairIndex (0, 0)).1) ∧
    Linked mainChain (insertSmallerElementsTrace mainChain pairs) ∧
    buildMainChain mainChain pairs leftover true
      = insertLeftoverElement
          (replay mainChain (insertSmallerElementsTrace mainChain pairs)) leftover ∧
    blockSchedule (generateJacobsthalSequence 5) 1 = [1, 3, 2, 5, 4] := by
  subst hlen
  refine ⟨insertSmallerElementsTrace_order mainChain pairs hk,
    insertSmallerElementsTrace_smaller mainChain pairs,
    (insertSmallerElements_linked mainChain pairs).1, ?_, by decide⟩
  rw [← (insertSmallerElements_linked mainChain pairs).2]
  rfl

theorem insertion_schedule_witness :
    3 ≤ 5 ∧
    ([(1, 2), (3, 4), (5, 6), (7, 8), (9, 10)] : List (Int × Int)).length = 5 ∧
    (insertSmallerElementsTrace [2, 4, 6, 8, 10]
        [(1, 2), (3, 4), (5, 6), (7, 8), (9, 10)]).map (fun e => e.pairIndex + 1)
      = [1, 3, 2, 5, 4] ∧
    (insertSmallerElementsTrace [2, 4, 6, 8, 10]
        [(1, 2), (3, 4), (5, 6), (7, 8), (9, 10)]).map (fun e => e.pairIndex + 1)
      = blockSchedule (generateJacobsthalSequence 5) 1 :=
  ⟨by decide, by decide, by decide,
    (insertion_schedule 5 (by decide) [2, 4, 6, 8, 10]
      [(1, 2), (3, 4), (5, 6), (7, 8), (9, 10)] (by decide) 0).1⟩

/-- C19: the fallback pass of `insertSmallerElements` inserts a pair minimum only
when the pair count is 1 or 2.  For one pair the block loop inserts nothing and
the fallback pass inserts pair 0; for two pairs the block loop inserts only pair 0
and the fallback pass inserts pair 1; for three or more pairs every pair is marked
inserted when the block loop ends and the fallback pass inserts nothing. -/
theorem fallback_pass (mainChain : List Int) (pairs : List (Int × Int)) :
    (pairs.length = 1 →
      jacobsthalBlocksTrace mainChain pairs = [] ∧
      (fallbackTrace mainChain pairs).map (fun e => e.pairIndex) = [0]) ∧
    (pairs.length = 2 →
      (jacobsthalBlocksTrace mainChain pairs).map (fun e => e.pairIndex) = [0] ∧
      (fallbackTrace mainChain pairs).map (fun e => e.pairIndex) = [1]) ∧
    (3 ≤ pairs.length →
      (insertJacobsthalBlocks mainChain pairs).2 = List.replicate pairs.length true ∧
      fallbackTrace mainChain pairs = []) ∧
    (fallbackTrace mainChain pairs ≠ [] → pairs.length = 1 ∨ pairs.length = 2) := by
  have h1 : pairs.length = 1 →
      jacobsthalBlocksTrace mainChain pairs = [] ∧
      (fallbackTrace mainChain pairs).map (fun e => e.pairIndex) = [0] := by
    intro h
    obtain ⟨p, rfl⟩ := List.length_eq_one.mp h
    exact ⟨rfl, rfl⟩
  have h2 : pairs.length = 2 →
      (jacobsthalBlocksTrace mainChain pairs).map (fun e => e.pairIndex) = [0] ∧
      (fallbackTrace mainChain pairs).map (fun e => e.pairIndex) = [1] := by
    intro h
    obtain ⟨p, q, rfl⟩ := List.length_eq_two.mp h
    exact ⟨rfl, rfl⟩
  refine ⟨h1, h2, fun h => ⟨insertJacobsthalBlocks_flags mainChain pairs h,
    fallbackTrace_nil mainChain pairs h⟩, ?_⟩
  intro hne
  rcases Nat.lt_or_ge pairs.length 3 with hlt | hge
  · rcases Nat.eq_zero_or_pos pairs.length with h0 | hpos
    · have : pairs = [] := List.length_eq_zero.mp h0
      subst this
      exact absurd rfl hne
    · omega
  · exact absurd (fallbackTrace_nil mainChain pairs hge) hne

theorem fallback_pass_witness :
    ([(3, 7), (5, 9)] : List (Int × Int)).length = 2 ∧
    (jacobsthalBlocksTrace [7, 9] [(3, 7), (5, 9)]).map (fun e => e.pairIndex) = [0] ∧
    (fallbackTrace [7, 9] [(3, 7), (5, 9)]).map (fun e => e.pairIndex) = [1] ∧
    insertSmallerElements [7, 9] [(3, 7), (5, 9)] = [3, 5, 7, 9] :=
  ⟨by decide, ((fallback_pass [7, 9] [(3, 7), (5, 9)]).2.1 (by decide)).1,
    ((fallback_pass [7, 9] [(3, 7), (5, 9)]).2.1 (by decide)).2, by decide⟩

/-! ## Reference form of the boundary sequence, termination, duplicates -/

/-- C15: for every `pairCount ≥ 3`, `generateJacobsthalSequence pairCount` is the
list `J(0), ..., J(m)` of Jacobsthal numbers up to the largest one that is at most
`pairCount`, with `pairCount` appended exactly when it is not itself a Jacobsthal
number; for `pairCount = 0` it is the empty list. -/
theorem generateJacobsthalSequence_reference (pairCount : Nat) (h : 3 ≤ pairCount) :
    (∃ m, jacobsthalNumber m ≤ pairCount ∧
      (∀ n, jacobsthalNumber n ≤ pairCount → n ≤ m) ∧
      ((∃ n, jacobsthalNumber n = pairCount) →
        generateJacobsthalSequence pairCount = jacobsthalPrefix (m + 1)) ∧
      ((¬ ∃ n, jacobsthalNumber n = pairCount) →
        generateJacobsthalSequence pairCount = jacobsthalPrefix (m + 1) ++ [pairCount])) ∧
    generateJacobsthalSequence 0 = [] := by
  refine ⟨?_, rfl⟩
  obtain ⟨t, ht1, ht2, ht3, heq⟩ := generateJacobsthalSequence_eq pairCount h
  have hlargest : ∀ m n, pairCount < jacobsthalNumber (m + 1) →
      jacobsthalNumber n ≤ pairCount → n ≤ m := by
    intro m n hm hn
    rcases Nat.lt_or_ge m n with hlt | hge
    · have := jacobsthalNumber_mono (show m + 1 ≤ n by omega)
      omega
    · exact hge
  rcases Nat.eq_or_lt_of_le ht3 with hjt | hjt
  · refine ⟨t, by omega, ?_, ?_, ?_⟩
    · have := jacobsthalNumber_lt_succ t (by omega)
      exact fun n hn => hlargest t n (by omega) hn
    · intro _
      rw [heq, jacobsthalPrefix_succ, hjt]
    · intro hno
      exact absurd ⟨t, hjt.symm⟩ hno
  · obtain ⟨k, rfl⟩ : ∃ k, t = k + 1 := ⟨t - 1, by omega⟩
    simp only [Nat.add_sub_cancel] at ht2
    refine ⟨k, by omega, fun n hn => hlargest k n hjt hn, ?_, ?_⟩
    · rintro ⟨n, hn⟩
      have h1 : k < n := by
        rcases Nat.lt_or_ge k n with hlt | hge
        · exact hlt
        · have := jacobsthalNumber_mono hge
          omega
      have := jacobsthalNumber_mono (show k + 1 ≤ n by omega)
      omega
    · intro _
      exact heq

theorem generateJacobsthalSequence_reference_witness :
    3 ≤ 7 ∧ generateJacobsthalSequence 7 = [0, 1, 1, 3, 5, 7] ∧
    generateJacobsthalSequence 11 = [0, 1, 1, 3, 5, 11] ∧
    ∃ m, jacobsthalNumber m ≤ 7 ∧
      (∀ n, jacobsthalNumber n ≤ 7 → n ≤ m) ∧
      ((∃ n, jacobsthalNumber n = 7) →
        generateJacobsthalSequence 7 = jacobsthalPrefix (m + 1)) ∧
      ((¬ ∃ n, jacobsthalNumber n = 7) →
        generateJacobsthalSequence 7 = jacobsthalPrefix (m + 1) ++ [7]) :=
  ⟨by decide, by decide, by decide, (generateJacobsthalSequence_reference 7 (by decide)).1⟩

theorem jacobsthalGrow_exit (pairCount : Nat) :
    pairCount ≤ (jacobsthalGrow pairCount pairCount [0, 1] 2).getLastD 0 := by
  obtain ⟨m, hm1, hm2, hgrow, hm3, _⟩ := jacobsthalGrow_eq pairCount pairCount 2 (le_refl _)
  have hbase : ([0, 1] : List Nat) = jacobsthalPrefix 2 := by decide
  rw [hbase, hgrow]
  obtain ⟨k, rfl⟩ : ∃ k, m = k + 1 := ⟨m - 1, by omega⟩
  rw [jacobsthalPrefix_getLastD]
  rcases Nat.lt_or_ge (k + 1) (2 + pairCount) with hlt | hge
  · simpa using hm3 hlt
  · have : k = pairCount + 1 := by omega
    rw [this]
    exact jacobsthalNumber_ge pairCount

theorem jacobsthalGrow_more_fuel (pairCount : Nat) (fuel : Nat) :
    ∀ (extra : Nat) (jacobsthal : List Nat) (currentIndex : Nat),
      pairCount ≤ (jacobsthalGrow pairCount fuel jacobsthal currentIndex).getLastD 0 →
      jacobsthalGrow pairCount (fuel + extra) jacobsthal currentIndex
        = jacobsthalGrow pairCount fuel jacobsthal currentIndex := by
  induction fuel with
  | zero =>
    intro extra jacobsthal currentIndex h
    simp only [jacobsthalGrow] at h
    cases extra with
    | zero => rfl
    | succ e =>
      simp only [Nat.zero_add, jacobsthalGrow, not_lt.mpr h, if_false]
  | succ n ih =>
    intro extra jacobsthal currentIndex h
    rw [show n + 1 + extra = (n + extra) + 1 by omega]
    unfold jacobsthalGrow at h ⊢
    split
    · rename_i hlt
      simp only [hlt, if_true] at h
      exact ih extra _ _ h
    · rfl

theorem jacobsthalGrowWrapped_eq (pairCount : Nat) (hsmall : 3 * pairCount < 2 ^ 64)
    (fuel : Nat) :
    ∀ m : Nat, 2 ≤ m →
      jacobsthalGrowWrapped pairCount fuel (jacobsthalPrefix m) m
        = jacobsthalGrow pairCount fuel (jacobsthalPrefix m) m := by
  induction fuel with
  | zero => intro m _; rfl
  | succ n ih =>
    intro m hm
    obtain ⟨k, rfl⟩ : ∃ k, m = k + 2 := ⟨m - 2, by omega⟩
    unfold jacobsthalGrowWrapped jacobsthalGrow
    rw [jacobsthalPrefix_getLastD (k + 1)]
    split
    · rename_i hlt
      rw [jacobsthalPrefix_getD (k + 2) (k + 2 - 1) (by omega),
        jacobsthalPrefix_getD (k + 2) (k + 2 - 2) (by omega)]
      have hnext : jacobsthalNumber (k + 2 - 1) + 2 * jacobsthalNumber (k + 2 - 2)
          = jacobsthalNumber (k + 2) := by
        simp only [Nat.add_sub_cancel, show k + 2 - 1 = k + 1 by omega, jacobsthalNumber]
      have h1 : jacobsthalNumber (k + 2) ≤ 3 * jacobsthalNumber (k + 1) + 1 :=
        jacobsthalNumber_le_triple (k + 1)
      have h2 : 2 * jacobsthalNumber (k + 2 - 2) ≤ jacobsthalNumber (k + 2) := by omega
      dsimp only
      rw [Nat.mod_eq_of_lt (show 2 * jacobsthalNumber (k + 2 - 2) < 2 ^ 64 by omega),
        hnext, Nat.mod_eq_of_lt (show jacobsthalNumber (k + 2) < 2 ^ 64 by omega),
        ← jacobsthalPrefix_succ]
      exact ih (k + 2 + 1) (by omega)
    · rfl

/-- C17: for every input of length `n ≥ 3` the recursive call of `mergeInsertSort`
receives exactly the `floor(n/2)` pair maxima in pair order, strictly fewer than
`n` elements, so the depth bound of the recursion is never reached (every bound
of at least `n` gives the same result); and the generating loop of
`generateJacobsthalSequence` leaves by its own test `back() >= pairCount` within
`pairCount` iterations, for every `pairCount`, whatever further fuel it is given,
computing no value above `3 * pairCount`, so that in 64-bit `size_t` arithmetic
it runs the same for every `pairCount` below `2 ^ 64 / 3`. -/
theorem mergeInsertSort_terminates :
    (∀ container : List Int, 3 ≤ container.length →
      extractLargerElements (createSortedPairs container).1
        = (List.range (container.length / 2)).map
            (fun i => max (container.getD (2 * i) 0) (container.getD (2 * i + 1) 0)) ∧
      (extractLargerElements (createSortedPairs container).1).length
        = container.length / 2 ∧
      container.length / 2 < container.length) ∧
    (∀ (fuel : Nat) (container : List Int), container.length ≤ fuel →
      mergeInsertSortFuel fuel container = mergeInsertSort container) ∧
    (∀ pairCount : Nat,
      pairCount ≤ (jacobsthalGrow pairCount pairCount [0, 1] 2).getLastD 0 ∧
      (∀ extra, jacobsthalGrow pairCount (pairCount + extra) [0, 1] 2
        = jacobsthalGrow pairCount pairCount [0, 1] 2) ∧
      (3 ≤ pairCount →
        ∀ x ∈ jacobsthalGrow pairCount pairCount [0, 1] 2, x ≤ 3 * pairCount) ∧
      (3 * pairCount < 2 ^ 64 →
        jacobsthalGrowWrapped pairCount pairCount [0, 1] 2
          = jacobsthalGrow pairCount pairCount [0, 1] 2)) := by
  refine ⟨?_, mergeInsertSortFuel_stable, ?_⟩
  · intro container hlen
    refine ⟨?_, extractLargerElements_length container, by omega⟩
    rw [createSortedPairs_eq]
    apply List.ext_getElem
    · simp [extractLargerElements, pairUp_length]
    · intro i h1 h2
      have hi : i < container.length / 2 := by simpa using h2
      have hp := pairUp_getD container i (by omega)
      have hi2 : i < (pairUp container).length := by rw [pairUp_length]; exact hi
      rw [List.getD_eq_getElem _ _ hi2] at hp
      simp [extractLargerElements, hp]
  · intro pairCount
    exact ⟨jacobsthalGrow_exit pairCount,
      fun extra => jacobsthalGrow_more_fuel pairCount pairCount extra _ _
        (jacobsthalGrow_exit pairCount),
      jacobsthalGrow_small pairCount,
      fun hsmall => jacobsthalGrowWrapped_eq pairCount hsmall pairCount 2 (le_refl _)⟩

/-- C20: distinctness is not needed.  For every finite sequence of ints, repeated
values included, the output of `fordJohnsonSort` is non-descending and is a
permutation of the input. -/
theorem fordJohnsonSort_with_duplicates (input : List Int) :
    (fordJohnsonSort input).Sorted (· ≤ ·) ∧
    (∀ i, i + 1 < (fordJohnsonSort input).length →
      (fordJohnsonSort input).getD i 0 ≤ (fordJohnsonSort input).getD (i + 1) 0) ∧
    (fordJohnsonSort input).Perm input ∧
    fordJohnsonSort [3, 1, 3, 2, 1, 3, 2, 2] = [1, 1, 2, 2, 2, 3, 3, 3] :=
  ⟨fordJohnsonSort_sorted input,
    fun i hi => sorted_getD_le _ (fordJohnsonSort_sorted input) i (i + 1) (Nat.le_succ i) hi,
    fordJohnsonSort_perm input, by decide⟩

/-! ## Counting comparisons -/

theorem searchDepthFuel_eq (f1 : Nat) :
    ∀ (f2 size : Nat), size ≤ f1 → size ≤ f2 →
      searchDepthFuel f1 size = searchDepthFuel f2 size := by
  induction f1 with
  | zero =>
    intro f2 size h1 _
    have : size = 0 := by omega
    subst this
    cases f2 <;> simp [searchDepthFuel]
  | succ n ih =>
    intro f2 size h1 h2
    cases f2 with
    | zero =>
      have : size = 0 := by omega
      subst this
      simp [searchDepthFuel]
    | succ m =>
      unfold searchDepthFuel
      split
      · rfl
      · rw [ih m (size / 2) (by omega) (by omega)]

theorem searchDepth_zero : searchDepth 0 = 0 := rfl

theorem searchDepth_pos (size : Nat) (h : 0 < size) :
    searchDepth size = 1 + searchDepth (size / 2) := by
  obtain ⟨k, rfl⟩ : ∃ k, size = k + 1 := ⟨size - 1, by omega⟩
  show searchDepthFuel (k + 1) (k + 1) = 1 + searchDepthFuel ((k + 1) / 2) ((k + 1) / 2)
  unfold searchDepthFuel
  simp only [Nat.add_one_ne_zero, if_false]
  rw [searchDepthFuel_eq k ((k + 1) / 2) ((k + 1) / 2) (by omega) (le_refl _)]
  cases h2 : (k + 1) / 2 with
  | zero => rfl
  | succ m => rfl

theorem searchDepth_mono : ∀ (b a : Nat), a ≤ b → searchDepth a ≤ searchDepth b := by
  intro b
  induction b using Nat.strong_induction_on with
  | _ b ih =>
    intro a hab
    rcases Nat.eq_zero_or_pos a with h0 | hpos
    · subst h0; rw [searchDepth_zero]; exact Nat.zero_le _
    · rw [searchDepth_pos a hpos, searchDepth_pos b (by omega)]
      have := ih (b / 2) (by omega) (a / 2) (Nat.div_le_div_right hab)
      omega

theorem searchDepth_eq_log : ∀ size : Nat, 0 < size → searchDepth size = Nat.log 2 size + 1 := by
  intro size
  induction size using Nat.strong_induction_on with
  | _ size ih =>
    intro hpos
    rw [searchDepth_pos size hpos]
    rcases Nat.lt_or_ge size 2 with hlt | hge
    · have h1 : size / 2 = 0 := by omega
      rw [h1, searchDepth_zero, Nat.log_of_lt hlt]
    · rw [ih (size / 2) (by omega) (by omega),
        Nat.log_of_one_lt_of_le (by decide) hge]
      omega

theorem binarySearchLoopComparisons_le (container : List Int) (value : Int) (fuel : Nat) :
    ∀ low high : Nat,
      binarySearchLoopComparisons container value fuel low high ≤ searchDepth (high - low) := by
  induction fuel with
  | zero => intro low high; exact Nat.zero_le _
  | succ n ih =>
    intro low high
    unfold binarySearchLoopComparisons
    split
    · rename_i hlt
      rw [searchDepth_pos (high - low) (by omega)]
      dsimp only
      split
      · have h1 := ih (low + (high - low) / 2 + 1) high
        have h2 := searchDepth_mono ((high - low) / 2)
          (high - (low + (high - low) / 2 + 1)) (by omega)
        omega
      · have h1 := ih low (low + (high - low) / 2)
        have h2 := searchDepth_mono ((high - low) / 2)
          (low + (high - low) / 2 - low) (by omega)
        omega
    · exact Nat.zero_le _

theorem insertComparisons_le (mainChain : List Int) (value : Int) :
    insertComparisons mainChain value ≤ searchDepth mainChain.length := by
  have := binarySearchLoopComparisons_le mainChain value (mainChain.length - 0) 0
    mainChain.length
  simpa [insertComparisons] using this

theorem insertionCost_mono {a b : Nat} (h : a ≤ b) : insertionCost a ≤ insertionCost b := by
  induction b with
  | zero =>
    have : a = 0 := by omega
    subst this; exact le_refl _
  | succ k ih =>
    rcases Nat.eq_or_lt_of_le h with rfl | hlt
    · exact le_refl _
    · have := ih (by omega)
      simp only [insertionCost]
      omega

theorem linked_cost (trace : List Insertion) :
    ∀ mainChain : List Int, Linked mainChain trace →
      traceComparisons trace + insertionCost mainChain.length
        ≤ insertionCost (mainChain.length + trace.length) := by
  induction trace with
  | nil => intro mainChain _; simp [traceComparisons]
  | cons e rest ih =>
    intro mainChain hl
    obtain ⟨he, hrest⟩ := hl
    have h1 := ih _ hrest
    rw [insertSmaller_length] at h1
    have h2 := insertComparisons_le e.mainChain e.smaller
    rw [he] at h2
    have h3 : traceComparisons (e :: rest)
        = insertComparisons e.mainChain e.smaller + traceComparisons rest := by
      simp [traceComparisons]
    rw [he] at h3
    have h4 : insertionCost (mainChain.length + 1)
        = insertionCost mainChain.length + searchDepth mainChain.length := rfl
    rw [h3, List.length_cons, show mainChain.length + (rest.length + 1)
      = mainChain.length + 1 + rest.length by omega]
    omega

theorem createSortedPairsLoopComparisons_eq (n : Nat) (fuel : Nat) :
    ∀ k : Nat, 2 * k ≤ 2 * n → 2 * n ≤ 2 * k + 2 * fuel →
      createSortedPairsLoopComparisons (2 * n) fuel (2 * k) = n - k := by
  induction fuel with
  | zero =>
    intro k h1 h2
    simp only [createSortedPairsLoopComparisons]
    omega
  | succ f ih =>
    intro k h1 h2
    unfold createSortedPairsLoopComparisons
    split
    · rw [show 2 * k + 2 = 2 * (k + 1) by ring, ih (k + 1) (by omega) (by omega)]
      omega
    · omega

theorem createSortedPairsComparisons_eq (container : List Int) :
    createSortedPairsComparisons container = container.length / 2 := by
  have hend : container.length - (if (container.length % 2 == 1) = true then 1 else 0)
      = 2 * (container.length / 2) := by
    by_cases hodd : container.length % 2 = 1
    · simp [hodd]; omega
    · simp [hodd]; omega
  unfold createSortedPairsComparisons
  simp only [hend]
  have := createSortedPairsLoopComparisons_eq (container.length / 2) container.length 0
    (by omega) (by omega)
  simpa using this

theorem buildMainChainComparisons_le (largerElements : List Int) (pairs : List (Int × Int))
    (leftover : Int) (hasLeftover : Bool) (hlen : largerElements.length = pairs.length) :
    buildMainChainComparisons largerElements pairs leftover hasLeftover
        + insertionCost pairs.length
      ≤ insertionCost (2 * pairs.length + (if hasLeftover then 1 else 0)) := by
  obtain ⟨hlinked, hres⟩ := insertSmallerElements_linked largerElements pairs
  have h1 := linked_cost _ largerElements hlinked
  rw [insertSmallerElementsTrace_length, hlen] at h1
  have hlen2 : (insertSmallerElements largerElements pairs).length = 2 * pairs.length := by
    rw [hres, replay_length, insertSmallerElementsTrace_length, hlen]
    omega
  unfold buildMainChainComparisons
  cases hasLeftover with
  | true =>
    have h2 := insertComparisons_le (insertSmallerElements largerElements pairs) leftover
    rw [hlen2] at h2
    have h3 : insertionCost (2 * pairs.length + 1)
        = insertionCost (2 * pairs.length) + searchDepth (2 * pairs.length) := rfl
    simp only [if_true]
    rw [h3, show 2 * pairs.length = pairs.length + pairs.length by omega] at *
    omega
  | false =>
    simp only [Bool.false_eq_true, if_false, Nat.add_zero]
    rw [show 2 * pairs.length = pairs.length + pairs.length by omega]
    omega

theorem comparisonBoundFuel_eq (f1 : Nat) :
    ∀ (f2 n : Nat), n ≤ f1 → n ≤ f2 →
      comparisonBoundFuel f1 n = comparisonBoundFuel f2 n := by
  induction f1 with
  | zero =>
    intro f2 n h1 _
    have : n = 0 := by omega
    subst this
    cases f2 <;> simp [comparisonBoundFuel]
  | succ k ih =>
    intro f2 n h1 h2
    cases f2 with
    | zero =>
      have : n = 0 := by omega
      subst this
      simp [comparisonBoundFuel]
    | succ m =>
      unfold comparisonBoundFuel
      split
      · rfl
      · split
        · rfl
        · rw [ih m (n / 2) (by omega) (by omega)]

theorem comparisonBound_step (n : Nat) (h : 3 ≤ n) :
    comparisonBound n
      = n / 2 + comparisonBound (n / 2) + (insertionCost n - insertionCost (n / 2)) := by
  obtain ⟨k, rfl⟩ : ∃ k, n = k + 1 := ⟨n - 1, by omega⟩
  show comparisonBoundFuel (k + 1) (k + 1) = _
  unfold comparisonBoundFuel
  simp only [show ¬ k + 1 ≤ 1 by omega, show ¬ k + 1 = 2 by omega, if_false]
  rw [comparisonBoundFuel_eq k ((k + 1) / 2) ((k + 1) / 2) (by omega) (le_refl _)]
  rfl

theorem mergeInsertSortComparisonsFuel_le (fuel : Nat) :
    ∀ container : List Int, container.length ≤ fuel →
      mergeInsertSortComparisonsFuel fuel container ≤ comparisonBound container.length := by
  induction fuel with
  | zero => intro container _; exact Nat.zero_le _
  | succ n ih =>
    intro container h
    unfold mergeInsertSortComparisonsFuel
    split
    · exact Nat.zero_le _
    · split
      · rename_i h2
        rw [h2]
        decide
      · rename_i h1 h2
        dsimp only
        have hk := extractLargerElements_length container
        have hfuel : (extractLargerElements (createSortedPairs container).1).length ≤ n := by
          rw [hk]; omega
        have hrec := ih _ hfuel
        rw [hk] at hrec
        have hpairs : (createSortedPairs container).1.length = container.length / 2 := by
          rw [createSortedPairs_eq]; exact pairUp_length container
        have hseed : (mergeInsertSortFuel n
            (extractLargerElements (createSortedPairs container).1)).length
            = (createSortedPairs container).1.length := by
          rw [(mergeInsertSortFuel_perm n _ hfuel).length_eq, hk, hpairs]
        have hbuild := buildMainChainComparisons_le _ (createSortedPairs container).1
          (createSortedPairs container).2.1 (createSortedPairs container).2.2 hseed
        have hsize : 2 * (createSortedPairs container).1.length
            + (if (createSortedPairs container).2.2 = true then 1 else 0)
            = container.length := by
          rw [hpairs, createSortedPairs_eq]
          by_cases hodd : container.length % 2 = 1
          · simp [hodd]; omega
          · simp [hodd]; omega
        rw [hsize, hpairs] at hbuild
        rw [comparisonBound_step container.length (by omega),
          createSortedPairsComparisons_eq]
        omega

theorem insertionCost_le (b : Nat) :
    ∀ a : Nat, a ≤ b → insertionCost b ≤ insertionCost a + (b - a) * searchDepth b := by
  induction b with
  | zero =>
    intro a h
    have : a = 0 := by omega
    subst this; simp
  | succ k ih =>
    intro a h
    rcases Nat.eq_or_lt_of_le h with rfl | hlt
    · simp
    · have h1 := ih a (by omega)
      have h2 := searchDepth_mono (k + 1) k (Nat.le_succ k)
      have h3 : (k - a) * searchDepth k ≤ (k - a) * searchDepth (k + 1) :=
        Nat.mul_le_mul_left _ h2
      have h4 : (k + 1 - a) * searchDepth (k + 1)
          = (k - a) * searchDepth (k + 1) + searchDepth (k + 1) := by
        rw [show k + 1 - a = (k - a) + 1 by omega, Nat.add_mul, Nat.one_mul]
      simp only [insertionCost]
      omega

theorem comparisonBound_le : ∀ n : Nat, comparisonBound n ≤ n * searchDepth n := by
  intro n
  induction n using Nat.strong_induction_on with
  | _ n ih =>
    rcases Nat.lt_or_ge n 3 with hlt | hge
    · interval_cases n <;> decide
    · rw [comparisonBound_step n hge]
      have h1 := ih (n / 2) (by omega)
      have h2 := insertionCost_le n (n / 2) (by omega)
      have h3 := insertionCost_mono (show n / 2 ≤ n by omega)
      have h4 := searchDepth_pos n (by omega)
      have h5 : n * searchDepth n
          = n / 2 * searchDepth n + (n - n / 2) * searchDepth n := by
        rw [← Nat.add_mul]
        congr 1
        omega
      have h6 : n / 2 * searchDepth n = n / 2 + n / 2 * searchDepth (n / 2) := by
        rw [h4, Nat.mul_add, Nat.mul_one]
      omega

/-- C11, as amended: for every input of `n` pairwise distinct elements, the total
number of element comparisons made by `fordJohnsonSort` does not exceed the bound
`B(n)` of whole-chain binary insertion, `B(0) = B(1) = 0`, `B(2) = 1`,
`B(n) = floor(n/2) + B(floor(n/2)) + sum for m = floor(n/2)..n-1 of
(floor(log2 m) + 1)`, which is at most `n * (floor(log2 n) + 1)`;
`B(3) = 4` and `B(5) = 10`. -/
theorem comparison_bound (input : List Int) (hdistinct : input.Nodup) :
    fordJohnsonSortComparisons input ≤ comparisonBound input.length ∧
    comparisonBound input.length ≤ input.length * searchDepth input.length ∧
    (∀ m, 0 < m → searchDepth m = Nat.log 2 m + 1) ∧
    (∀ n, 3 ≤ n → comparisonBound n
      = n / 2 + comparisonBound (n / 2) + (insertionCost n - insertionCost (n / 2))) ∧
    comparisonBound 0 = 0 ∧ comparisonBound 1 = 0 ∧ comparisonBound 2 = 1 ∧
    comparisonBound 3 = 4 ∧ comparisonBound 5 = 10 := by
  refine ⟨?_, comparisonBound_le input.length, searchDepth_eq_log, comparisonBound_step,
    by decide, by decide, by decide, by decide, by decide⟩
  unfold fordJohnsonSortComparisons
  split
  · exact Nat.zero_le _
  · exact mergeInsertSortComparisonsFuel_le _ _ (le_refl _)

theorem comparison_bound_witness :
    ([2, 1, 4, 3, 0] : List Int).Nodup ∧
    fordJohnsonSortComparisons [2, 1, 4, 3, 0] = 10 ∧
    fordJohnsonSortComparisons [2, 1, 4, 3, 0]
      ≤ comparisonBound ([2, 1, 4, 3, 0] : List Int).length :=
  ⟨by decide, by decide, (comparison_bound [2, 1, 4, 3, 0] (by decide)).1⟩

/-- C11 as stated fails at `[2, 3, 1]`: the sort makes 4 comparisons (one to build
the pair, one to insert 2 into `[3]`, two to insert the leftover 1 into `[2, 3]`),
more than `F(3) = 3`; and `[2, 1, 4, 3, 0]` takes 10, more than `F(5) = 7`. -/
theorem comparison_bound_counterexample :
    ([2, 3, 1] : List Int).Nodup ∧
    fordJohnsonSortComparisons [2, 3, 1] = 4 ∧ fordJohnsonBound 3 = 3 ∧
    ¬ fordJohnsonSortComparisons [2, 3, 1] ≤ fordJohnsonBound 3 ∧
    fordJohnsonSortComparisons [2, 1, 4, 3, 0] = 10 ∧ fordJohnsonBound 5 = 7 := by
  decide

/-! ## Input validation -/

theorem isdigit_iff (c : Char) : isdigit c = true ↔ c ∈ "0123456789".toList := by
  constructor
  · intro h
    simp only [isdigit, Bool.and_eq_true, decide_eq_true_eq] at h
    have h1 : 48 ≤ c.toNat := h.1
    have h2 : c.toNat ≤ 57 := h.2
    have hc : c = Char.ofNat c.toNat := (Char.ofNat_toNat c).symm
    rw [hc]
    generalize c.toNat = n at h1 h2
    interval_cases n <;> decide
  · intro h
    have hall : ∀ d ∈ "0123456789".toList, isdigit d = true := by decide
    exact hall c h

theorem decimalString_iff (arg : List Char) :
    DecimalString arg ↔ (arg.isEmpty || arg.any (fun c => !isdigit c)) = false := by
  unfold DecimalString
  constructor
  · rintro ⟨hne, hall⟩
    simp only [Bool.or_eq_false_iff, List.isEmpty_eq_false, List.any_eq_false,
      Bool.not_eq_true', Bool.not_eq_false]
    exact ⟨hne, fun c hc => (isdigit_iff c).mpr (hall c hc)⟩
  · intro h
    simp only [Bool.or_eq_false_iff, List.isEmpty_eq_false, List.any_eq_false,
      Bool.not_eq_true', Bool.not_eq_false] at h
    exact ⟨h.1, fun c hc => (isdigit_iff c).mp (h.2 c hc)⟩

theorem isValidPositiveInteger_ok (arg : List Char) :
    (∃ b, isValidPositiveInteger arg = .ok b) ↔
      DecimalString arg ∧ ¬ (arg.length > 1 ∧ arg.head? = some '0') := by
  rw [decimalString_iff]
  unfold isValidPositiveInteger
  by_cases hempty : arg.isEmpty = true
  · simp [hempty]
  · by_cases hminus : arg.head? = some '-'
    · have hany : arg.any (fun c => !isdigit c) = true := by
        cases arg with
        | nil => simp at hminus
        | cons c rest =>
          simp only [List.head?_cons, Option.some.injEq] at hminus
          subst hminus
          simp only [List.any_cons, Bool.or_eq_true]
          exact Or.inl (by decide)
      simp [hempty, hminus, hany]
    · by_cases hany : arg.any (fun c => !isdigit c) = true
      · simp [hempty, hminus, hany]
      · by_cases hzero : (decide (arg.length > 1) && decide (arg.head? = some '0')) = true
        · have hz := hzero
          simp only [Bool.and_eq_true, decide_eq_true_eq] at hz
          simp only [hempty, hminus, hany, hzero, Bool.false_eq_true, if_false, if_true]
          constructor
          · rintro ⟨b, hb⟩; cases hb
          · rintro ⟨_, hno⟩; exact absurd hz hno
        · have hz := hzero
          simp only [Bool.and_eq_true, decide_eq_true_eq] at hz
          simp only [hempty, hminus, hany, hzero, Bool.false_eq_true, if_false]
          constructor
          · intro _
            exact ⟨by simp [hempty, hany], hz⟩
          · intro _; exact ⟨true, rfl⟩

theorem validateInputLoop_iff (args : List (List Char)) :
    validateInputLoop args = true ↔
      ∀ arg ∈ args, DecimalString arg ∧ ¬ (arg.length > 1 ∧ arg.head? = some '0') := by
  induction args with
  | nil => simp [validateInputLoop]
  | cons arg rest ih =>
    have hiff := isValidPositiveInteger_ok arg
    unfold validateInputLoop
    cases hres : isValidPositiveInteger arg with
    | error e =>
      have hno : ¬ ∃ b, isValidPositiveInteger arg = .ok b := by
        rintro ⟨b, hb⟩; rw [hres] at hb; cases hb
      simp only [Bool.false_eq_true, false_iff]
      intro hall
      exact hno (hiff.mpr (hall arg (List.mem_cons_self _ _)))
    | ok b =>
      have hyes := hiff.mp ⟨b, hres⟩
      simp only [ih, List.mem_cons, forall_eq_or_imp]
      exact ⟨fun h => ⟨hyes, h⟩, fun h => h.2⟩

theorem parseInput_ok_iff (args : List (List Char)) :
    (∀ arg ∈ args, DecimalString arg) → ∀ input : List Int,
      (parseInput args = .ok input ↔
        input = args.map (fun arg => (decimalValue arg : Int)) ∧
        ∀ arg ∈ args, (decimalValue arg : Int) ≤ INT_MAX) := by
  induction args with
  | nil =>
    intro _ input
    simp only [parseInput, List.map_nil, List.not_mem_nil, false_implies, implies_true,
      and_true, Except.ok.injEq]
    exact eq_comm
  | cons arg rest ih =>
    intro hall input
    have hdec := (decimalString_iff arg).mp (hall arg (List.mem_cons_self _ _))
    have hrest := ih (fun a ha => hall a (List.mem_cons_of_mem _ ha))
    have hnonneg : ¬ ((decimalValue arg : Int) < 0) := by
      have : (0 : Int) ≤ (decimalValue arg : Int) := Int.ofNat_nonneg _
      omega
    unfold parseInput stoll
    simp only [hdec, Bool.false_eq_true, if_false]
    by_cases hll : (decimalValue arg : Int) > LLONG_MAX
    · have hbig : ¬ (decimalValue arg : Int) ≤ INT_MAX := by
        unfold LLONG_MAX at hll; unfold INT_MAX; omega
      simp only [hll, if_true, List.mem_cons, forall_eq_or_imp, hbig, false_and, and_false,
        iff_false]
      intro h; cases h
    · simp only [hll, if_false]
      by_cases hint : (decimalValue arg : Int) > INT_MAX
      · have hbig : ¬ (decimalValue arg : Int) ≤ INT_MAX := by omega
        simp only [hint, if_true, List.mem_cons, forall_eq_or_imp, hbig, false_and,
          and_false, iff_false]
        intro h; cases h
      · simp only [hint, hnonneg, if_false, List.map_cons, List.mem_cons, forall_eq_or_imp]
        have hsmall : (decimalValue arg : Int) ≤ INT_MAX := by omega
        cases hp : parseInput rest with
        | error e =>
          have hno := (hrest (rest.map (fun a => (decimalValue a : Int)))).not.mp
            (by rw [hp]; intro h; cases h)
          simp only [true_and] at hno
          constructor
          · intro h; cases h
          · rintro ⟨_, _, h3⟩; exact absurd h3 hno
        | ok result =>
          obtain ⟨h1, h2⟩ := (hrest result).mp hp
          simp only [Except.ok.injEq]
          constructor
          · intro h
            exact ⟨by rw [← h, h1], hsmall, h2⟩
          · rintro ⟨h, _, _⟩
            rw [h, h1]

theorem adjacentFind_sorted (l : List Int) :
    l.Sorted (· ≤ ·) → (adjacentFind l = false ↔ l.Nodup) := by
  induction l using adjacentFind.induct with
  | case1 a rest =>
    intro _
    simp [adjacentFind]
  | case2 a b rest hne ih =>
    intro hs
    have hs2 : (b :: rest).Sorted (· ≤ ·) := (List.sorted_cons.mp hs).2
    have hall := (List.sorted_cons.mp hs).1
    simp only [adjacentFind, hne, if_false, ih hs2]
    constructor
    · intro hnd
      refine List.nodup_cons.mpr ⟨?_, hnd⟩
      intro hmem
      rcases List.mem_cons.mp hmem with h | h
      · exact hne h
      · have h1 := hall b (List.mem_cons_self _ _)
        have h2 := (List.sorted_cons.mp hs2).1 a h
        exact hne (le_antisymm h1 h2)
    · intro hnd
      exact (List.nodup_cons.mp hnd).2
  | case3 l hl =>
    intro _
    match l, hl with
    | [], _ => simp [adjacentFind]
    | [_], _ => simp [adjacentFind]
    | a :: b :: rest, hl => exact absurd rfl (hl a b rest)

theorem hasDuplicates_iff (v : List Int) : hasDuplicates v = false ↔ v.Nodup := by
  unfold hasDuplicates
  rw [adjacentFind_sorted _ (List.sorted_insertionSort (· ≤ ·) v)]
  exact (List.perm_insertionSort (· ≤ ·) v).nodup_iff

theorem nodup_values_iff (args : List (List Char)) :
    (args.map (fun arg => (decimalValue arg : Int))).Nodup ↔ (args.map decimalValue).Nodup := by
  have h : args.map (fun arg => (decimalValue arg : Int))
      = (args.map decimalValue).map (fun n : Nat => (n : Int)) := by
    rw [List.map_map]; rfl
  rw [h]
  exact List.nodup_map_iff (fun a b hab => Int.ofNat.inj hab)

theorem validateAndParseInput_cases (args : List (List Char)) :
    (Rejected args ∧ ∃ e, validateAndParseInput args = .error e) ∨
    (¬ Rejected args ∧
      validateAndParseInput args = .ok (args.map (fun arg => (decimalValue arg : Int))) ∧
      ∀ arg ∈ args, (decimalValue arg : Int) ≤ INT_MAX) := by
  unfold validateAndParseInput validateInput
  by_cases hempty : args = []
  · subst hempty
    exact Or.inl ⟨Or.inl rfl, _, rfl⟩
  · have hne : args.isEmpty = false := by simpa using hempty
    simp only [hne, Bool.false_eq_true, if_false]
    by_cases hloop : validateInputLoop args = true
    · have hvalid := (validateInputLoop_iff args).mp hloop
      have hdec : ∀ arg ∈ args, DecimalString arg := fun a ha => (hvalid a ha).1
      simp only [hloop]
      have hparse := parseInput_ok_iff args hdec
      cases hp : parseInput args with
      | error e =>
        left
        refine ⟨?_, e, rfl⟩
        have hno := (hparse (args.map (fun arg => (decimalValue arg : Int)))).not.mp
          (by rw [hp]; intro h; cases h)
        simp only [true_and, not_forall, not_le] at hno
        obtain ⟨arg, harg, hbig⟩ := hno
        exact Or.inr (Or.inr (Or.inr (Or.inl ⟨arg, harg, hbig⟩)))
      | ok input =>
        obtain ⟨hinput, hsmall⟩ := (hparse input).mp hp
        subst hinput
        by_cases hdup : hasDuplicates
            (args.map (fun arg => (decimalValue arg : Int))) = true
        · left
          simp only [hdup, if_true]
          refine ⟨?_, _, rfl⟩
          have hnd : ¬ (args.map (fun arg => (decimalValue arg : Int))).Nodup := by
            intro h
            rw [(hasDuplicates_iff _).mpr h] at hdup
            cases hdup
          rw [nodup_values_iff] at hnd
          exact Or.inr (Or.inr (Or.inr (Or.inr hnd)))
        · right
          have hdup2 : hasDuplicates
              (args.map (fun arg => (decimalValue arg : Int))) = false := by simpa using hdup
          have hnd := (hasDuplicates_iff _).mp hdup2
          rw [nodup_values_iff] at hnd
          simp only [hdup2, Bool.false_eq_true, if_false]
          refine ⟨?_, trivial, hsmall⟩
          rintro (h | ⟨arg, harg, h⟩ | ⟨arg, harg, h⟩ | ⟨arg, harg, h⟩ | h)
          · exact hempty h
          · exact h (hdec arg harg)
          · exact (hvalid arg harg).2 h
          · exact absurd (hsmall arg harg) (not_le.mpr h)
          · exact h hnd
    · left
      have hfalse : validateInputLoop args = false := by simpa using hloop
      simp only [hfalse]
      refine ⟨?_, _, rfl⟩
      have hnot := (validateInputLoop_iff args).not.mp hloop
      simp only [not_forall] at hnot
      obtain ⟨arg, harg, hbad⟩ := hnot
      by_cases hd : DecimalString arg
      · have hlead : arg.length > 1 ∧ arg.head? = some '0' := by
          by_contra hcon
          exact hbad ⟨hd, hcon⟩
        exact Or.inr (Or.inr (Or.inl ⟨arg, harg, hlead⟩))
      · exact Or.inr (Or.inl ⟨arg, harg, hd⟩)

/-- C12: `validateAndParseInput` throws if and only if the argument list is
empty, or some argument is not a non-empty string of ASCII decimal digits, or some
argument longer than one character starts with `'0'`, or some argument's value
exceeds `INT_MAX`, or two arguments have the same value; otherwise it returns the
arguments' decimal values in argument order, pairwise distinct and non-negative. -/
theorem validateAndParseInput_spec (args : List (List Char)) :
    ((∃ e, validateAndParseInput args = .error e) ↔ Rejected args) ∧
    (¬ Rejected args →
      validateAndParseInput args = .ok (args.map (fun arg => (decimalValue arg : Int))) ∧
      (args.map (fun arg => (decimalValue arg : Int))).Nodup ∧
      ∀ v ∈ args.map (fun arg => (decimalValue arg : Int)), 0 ≤ v ∧ v ≤ INT_MAX) := by
  rcases validateAndParseInput_cases args with ⟨hrej, herr⟩ | ⟨hacc, hok, hsmall⟩
  · exact ⟨⟨fun _ => hrej, fun _ => herr⟩, fun h => absurd hrej h⟩
  · refine ⟨⟨?_, fun h => absurd h hacc⟩, fun _ => ⟨hok, ?_, ?_⟩⟩
    · rintro ⟨e, he⟩
      rw [hok] at he
      cases he
    · rw [nodup_values_iff]
      by_contra hnd
      exact hacc (Or.inr (Or.inr (Or.inr (Or.inr hnd))))
    · intro v hv
      obtain ⟨arg, harg, rfl⟩ := List.mem_map.mp hv
      exact ⟨Int.ofNat_nonneg _, hsmall arg harg⟩

theorem validateAndParseInput_spec_witness :
    validateAndParseInput ["3".toList, "5".toList, "9".toList, "7".toList, "4".toList]
      = .ok [3, 5, 9, 7, 4] ∧
    validateAndParseInput ["3".toList, "2147483647".toList] = .ok [3, 2147483647] ∧
    validateAndParseInput [] = .error .runtimeError ∧
    validateAndParseInput ["3".toList, "-5".toList] = .error .runtimeError ∧
    validateAndParseInput ["3".toList, "4x".toList] = .error .runtimeError ∧
    validateAndParseInput ["3".toList, "05".toList] = .error .runtimeError ∧
    validateAndParseInput ["3".toList, "2147483648".toList] = .error .parseError ∧
    validateAndParseInput ["3".toList, "7".toList, "3".toList] = .error .runtimeError ∧
    ((∃ e, validateAndParseInput ["3".toList, "05".toList] = .error e)
      ↔ Rejected ["3".toList, "05".toList]) :=
  ⟨rfl, rfl, rfl, rfl, rfl, rfl, rfl, rfl,
    (validateAndParseInput_spec ["3".toList, "05".toList]).1⟩

/-! ## Every indexed access is in range -/

theorem getElem?_eq_some_getD {α : Type} (l : List α) (d : α) (i : Nat) (h : i < l.length) :
    l[i]? = some (l.getD i d) := by
  rw [List.getElem?_eq_getElem h, List.getD_eq_getElem l d h]

theorem binarySearchLoop_le (container : List Int) (value : Int) (fuel : Nat) :
    ∀ low high : Nat, low ≤ high →
      binarySearchLoop container value fuel low high ≤ high := by
  induction fuel with
  | zero => intro low high h; exact h
  | succ n ih =>
    intro low high h
    unfold binarySearchLoop
    split
    · dsimp only
      split
      · exact ih _ _ (by omega)
      · exact le_trans (ih _ _ (by omega)) (by omega)
    · exact h

theorem binarySearchLoopChecked_eq (container : List Int) (value : Int) (fuel : Nat) :
    ∀ low high : Nat, high ≤ container.length →
      binarySearchLoopChecked container value fuel low high
        = some (binarySearchLoop container value fuel low high) := by
  induction fuel with
  | zero => intro low high _; rfl
  | succ n ih =>
    intro low high h
    unfold binarySearchLoopChecked binarySearchLoop
    split
    · rename_i hlt
      dsimp only
      rw [getElem?_eq_some_getD container 0 (low + (high - low) / 2) (by omega)]
      dsimp only
      split
      · exact ih _ _ h
      · exact ih _ _ (by omega)
    · rfl

theorem insertChecked_eq (mainChain : List Int) (value : Int) :
    insertChecked mainChain value = some (insertSmaller mainChain value) := by
  unfold insertChecked binarySearchChecked
  rw [binarySearchLoopChecked_eq mainChain value _ 0 mainChain.length (le_refl _)]
  dsimp only
  rw [if_pos (binarySearchLoop_le mainChain value _ 0 mainChain.length (Nat.zero_le _))]
  rfl

theorem getLast?_eq_some_getLastD (l : List Nat) (h : l ≠ []) :
    l.getLast? = some (l.getLastD 0) := by
  cases l with
  | nil => exact absurd rfl h
  | cons a rest => simp [List.getLast?_eq_getLast, List.getLastD_eq_getLast?]

theorem jacobsthalGrowChecked_eq (pairCount : Nat) (fuel : Nat) :
    ∀ (jacobsthal : List Nat) (currentIndex : Nat), currentIndex = jacobsthal.length →
      2 ≤ currentIndex →
      jacobsthalGrowChecked pairCount fuel jacobsthal currentIndex
        = some (jacobsthalGrow pairCount fuel jacobsthal currentIndex) := by
  induction fuel with
  | zero => intro jacobsthal currentIndex _ _; rfl
  | succ n ih =>
    intro jacobsthal currentIndex hlen h2
    have hne : jacobsthal ≠ [] := by
      intro h; subst h; simp at hlen; omega
    unfold jacobsthalGrowChecked jacobsthalGrow
    rw [getLast?_eq_some_getLastD jacobsthal hne]
    dsimp only
    split
    · rw [getElem?_eq_some_getD jacobsthal 0 (currentIndex - 1) (by omega),
        getElem?_eq_some_getD jacobsthal 0 (currentIndex - 2) (by omega)]
      dsimp only
      exact ih _ _ (by simp [hlen]) (by omega)
    · rfl

theorem generateJacobsthalSequenceChecked_eq (pairCount : Nat) :
    generateJacobsthalSequenceChecked pairCount
      = some (generateJacobsthalSequence pairCount) := by
  unfold generateJacobsthalSequenceChecked generateJacobsthalSequence
  split
  · rfl
  · split
    · rfl
    · split
      · rfl
      · rw [jacobsthalGrowChecked_eq pairCount pairCount [0, 1] 2 rfl (le_refl _)]
        dsimp only
        split <;> rfl

theorem sortTwoElementsChecked_eq (container : List Int) (h : container.length = 2) :
    sortTwoElementsChecked container = some (sortTwoElements container) := by
  obtain ⟨x, y, rfl⟩ := List.length_eq_two.mp h
  unfold sortTwoElementsChecked sortTwoElements
  simp only [List.getElem?_cons_zero, List.getElem?_cons_succ, List.getD_cons_zero,
    List.getD_cons_succ]
  split <;> rfl

theorem createSortedPairsLoopChecked_eq (container : List Int) (fuel : Nat) :
    ∀ (k : Nat) (pairs : List (Int × Int)), 2 * k ≤ 2 * (container.length / 2) →
      createSortedPairsLoopChecked container (2 * (container.length / 2)) fuel (2 * k) pairs
        = some (createSortedPairsLoop container (2 * (container.length / 2)) fuel
            (2 * k) pairs) := by
  induction fuel with
  | zero => intro k pairs _; rfl
  | succ n ih =>
    intro k pairs h
    unfold createSortedPairsLoopChecked createSortedPairsLoop
    split
    · rename_i hlt
      rw [getElem?_eq_some_getD container 0 (2 * k) (by omega),
        getElem?_eq_some_getD container 0 (2 * k + 1) (by omega)]
      dsimp only
      rw [show 2 * k + 2 = 2 * (k + 1) by ring]
      split
      · exact ih (k + 1) _ (by omega)
      · exact ih (k + 1) _ (by omega)
    · rfl

theorem createSortedPairsChecked_eq (container : List Int) :
    createSortedPairsChecked container = some (createSortedPairs container) := by
  have hend : container.length - (if (container.length % 2 == 1) = true then 1 else 0)
      = 2 * (container.length / 2) := by
    by_cases hodd : container.length % 2 = 1
    · simp [hodd]; omega
    · simp [hodd]; omega
  have hloop := createSortedPairsLoopChecked_eq container container.length 0 [] (by omega)
  simp only [Nat.mul_zero] at hloop
  unfold createSortedPairsChecked createSortedPairs
  simp only [hend, hloop]
  by_cases hodd : container.length % 2 = 1
  · have hne : container ≠ [] := by
      intro h; subst h; simp at hodd
    have hlast : container.getLast? = some (container.getLastD 0) := by
      cases container with
      | nil => exact absurd rfl hne
      | cons a rest => simp [List.getLast?_eq_getLast, List.getLastD_eq_getLast?]
    have hb : (container.length % 2 == 1) = true := by simp [hodd]
    simp only [hb, if_true]
    rw [hlast]
  · have hb : (container.length % 2 == 1) = false := by simp [hodd]
    simp only [hb, Bool.false_eq_true, if_false]

theorem insertBlockChecked_eq (pairs : List (Int × Int)) (start : Nat) (pairIndex : Nat) :
    ∀ state : List Int × List Bool, pairIndex ≤ pairs.length →
      state.2.length = pairs.length →
      insertBlockChecked pairs start pairIndex state
        = some (insertBlock pairs start pairIndex state) := by
  induction pairIndex with
  | zero => intro state _ _; rfl
  | succ n ih =>
    intro state hn hlen
    unfold insertBlockChecked insertBlock
    split
    · simp only [Nat.add_sub_cancel]
      have hguard : n < pairs.length := by omega
      rw [if_pos hguard, getElem?_eq_some_getD state.2 false n (by omega),
        getElem?_eq_some_getD pairs (0, 0) n hguard]
      dsimp only
      by_cases hflag : state.2.getD n false = true
      · simp only [hflag, Bool.not_true, Bool.false_eq_true, if_false, Bool.and_false]
        exact ih state (by omega) hlen
      · have hflag2 : state.2.getD n false = false := by simpa using hflag
        simp only [hflag2, Bool.not_false, if_true, Bool.and_true, decide_eq_true_eq,
          hguard, insertChecked_eq]
        exact ih _ (by omega) (by simp [hlen])
    · rfl

theorem insertBlocksChecked_eq (pairs : List (Int × Int)) (jacobsthal : List Nat)
    (hbound : ∀ i, jacobsthal.getD i 0 ≤ pairs.length) (fuel : Nat) :
    ∀ (i : Nat) (state : List Int × List Bool), 1 ≤ i →
      state.2.length = pairs.length →
      insertBlocksChecked pairs jacobsthal fuel i state
        = some (insertBlocks pairs jacobsthal fuel i state) := by
  induction fuel with
  | zero => intro i state _ _; rfl
  | succ n ih =>
    intro i state hi hlen
    unfold insertBlocksChecked insertBlocks
    split
    · rename_i hlt
      rw [getElem?_eq_some_getD jacobsthal 0 (i - 1) (by omega),
        getElem?_eq_some_getD jacobsthal 0 i hlt]
      dsimp only
      rw [insertBlockChecked_eq pairs _ _ state (hbound i) hlen]
      dsimp only
      exact ih (i + 1) _ (by omega)
        (insertBlock_flags pairs _ _ state hlen (hbound i)).1
    · rfl

theorem insertRemainingChecked_eq (pairs : List (Int × Int)) (inserted : List Bool)
    (hlen : inserted.length = pairs.length) (fuel : Nat) :
    ∀ (pairIndex : Nat) (mainChain : List Int),
      insertRemainingChecked pairs inserted fuel pairIndex mainChain
        = some (insertRemaining pairs inserted fuel pairIndex mainChain) := by
  induction fuel with
  | zero => intro i mainChain; rfl
  | succ n ih =>
    intro i mainChain
    unfold insertRemainingChecked insertRemaining
    split
    · rename_i hlt
      rw [getElem?_eq_some_getD inserted false i (by omega),
        getElem?_eq_some_getD pairs (0, 0) i hlt]
      dsimp only
      split
      · rw [insertChecked_eq]
        exact ih _ _
      · exact ih _ _
    · rfl

theorem generateJacobsthalSequence_getD_le (pairCount i : Nat) :
    (generateJacobsthalSequence pairCount).getD i 0 ≤ pairCount := by
  rcases Nat.lt_or_ge i (generateJacobsthalSequence pairCount).length with hlt | hge
  · rw [List.getD_eq_getElem _ _ hlt]
    exact generateJacobsthalSequence_le _ _ (List.getElem_mem _)
  · rw [List.getD_eq_default _ _ hge]; exact Nat.zero_le _

theorem insertSmallerElementsChecked_eq (mainChain : List Int) (pairs : List (Int × Int)) :
    insertSmallerElementsChecked mainChain pairs
      = some (insertSmallerElements mainChain pairs) := by
  unfold insertSmallerElementsChecked insertSmallerElements
  split
  · rfl
  · rw [generateJacobsthalSequenceChecked_eq]
    dsimp only
    rw [insertBlocksChecked_eq pairs _ (generateJacobsthalSequence_getD_le pairs.length) _ 1
      (mainChain, List.replicate pairs.length false) (le_refl _) (by simp)]
    dsimp only
    have hlen : (insertJacobsthalBlocks mainChain pairs).2.length = pairs.length :=
      (insertBlocks_perm pairs mainChain (generateJacobsthalSequence pairs.length)
        (generateJacobsthalSequence pairs.length).length 1
        (mainChain, List.replicate pairs.length false) (by simp)
        (by simp [flaggedFirsts_replicate])).1
    exact insertRemainingChecked_eq pairs _ hlen _ _ _

theorem buildMainChainChecked_eq (largerElements : List Int) (pairs : List (Int × Int))
    (leftover : Int) (hasLeftover : Bool) :
    buildMainChainChecked largerElements pairs leftover hasLeftover
      = some (buildMainChain largerElements pairs leftover hasLeftover) := by
  unfold buildMainChainChecked buildMainChain
  rw [insertSmallerElementsChecked_eq]
  dsimp only
  split
  · exact insertChecked_eq _ _
  · rfl

theorem mergeInsertSortCheckedFuel_eq (fuel : Nat) :
    ∀ container : List Int,
      mergeInsertSortCheckedFuel fuel container
        = some (mergeInsertSortFuel fuel container) := by
  induction fuel with
  | zero => intro container; rfl
  | succ n ih =>
    intro container
    unfold mergeInsertSortCheckedFuel mergeInsertSortFuel
    split
    · rfl
    · split
      · rename_i h2
        exact sortTwoElementsChecked_eq container h2
      · rw [createSortedPairsChecked_eq]
        dsimp only
        rw [ih]
        dsimp only
        exact buildMainChainChecked_eq _ _ _ _

/-- The checked functions do report a fault when there is one: a search bound
past the end of the container, a block boundary past the number of pairs. -/
theorem checked_reports_faults :
    binarySearchChecked [1, 2] 5 0 3 = none ∧
    insertBlockChecked [(1, 2)] 0 2 ([2], [false]) = none ∧
    sortTwoElementsChecked [7] = none := by
  decide

/-- C18: no indexed access of the core is out of range.  Run with every access
checked (`container[i]`, `container[i+1]` and `back()` in `createSortedPairs`,
`jacobsthal[currentIndex-1]`, `jacobsthal[currentIndex-2]` and `back()` in
`generateJacobsthalSequence`, `jacobsthal[i-1]`, `jacobsthal[i]`,
`pairs[actualIndex]`, `inserted[actualIndex]` and the guard
`actualIndex < pairs.size()` in `insertSmallerElements`, `container[mid]` in
`binarySearch`, every insertion position), the sort never fails and returns what
the unchecked sort returns, for every input. -/
theorem no_internal_fault (input : List Int) :
    fordJohnsonSortChecked input = some (fordJohnsonSort input) ∧
    createSortedPairsChecked input = some (createSortedPairs input) ∧
    (∀ pairCount, generateJacobsthalSequenceChecked pairCount
      = some (generateJacobsthalSequence pairCount)) ∧
    (∀ (mainChain : List Int) (pairs : List (Int × Int)),
      insertSmallerElementsChecked mainChain pairs
        = some (insertSmallerElements mainChain pairs)) ∧
    (∀ (value : Int) (low high : Nat), high ≤ input.length →
      binarySearchChecked input value low high = some (binarySearch input value low high)) ∧
    (∀ value : Int, binarySearch input value 0 input.length ≤ input.length) := by
  refine ⟨?_, createSortedPairsChecked_eq input, generateJacobsthalSequenceChecked_eq,
    insertSmallerElementsChecked_eq, ?_, ?_⟩
  · unfold fordJohnsonSortChecked fordJohnsonSort
    split
    · rfl
    · exact mergeInsertSortCheckedFuel_eq _ _
  · intro value low high h
    exact binarySearchLoopChecked_eq input value _ low high h
  · intro value
    exact binarySearchLoop_le input value _ 0 input.length (Nat.zero_le _)

/-! ## The templates give the same sequence on every lawful container -/

theorem vectorOps_lawful : Lawful vectorOps where
  size_eq := fun _ => rfl
  get_eq := fun _ _ _ => rfl
  set_eq := fun _ _ _ _ => rfl
  insert_eq := fun _ _ _ _ => rfl
  pushBack_eq := fun _ _ => rfl
  back_eq := fun _ _ => rfl
  empty_eq := rfl
  assign_eq := fun _ => rfl

theorem insertAt_append_left (l1 l2 : List Int) (pos : Nat) (v : Int)
    (h : pos ≤ l1.length) : insertAt (l1 ++ l2) pos v = insertAt l1 pos v ++ l2 := by
  unfold insertAt
  rw [List.take_append_of_le_length h, List.drop_append_of_le_length h]
  simp

theorem insertAt_append_right (l1 l2 : List Int) (pos : Nat) (v : Int)
    (h : l1.length ≤ pos) :
    insertAt (l1 ++ l2) pos v = l1 ++ insertAt l2 (pos - l1.length) v := by
  unfold insertAt
  rw [List.take_append_eq_append_take, List.drop_append_eq_append_drop,
    List.take_of_length_le h, List.drop_of_length_le h]
  simp

theorem getLastD_append_of_ne_nil (l1 l2 : List Int) (h : l2 ≠ []) :
    (l1 ++ l2).getLastD 0 = l2.getLastD 0 := by
  rw [List.getLastD_eq_getLast?, List.getLastD_eq_getLast?, List.getLast?_append]
  cases l2 with
  | nil => exact absurd rfl h
  | cons a rest => simp [List.getLast?_eq_getLast]

theorem dequeOps_lawful : Lawful dequeOps where
  size_eq := fun d => by simp [dequeOps]
  get_eq := fun d i _ => by
    show (if i < d.firstBlock.length then d.firstBlock.getD i 0
      else d.secondBlock.getD (i - d.firstBlock.length) 0)
      = (d.firstBlock ++ d.secondBlock).getD i 0
    split
    · rename_i hlt
      rw [List.getD_append _ _ _ _ hlt]
    · rename_i hge
      rw [List.getD_append_right _ _ _ _ (not_lt.mp hge)]
  set_eq := fun d i v _ => by
    show dequeOps.toList (if i < d.firstBlock.length then ⟨d.firstBlock.set i v, d.secondBlock⟩
      else ⟨d.firstBlock, d.secondBlock.set (i - d.firstBlock.length) v⟩)
      = (d.firstBlock ++ d.secondBlock).set i v
    split
    · rename_i hlt
      rw [List.set_append, if_pos hlt]
      rfl
    · rename_i hge
      rw [List.set_append, if_neg hge]
      rfl
  insert_eq := fun d pos v _ => by
    show dequeOps.toList (if pos ≤ d.firstBlock.length then
        ⟨insertAt d.firstBlock pos v, d.secondBlock⟩
      else ⟨d.firstBlock, insertAt d.secondBlock (pos - d.firstBlock.length) v⟩)
      = insertAt (d.firstBlock ++ d.secondBlock) pos v
    split
    · rename_i hle
      rw [insertAt_append_left _ _ _ _ hle]
      rfl
    · rename_i hgt
      rw [insertAt_append_right _ _ _ _ (by omega)]
      rfl
  pushBack_eq := fun d v => by
    show d.firstBlock ++ (d.secondBlock ++ [v]) = d.firstBlock ++ d.secondBlock ++ [v]
    rw [List.append_assoc]
  back_eq := fun d _ => by
    show (if d.secondBlock.isEmpty then d.firstBlock.getLastD 0 else d.secondBlock.getLastD 0)
      = (d.firstBlock ++ d.secondBlock).getLastD 0
    split
    · rename_i hempty
      have : d.secondBlock = [] := by simpa using hempty
      rw [this, List.append_nil]
    · rename_i hne
      rw [getLastD_append_of_ne_nil _ _ (by simpa using hne)]
  empty_eq := rfl
  assign_eq := fun l => List.take_append_drop _ l

theorem size_set {C : Type} (ops : ContainerOps C) (h : Lawful ops) (c : C) (i : Nat)
    (v : Int) (hi : i < ops.size c) : ops.size (ops.set c i v) = ops.size c := by
  rw [h.size_eq, h.set_eq c i v hi, List.length_set, ← h.size_eq]

theorem binarySearchLoopOn_eq {C : Type} (ops : ContainerOps C) (h : Lawful ops)
    (container : C) (value : Int) (fuel : Nat) :
    ∀ low high : Nat, high ≤ ops.size container →
      binarySearchLoopOn ops container value fuel low high
        = binarySearchLoop (ops.toList container) value fuel low high := by
  induction fuel with
  | zero => intro low high _; rfl
  | succ n ih =>
    intro low high hhigh
    unfold binarySearchLoopOn binarySearchLoop
    split
    · rename_i hlt
      dsimp only
      rw [h.get_eq container (low + (high - low) / 2) (by omega)]
      split
      · exact ih _ _ hhigh
      · exact ih _ _ (by omega)
    · rfl

theorem insertSmallerOn_eq {C : Type} (ops : ContainerOps C) (h : Lawful ops)
    (mainChain : C) (smaller : Int) :
    ops.toList (insertSmallerOn ops mainChain smaller)
      = insertSmaller (ops.toList mainChain) smaller := by
  unfold insertSmallerOn binarySearchOn
  rw [binarySearchLoopOn_eq ops h mainChain smaller _ 0 _ (le_refl _), h.size_eq]
  rw [h.insert_eq]
  · rfl
  · rw [h.size_eq]
    exact binarySearchLoop_le _ _ _ 0 _ (Nat.zero_le _)

theorem sortTwoElementsOn_eq {C : Type} (ops : ContainerOps C) (h : Lawful ops)
    (container : C) (hsize : ops.size container = 2) :
    ops.toList (sortTwoElementsOn ops container) = sortTwoElements (ops.toList container) := by
  unfold sortTwoElementsOn sortTwoElements
  rw [h.get_eq container 0 (by omega), h.get_eq container 1 (by omega)]
  split
  · rw [h.set_eq _ 1 _ (by rw [size_set ops h _ _ _ (by omega)]; omega),
      h.set_eq _ 0 _ (by omega)]
  · rfl

theorem createSortedPairsLoopOn_eq {C : Type} (ops : ContainerOps C) (h : Lawful ops)
    (container : C) (fuel : Nat) :
    ∀ (k : Nat) (pairs : List (Int × Int)), 2 * k ≤ 2 * (ops.size container / 2) →
      createSortedPairsLoopOn ops container (2 * (ops.size container / 2)) fuel (2 * k) pairs
        = createSortedPairsLoop (ops.toList container) (2 * (ops.size container / 2)) fuel
            (2 * k) pairs := by
  induction fuel with
  | zero => intro k pairs _; rfl
  | succ n ih =>
    intro k pairs hk
    unfold createSortedPairsLoopOn createSortedPairsLoop
    split
    · rename_i hlt
      dsimp only
      rw [h.get_eq container (2 * k) (by omega), h.get_eq container (2 * k + 1) (by omega)]
      rw [show 2 * k + 2 = 2 * (k + 1) by ring]
      split
      · exact ih (k + 1) _ (by omega)
      · exact ih (k + 1) _ (by omega)
    · rfl

theorem createSortedPairsOn_eq {C : Type} (ops : ContainerOps C) (h : Lawful ops)
    (container : C) :
    createSortedPairsOn ops container = createSortedPairs (ops.toList container) := by
  have hend : ops.size container - (if (ops.size container % 2 == 1) = true then 1 else 0)
      = 2 * (ops.size container / 2) := by
    by_cases hodd : ops.size container % 2 = 1
    · simp [hodd]; omega
    · simp [hodd]; omega
  have hloop := createSortedPairsLoopOn_eq ops h container (ops.size container) 0 []
    (by omega)
  simp only [Nat.mul_zero] at hloop
  unfold createSortedPairsOn createSortedPairs
  simp only [hend, hloop]
  rw [← h.size_eq, hend]
  by_cases hodd : ops.size container % 2 = 1
  · have hb : (ops.size container % 2 == 1) = true := by simp [hodd]
    simp only [hb, if_true]
    rw [h.back_eq container (by omega)]
  · have hb : (ops.size container % 2 == 1) = false := by simp [hodd]
    simp only [hb, Bool.false_eq_true, if_false]

theorem extractLargerElementsOn_foldl {C : Type} (ops : ContainerOps C) (h : Lawful ops)
    (pairs : List (Int × Int)) :
    ∀ largerElements : C,
      ops.toList (pairs.foldl (fun acc pair => ops.pushBack acc pair.2) largerElements)
        = ops.toList largerElements ++ pairs.map (fun pair => pair.2) := by
  induction pairs with
  | nil => intro largerElements; simp
  | cons pair rest ih =>
    intro largerElements
    rw [List.foldl_cons, ih, h.pushBack_eq]
    simp

theorem extractLargerElementsOn_eq {C : Type} (ops : ContainerOps C) (h : Lawful ops)
    (pairs : List (Int × Int)) :
    ops.toList (extractLargerElementsOn ops pairs) = extractLargerElements pairs := by
  unfold extractLargerElementsOn extractLargerElements
  rw [extractLargerElementsOn_foldl ops h, h.empty_eq]
  rfl

theorem insertBlockOn_eq {C : Type} (ops : ContainerOps C) (h : Lawful ops)
    (pairs : List (Int × Int)) (start : Nat) (pairIndex : Nat) :
    ∀ state : C × List Bool,
      (ops.toList (insertBlockOn ops pairs start pairIndex state).1,
        (insertBlockOn ops pairs start pairIndex state).2)
        = insertBlock pairs start pairIndex (ops.toList state.1, state.2) := by
  induction pairIndex with
  | zero => intro state; rfl
  | succ n ih =>
    intro state
    unfold insertBlockOn insertBlock
    split
    · dsimp only
      split
      · rw [ih, insertSmallerOn_eq ops h]
      · exact ih state
    · rfl

theorem insertBlocksOn_eq {C : Type} (ops : ContainerOps C) (h : Lawful ops)
    (pairs : List (Int × Int)) (jacobsthal : List Nat) (fuel : Nat) :
    ∀ (i : Nat) (state : C × List Bool),
      (ops.toList (insertBlocksOn ops pairs jacobsthal fuel i state).1,
        (insertBlocksOn ops pairs jacobsthal fuel i state).2)
        = insertBlocks pairs jacobsthal fuel i (ops.toList state.1, state.2) := by
  induction fuel with
  | zero => intro i state; rfl
  | succ n ih =>
    intro i state
    unfold insertBlocksOn insertBlocks
    split
    · dsimp only
      rw [ih, insertBlockOn_eq ops h]
    · rfl

theorem insertRemainingOn_eq {C : Type} (ops : ContainerOps C) (h : Lawful ops)
    (pairs : List (Int × Int)) (inserted : List Bool) (fuel : Nat) :
    ∀ (pairIndex : Nat) (mainChain : C),
      ops.toList (insertRemainingOn ops pairs inserted fuel pairIndex mainChain)
        = insertRemaining pairs inserted fuel pairIndex (ops.toList mainChain) := by
  induction fuel with
  | zero => intro i mainChain; rfl
  | succ n ih =>
    intro i mainChain
    unfold insertRemainingOn insertRemaining
    split
    · split
      · rw [ih, insertSmallerOn_eq ops h]
      · exact ih _ _
    · rfl

theorem insertSmallerElementsOn_eq {C : Type} (ops : ContainerOps C) (h : Lawful ops)
    (mainChain : C) (pairs : List (Int × Int)) :
    ops.toList (insertSmallerElementsOn ops mainChain pairs)
      = insertSmallerElements (ops.toList mainChain) pairs := by
  unfold insertSmallerElementsOn insertSmallerElements
  split
  · rfl
  · dsimp only
    have hblocks := insertBlocksOn_eq ops h pairs (generateJacobsthalSequence pairs.length)
      (generateJacobsthalSequence pairs.length).length 1
      (mainChain, List.replicate pairs.length false)
    have h1 := congrArg Prod.fst hblocks
    have h2 := congrArg Prod.snd hblocks
    dsimp only at h1 h2
    rw [insertRemainingOn_eq ops h, h1, h2]
    rfl

theorem buildMainChainOn_eq {C : Type} (ops : ContainerOps C) (h : Lawful ops)
    (largerElements : C) (pairs : List (Int × Int)) (leftover : Int) (hasLeftover : Bool) :
    ops.toList (buildMainChainOn ops largerElements pairs leftover hasLeftover)
      = buildMainChain (ops.toList largerElements) pairs leftover hasLeftover := by
  unfold buildMainChainOn buildMainChain
  dsimp only
  split
  · have := insertSmallerOn_eq ops h (insertSmallerElementsOn ops largerElements pairs) leftover
    rw [insertSmallerElementsOn_eq ops h] at this
    exact this
  · exact insertSmallerElementsOn_eq ops h largerElements pairs

theorem mergeInsertSortFuelOn_eq {C : Type} (ops : ContainerOps C) (h : Lawful ops)
    (fuel : Nat) :
    ∀ container : C,
      ops.toList (mergeInsertSortFuelOn ops fuel container)
        = mergeInsertSortFuel fuel (ops.toList container) := by
  induction fuel with
  | zero => intro container; rfl
  | succ n ih =>
    intro container
    unfold mergeInsertSortFuelOn mergeInsertSortFuel
    rw [← h.size_eq]
    split
    · rfl
    · split
      · rename_i h2
        exact sortTwoElementsOn_eq ops h container h2
      · dsimp only
        rw [buildMainChainOn_eq ops h, ih, extractLargerElementsOn_eq ops h,
          createSortedPairsOn_eq ops h]

theorem fordJohnsonSortOn_eq {C : Type} (ops : ContainerOps C) (h : Lawful ops)
    (container : C) :
    ops.toList (fordJohnsonSortOn ops container) = fordJohnsonSort (ops.toList container) := by
  unfold fordJohnsonSortOn fordJohnsonSort mergeInsertSort
  rw [← h.size_eq]
  split
  · rfl
  · exact mergeInsertSortFuelOn_eq ops h _ container

/-- C13: after `sortWithDeque(input)` and `sortWithVector(input)` the sequence
held by `getSortedDeque()` and the one held by `getSortedVector()` are identical:
the same list of elements, the same size, the same element under `operator[]` at
every index, and that list is what the list model `fordJohnsonSort` returns.  The
deque holds its elements in two blocks (`[3, 4]` and `[5, 7, 9]` for the input
`[3, 5, 9, 7, 4]`), the vector in one. -/
theorem cross_container_equivalence (sorter : Sorter) (input : List Int)
    (dequeTime vectorTime : Int) :
    dequeOps.toList (getSortedDeque (sortWithDeque sorter input dequeTime))
      = vectorOps.toList (getSortedVector (sortWithVector sorter input vectorTime)) ∧
    dequeOps.size (getSortedDeque (sortWithDeque sorter input dequeTime))
      = vectorOps.size (getSortedVector (sortWithVector sorter input vectorTime)) ∧
    (∀ i, i < dequeOps.size (getSortedDeque (sortWithDeque sorter input dequeTime)) →
      dequeOps.get (getSortedDeque (sortWithDeque sorter input dequeTime)) i
        = vectorOps.get (getSortedVector (sortWithVector sorter input vectorTime)) i) ∧
    dequeOps.toList
        (getSortedDeque
          (sortWithVector (sortWithDeque sorter input dequeTime) input vectorTime))
      = vectorOps.toList
          (getSortedVector
            (sortWithVector (sortWithDeque sorter input dequeTime) input vectorTime)) ∧
    dequeOps.toList (getSortedDeque (sortWithDeque sorter input dequeTime))
      = fordJohnsonSort input ∧
    getSortedDeque (sortWithDeque sorter [3, 5, 9, 7, 4] dequeTime)
      = ⟨[3, 4], [5, 7, 9]⟩ ∧
    getSortedVector (sortWithVector sorter [3, 5, 9, 7, 4] vectorTime) = [3, 4, 5, 7, 9] := by
  have hdeque : dequeOps.toList (fordJohnsonSortOn dequeOps (dequeOps.assign input))
      = fordJohnsonSort input := by
    rw [fordJohnsonSortOn_eq dequeOps dequeOps_lawful, dequeOps_lawful.assign_eq]
  have hvector : vectorOps.toList (fordJohnsonSortOn vectorOps (vectorOps.assign input))
      = fordJohnsonSort input := by
    rw [fordJohnsonSortOn_eq vectorOps vectorOps_lawful, vectorOps_lawful.assign_eq]
  have hseq : dequeOps.toList (getSortedDeque (sortWithDeque sorter input dequeTime))
      = vectorOps.toList (getSortedVector (sortWithVector sorter input vectorTime)) :=
    hdeque.trans hvector.symm
  have hd : fordJohnsonSortOn dequeOps (dequeOps.assign [3, 5, 9, 7, 4])
      = ⟨[3, 4], [5, 7, 9]⟩ := by decide
  have hv : fordJohnsonSortOn vectorOps (vectorOps.assign [3, 5, 9, 7, 4])
      = [3, 4, 5, 7, 9] := by decide
  refine ⟨hseq, ?_, ?_, hseq, hdeque, hd, hv⟩
  · rw [dequeOps_lawful.size_eq, vectorOps_lawful.size_eq, hseq]
  · intro i hi
    have hi2 : i < vectorOps.size
        (getSortedVector (sortWithVector sorter input vectorTime)) := by
      rw [vectorOps_lawful.size_eq, ← hseq, ← dequeOps_lawful.size_eq]
      exact hi
    rw [dequeOps_lawful.get_eq _ i hi, vectorOps_lawful.get_eq _ i hi2, hseq]

end FJA
